import Mathlib

/-!
Verification of the key codec, Key object, KeyList codec, bound arithmetic and
range iterator of the acid/centidb native extension, shallowly embedded from
the C sources (src/ext/keylib.c, key.c, keylist.c, acid.c, iterators.c).
Bytes are modelled as natural numbers below 256; machine arithmetic that can
wrap is made explicit with mod 256. Fallible operations return Option.
-/

namespace Acid

/-! ## Element kind tags (src/ext/acid.h, enum ElementKind) -/

def KIND_NULL : Nat := 15
def KIND_NEG_INTEGER : Nat := 20
def KIND_INTEGER : Nat := 21
def KIND_BOOL : Nat := 30
def KIND_BLOB : Nat := 40
def KIND_TEXT : Nat := 50
def KIND_UUID : Nat := 90
def KIND_NEG_TIME : Nat := 91
def KIND_TIME : Nat := 92
def KIND_SEP : Nat := 102

/-! ## Unsigned bytewise comparison (src/ext/acid.c, acid_memcmp) -/

/-- Unsigned lexicographic comparison of two byte strings, mirroring
acid_memcmp in src/ext/acid.c: memcmp over the common span, then the
shorter operand sorts first. -/
def acid_memcmp : List Nat → List Nat → Ordering
  | [], [] => .eq
  | [], _ :: _ => .lt
  | _ :: _, [] => .gt
  | a :: as, b :: bs => (compare a b).then (acid_memcmp as bs)

/-- A byte string, every entry below 256. -/
def Bytes (l : List Nat) : Prop := ∀ b ∈ l, b < 256

instance : DecidablePred Bytes := fun l =>
  inferInstanceAs (Decidable (∀ b ∈ l, b < 256))

theorem Ordering.lt_then (o : Ordering) : Ordering.lt.then o = .lt := rfl

theorem Ordering.gt_then (o : Ordering) : Ordering.gt.then o = .gt := rfl

theorem Ordering.eq_then (o : Ordering) : Ordering.eq.then o = o := rfl

theorem nat_compare_lt {a b : Nat} (h : a < b) : compare a b = .lt := by
  simpa [Nat.compare_eq_lt] using h

theorem nat_compare_gt {a b : Nat} (h : b < a) : compare a b = .gt := by
  simpa [Nat.compare_eq_gt] using h

theorem nat_compare_self (a : Nat) : compare a a = .eq := by
  simp [Nat.compare_eq_eq]

theorem acid_memcmp_self (l : List Nat) : acid_memcmp l l = .eq := by
  induction l with
  | nil => rfl
  | cons a as ih => simp [acid_memcmp, nat_compare_self, Ordering.eq_then, ih]

theorem acid_memcmp_eq_iff {l m : List Nat} : acid_memcmp l m = .eq ↔ l = m := by
  constructor
  · intro h
    induction l generalizing m with
    | nil => cases m with
      | nil => rfl
      | cons b bs => simp [acid_memcmp] at h
    | cons a as ih =>
      cases m with
      | nil => simp [acid_memcmp] at h
      | cons b bs =>
        simp only [acid_memcmp] at h
        rcases ho : compare a b with _ | _ | _ <;> rw [ho] at h
        · simp [Ordering.lt_then] at h
        · have hab : a = b := by
            have := Nat.compare_eq_eq.mp ho
            omega
          rw [Ordering.eq_then] at h
          exact by rw [hab, ih h]
        · simp [Ordering.gt_then] at h
  · intro h; rw [h]; exact acid_memcmp_self m

theorem acid_memcmp_swap (l m : List Nat) :
    acid_memcmp m l = (acid_memcmp l m).swap := by
  induction l generalizing m with
  | nil => cases m <;> rfl
  | cons a as ih =>
    cases m with
    | nil => rfl
    | cons b bs =>
      simp only [acid_memcmp]
      rcases ho : compare a b with _ | _ | _
      · rw [nat_compare_gt (Nat.compare_eq_lt.mp ho)]; rfl
      · have hab : a = b := Nat.le_antisymm (Nat.compare_eq_eq.mp ho).le
          (Nat.compare_eq_eq.mp ho).ge
        subst hab
        rw [nat_compare_self, Ordering.eq_then, Ordering.eq_then, ih]
      · rw [nat_compare_lt (Nat.compare_eq_gt.mp ho)]; rfl

theorem acid_memcmp_append_cancel (x r1 r2 : List Nat) :
    acid_memcmp (x ++ r1) (x ++ r2) = acid_memcmp r1 r2 := by
  induction x with
  | nil => rfl
  | cons a as ih => simp [acid_memcmp, nat_compare_self, Ordering.eq_then, ih]

/-- If the comparison is already decided strictly inside the two byte strings
(lt, and the left is not a prefix of the right), appending arbitrary tails
cannot change the verdict. -/
theorem acid_memcmp_append_lt {u v : List Nat} (r1 r2 : List Nat)
    (hlt : acid_memcmp u v = .lt) (hnp : ¬ u <+: v) :
    acid_memcmp (u ++ r1) (v ++ r2) = .lt := by
  induction u generalizing v with
  | nil => exact absurd (List.nil_prefix) hnp
  | cons a as ih =>
    cases v with
    | nil => simp [acid_memcmp] at hlt
    | cons b bs =>
      simp only [acid_memcmp, List.cons_append] at hlt ⊢
      rcases ho : compare a b with _ | _ | _ <;> rw [ho] at hlt
      · rw [Ordering.lt_then]
      · have hab : a = b := by
          have := Nat.compare_eq_eq.mp ho; omega
        subst hab
        rw [Ordering.eq_then] at hlt ⊢
        refine ih hlt ?_
        intro hp
        exact hnp (List.prefix_cons_inj a |>.mpr hp)
      · simp [Ordering.gt_then] at hlt

/-- A proper byte prefix sorts strictly first. -/
theorem acid_memcmp_proper_lt (u : List Nat) {w : List Nat} (hw : w ≠ []) :
    acid_memcmp u (u ++ w) = .lt := by
  induction u with
  | nil => cases w with
    | nil => exact absurd rfl hw
    | cons b bs => rfl
  | cons a as ih => simp [acid_memcmp, nat_compare_self, Ordering.eq_then, ih]

/-! ## Variable length integer (src/ext/keylib.c, write_int / read_plain_int) -/

/-- Big-endian body bytes of the three-or-more byte classes of write_int
(src/ext/keylib.c lines 212-241): one leading byte per size threshold
passed, then the low three bytes, each truncated to eight bits. -/
def bigBody (v : Nat) : List Nat :=
  (if 0xffffffffffffff < v then [(v >>> 56) % 256] else []) ++
  (if 0xffffffffffff < v then [(v >>> 48) % 256] else []) ++
  (if 0xffffffffff < v then [(v >>> 40) % 256] else []) ++
  (if 0xffffffff < v then [(v >>> 32) % 256] else []) ++
  (if 0xffffff < v then [(v >>> 24) % 256] else []) ++
  [(v >>> 16) % 256, (v >>> 8) % 256, v % 256]

/-- The patched first byte of the large classes: starts at 0xfa and is
incremented once per threshold passed, as in write_int. -/
def bigType (v : Nat) : Nat :=
  0xfa + (if 0xffffffffffffff < v then 1 else 0) +
  (if 0xffffffffffff < v then 1 else 0) +
  (if 0xffffffffff < v then 1 else 0) +
  (if 0xffffffff < v then 1 else 0) +
  (if 0xffffff < v then 1 else 0)

/-- Body of write_int (src/ext/keylib.c lines 189-244): the varint bytes of
the unsigned value v, each XORed with the mask. -/
def write_int_body (xor : Nat) (v : Nat) : List Nat :=
  if v ≤ 240 then [xor ^^^ v]
  else if v ≤ 2287 then
    [xor ^^^ (241 + (v - 240) / 256), xor ^^^ ((v - 240) % 256)]
  else if v ≤ 67823 then
    [xor ^^^ 0xf9, xor ^^^ ((v - 2288) / 256), xor ^^^ ((v - 2288) % 256)]
  else (bigType v :: bigBody v).map (xor ^^^ ·)

/-- write_int: optional kind byte (written unmasked), then the varint body. -/
def write_int (kind : Nat) (xor : Nat) (v : Nat) : List Nat :=
  (if kind ≠ 0 then [kind] else []) ++ write_int_body xor v

/-- Big-endian accumulation of count bytes, as the shift cascade of
read_plain_int performs for first bytes 250 to 255. -/
def readBE (xor : Nat) : Nat → Nat → List Nat → Option (Nat × List Nat)
  | 0, acc, rest => some (acc, rest)
  | _ + 1, _, [] => none
  | n + 1, acc, b :: r => readBE xor n (acc * 256 + (xor ^^^ b)) r

/-- read_plain_int (src/ext/keylib.c lines 535-583): decode one varint,
XORing every consumed byte with the mask. -/
def read_plain_int (xor : Nat) : List Nat → Option (Nat × List Nat)
  | [] => none
  | c :: rest =>
    let ch := xor ^^^ c
    if ch ≤ 240 then some (ch, rest)
    else if ch ≤ 248 then
      match rest with
      | b :: r => some (240 + 256 * (ch - 241) + (xor ^^^ b), r)
      | [] => none
    else if ch = 249 then
      match rest with
      | b1 :: b2 :: r => some (2288 + 256 * (xor ^^^ b1) + (xor ^^^ b2), r)
      | _ => none
    else readBE xor (ch - 247) 0 rest

/-- Big-endian rendering of a value over a fixed byte width, most significant
byte first; the reference shape used to state the byte layout of the wide
varint classes. -/
def beBytes : Nat → Nat → List Nat
  | 0, _ => []
  | w + 1, v => ((v >>> (8 * w)) % 256) :: beBytes w v

/-- Byte width of the wide classes: bigType minus 0xf7. -/
def bigWidth (v : Nat) : Nat := bigType v - 0xf7

theorem xor_xor_cancel (a b : Nat) : a ^^^ (a ^^^ b) = b := by
  rw [← Nat.xor_assoc, Nat.xor_self, Nat.zero_xor]

theorem xor_byte_lt (a b : Nat) (ha : a < 256) (hb : b < 256) : a ^^^ b < 256 :=
  Nat.xor_lt_two_pow (n := 8) ha hb

theorem zero_xor_map (l : List Nat) : l.map (0 ^^^ ·) = l := by
  simp [Nat.zero_xor]

theorem write_int_body_xor (xor v : Nat) :
    write_int_body xor v = (write_int_body 0 v).map (xor ^^^ ·) := by
  unfold write_int_body
  split
  · simp [Nat.zero_xor]
  · split
    · simp [Nat.zero_xor]
    · split
      · simp [Nat.zero_xor]
      · simp [List.map_map, Nat.zero_xor, Function.comp]

/-! ## Varint arithmetic facts -/

theorem pos_compare (M d1 d2 r1 r2 : Nat) (h1 : r1 < M) (h2 : r2 < M) :
    compare (d1 * M + r1) (d2 * M + r2) = (compare d1 d2).then (compare r1 r2) := by
  rcases Nat.lt_trichotomy d1 d2 with h | h | h
  · rw [nat_compare_lt h, Ordering.lt_then, nat_compare_lt]
    have : d1 * M + M ≤ d2 * M := by
      have := Nat.succ_le_of_lt h
      calc d1 * M + M = (d1 + 1) * M := by ring
        _ ≤ d2 * M := Nat.mul_le_mul_right M this
    omega
  · subst h
    rw [nat_compare_self, Ordering.eq_then]
    rcases Nat.lt_trichotomy r1 r2 with h | h | h
    · rw [nat_compare_lt h, nat_compare_lt (by omega)]
    · subst h; rw [nat_compare_self, nat_compare_self]
    · rw [nat_compare_gt h, nat_compare_gt (by omega)]
  · rw [nat_compare_gt h, Ordering.gt_then, nat_compare_gt]
    have : d2 * M + M ≤ d1 * M := by
      have := Nat.succ_le_of_lt h
      calc d2 * M + M = (d2 + 1) * M := by ring
        _ ≤ d1 * M := Nat.mul_le_mul_right M this
    omega

theorem readBE_beBytes (xor : Nat) : ∀ (n : Nat) (acc v : Nat) (r : List Nat),
    readBE xor n acc ((beBytes n v).map (xor ^^^ ·) ++ r) =
      some (acc * 2 ^ (8 * n) + v % 2 ^ (8 * n), r) := by
  intro n
  induction n with
  | zero => intro acc v r; simp [beBytes, readBE, Nat.mod_one]
  | succ n ih =>
    intro acc v r
    simp only [beBytes, List.map_cons, List.cons_append, readBE, xor_xor_cancel,
      List.append_eq]
    rw [ih]
    have hdigit : v % 2 ^ (8 * (n + 1)) =
        v % 2 ^ (8 * n) + 2 ^ (8 * n) * (v / 2 ^ (8 * n) % 256) := by
      have h : (2 : Nat) ^ (8 * (n + 1)) = 2 ^ (8 * n) * 256 := by
        rw [Nat.mul_succ, pow_add]; norm_num
      rw [h, Nat.mod_mul]
    have hpow : (2 : Nat) ^ (8 * (n + 1)) = 2 ^ (8 * n) * 256 := by
      rw [Nat.mul_succ, pow_add]; norm_num
    rw [Nat.shiftRight_eq_div_pow, hdigit, hpow]
    congr 2
    ring

theorem beBytes_cmp : ∀ (n v w : Nat),
    acid_memcmp (beBytes n v) (beBytes n w) =
      compare (v % 2 ^ (8 * n)) (w % 2 ^ (8 * n)) := by
  intro n
  induction n with
  | zero => intro v w; simp [beBytes, acid_memcmp, nat_compare_self, Nat.mod_one]
  | succ n ih =>
    intro v w
    simp only [beBytes, acid_memcmp]
    rw [ih]
    have h : (2 : Nat) ^ (8 * (n + 1)) = 2 ^ (8 * n) * 256 := by
      rw [Nat.mul_succ, pow_add]; norm_num
    rw [Nat.shiftRight_eq_div_pow, Nat.shiftRight_eq_div_pow]
    rw [h, Nat.mod_mul, Nat.mod_mul]
    have e1 : v % 2 ^ (8 * n) + 2 ^ (8 * n) * (v / 2 ^ (8 * n) % 256) =
        (v / 2 ^ (8 * n) % 256) * 2 ^ (8 * n) + v % 2 ^ (8 * n) := by ring
    have e2 : w % 2 ^ (8 * n) + 2 ^ (8 * n) * (w / 2 ^ (8 * n) % 256) =
        (w / 2 ^ (8 * n) % 256) * 2 ^ (8 * n) + w % 2 ^ (8 * n) := by ring
    rw [e1, e2, pos_compare _ _ _ _ _ (Nat.mod_lt _ (by positivity)) (Nat.mod_lt _ (by positivity))]

theorem memcmp_cons_lt {a b : Nat} (h : a < b) (as bs : List Nat) :
    acid_memcmp (a :: as) (b :: bs) = .lt := by
  simp [acid_memcmp, nat_compare_lt h, Ordering.lt_then]

theorem memcmp_cons_same (a : Nat) (as bs : List Nat) :
    acid_memcmp (a :: as) (a :: bs) = acid_memcmp as bs := by
  simp [acid_memcmp, nat_compare_self, Ordering.eq_then]

theorem bigType_ge (v : Nat) : 250 ≤ bigType v := by
  unfold bigType; split_ifs <;> norm_num

theorem bigType_le (v : Nat) : bigType v ≤ 255 := by
  unfold bigType; split_ifs <;> omega

theorem bigType_mono {v w : Nat} (h : v ≤ w) : bigType v ≤ bigType w := by
  unfold bigType
  have i1 : ∀ a : Nat, (if a < v then (1 : Nat) else 0) ≤ (if a < w then 1 else 0) := by
    intro a; split_ifs <;> omega
  have := i1 0xffffffffffffff
  have := i1 0xffffffffffff
  have := i1 0xffffffffff
  have := i1 0xffffffff
  have := i1 0xffffff
  omega

theorem v_lt_bigWidth {v : Nat} (h1 : 67823 < v) (h2 : v < 2 ^ 64) :
    v < 2 ^ (8 * bigWidth v) := by
  unfold bigWidth bigType
  by_cases h56 : 0xffffffffffffff < v <;>
    by_cases h48 : 0xffffffffffff < v <;>
    by_cases h40 : 0xffffffffff < v <;>
    by_cases h32 : 0xffffffff < v <;>
    by_cases h24 : 0xffffff < v <;>
    simp only [h56, h48, h40, h32, h24, if_true, if_false] <;>
    norm_num <;> omega

theorem bigBody_eq_beBytes {v : Nat} (h1 : 67823 < v) :
    bigBody v = beBytes (bigWidth v) v := by
  unfold bigBody bigWidth bigType
  by_cases h56 : 0xffffffffffffff < v
  · have : 0xffffffffffff < v := by omega
    have : 0xffffffffff < v := by omega
    have : 0xffffffff < v := by omega
    have : 0xffffff < v := by omega
    simp only [*, if_true]
    norm_num [beBytes]
  · by_cases h48 : 0xffffffffffff < v
    · have : 0xffffffffff < v := by omega
      have : 0xffffffff < v := by omega
      have : 0xffffff < v := by omega
      simp only [*, if_true, h56, if_false]
      norm_num [beBytes]
    · by_cases h40 : 0xffffffffff < v
      · have : 0xffffffff < v := by omega
        have : 0xffffff < v := by omega
        simp only [*, if_true, h56, h48, if_false]
        norm_num [beBytes]
      · by_cases h32 : 0xffffffff < v
        · have : 0xffffff < v := by omega
          simp only [*, if_true, h56, h48, h40, if_false]
          norm_num [beBytes]
        · by_cases h24 : 0xffffff < v
          · simp only [*, if_true, h56, h48, h40, h32, if_false]
            norm_num [beBytes]
          · simp only [h56, h48, h40, h32, h24, if_false]
            norm_num [beBytes]

/-- Decoding inverts encoding for every unsigned 64-bit value, for both the
plain (xor 0) and the complemented (xor 255) form, leaving the tail intact. -/
theorem read_plain_int_write (xor : Nat) {v : Nat} (hv : v < 2 ^ 64) (r : List Nat) :
    read_plain_int xor (write_int_body xor v ++ r) = some (v, r) := by
  unfold write_int_body
  by_cases hv1 : v ≤ 240
  · simp [read_plain_int, hv1, xor_xor_cancel]
  · by_cases hv2 : v ≤ 2287
    · have hd : (v - 240) / 256 ≤ 7 := by omega
      simp only [hv1, hv2, if_false, if_true, List.cons_append, read_plain_int,
        xor_xor_cancel, List.nil_append]
      rw [if_neg (by omega), if_pos (by omega)]
      have heq : 240 + 256 * ((v - 240) / 256) + (v - 240) % 256 = v := by
        have := Nat.div_add_mod (v - 240) 256
        omega
      simp only [Nat.add_sub_cancel_left]
      rw [heq]
    · by_cases hv3 : v ≤ 67823
      · have hd : (v - 2288) / 256 ≤ 255 := by omega
        simp only [hv1, hv2, hv3, if_false, if_true, List.cons_append, read_plain_int,
          xor_xor_cancel, List.nil_append]
        have heq : 2288 + 256 * ((v - 2288) / 256) + (v - 2288) % 256 = v := by
          have := Nat.div_add_mod (v - 2288) 256
          omega
        rw [heq]
        norm_num
      · have h1 : 67823 < v := by omega
        have hty1 := bigType_ge v
        have hty2 := bigType_le v
        simp only [hv1, hv2, hv3, if_false, List.map_cons, List.cons_append,
          read_plain_int, xor_xor_cancel]
        rw [if_neg (by omega), if_neg (by omega), if_neg (by omega)]
        rw [bigBody_eq_beBytes h1]
        have hw : bigType v - 247 = bigWidth v := rfl
        rw [hw, readBE_beBytes]
        have := v_lt_bigWidth h1 (by omega)
        simp [Nat.mod_eq_of_lt this]

/-- No varint body is a proper prefix of another: decoding is deterministic,
so a prefix relation forces value equality. -/
theorem write_int_body_prefix_inj {v w : Nat} (hv : v < 2 ^ 64) (hw : w < 2 ^ 64)
    (h : write_int_body 0 v <+: write_int_body 0 w) : v = w := by
  obtain ⟨t, ht⟩ := h
  have h1 := read_plain_int_write 0 hv t
  have h2 := read_plain_int_write 0 hw ([] : List Nat)
  rw [List.append_nil] at h2
  rw [← ht] at h2
  rw [h1] at h2
  exact congrArg Prod.fst (Option.some.inj h2)

theorem write_int_body_bytes (v : Nat) : Bytes (write_int_body 0 v) := by
  intro b hb
  unfold write_int_body at hb
  by_cases hv1 : v ≤ 240
  · simp [hv1, Nat.zero_xor] at hb; omega
  · by_cases hv2 : v ≤ 2287
    · have : (v - 240) / 256 ≤ 7 := by omega
      simp [hv1, hv2, Nat.zero_xor] at hb
      rcases hb with h | h <;> omega
    · by_cases hv3 : v ≤ 67823
      · have : (v - 2288) / 256 ≤ 255 := by omega
        simp [hv1, hv2, hv3, Nat.zero_xor] at hb
        rcases hb with h | h | h <;> omega
      · have hty := bigType_le v
        simp [hv1, hv2, hv3, Nat.zero_xor, bigBody] at hb
        rcases hb with h | h
        · omega
        · rcases h with ⟨_, h⟩ | ⟨_, h⟩ | ⟨_, h⟩ | ⟨_, h⟩ | ⟨_, h⟩ | h | h | h <;>
            subst h <;> exact Nat.mod_lt _ (by norm_num)

theorem write_int_body_lt {v w : Nat} (hvw : v < w) (hw : w < 2 ^ 64) :
    acid_memcmp (write_int_body 0 v) (write_int_body 0 w) = .lt := by
  by_cases hw1 : w ≤ 240
  · have hv1 : v ≤ 240 := by omega
    simp only [write_int_body, if_pos hv1, if_pos hw1, Nat.zero_xor]
    exact memcmp_cons_lt hvw _ _
  · by_cases hw2 : w ≤ 2287
    · by_cases hv1 : v ≤ 240
      · simp only [write_int_body, if_pos hv1, if_neg hw1, if_pos hw2, Nat.zero_xor]
        exact memcmp_cons_lt (by omega) _ _
      · have hv2 : v ≤ 2287 := by omega
        simp only [write_int_body, if_neg hv1, if_pos hv2, if_neg hw1, if_pos hw2,
          Nat.zero_xor]
        rcases Nat.lt_trichotomy ((v - 240) / 256) ((w - 240) / 256) with h | h | h
        · exact memcmp_cons_lt (by omega) _ _
        · rw [h, memcmp_cons_same]
          have e1 := Nat.div_add_mod (v - 240) 256
          have e2 := Nat.div_add_mod (w - 240) 256
          exact memcmp_cons_lt (by omega) _ _
        · have hle : (v - 240) / 256 ≤ (w - 240) / 256 :=
            Nat.div_le_div_right (by omega)
          omega
    · by_cases hw3 : w ≤ 67823
      · by_cases hv1 : v ≤ 240
        · simp only [write_int_body, if_pos hv1, if_neg hw1, if_neg hw2, if_pos hw3,
            Nat.zero_xor]
          exact memcmp_cons_lt (by omega) _ _
        · by_cases hv2 : v ≤ 2287
          · have hd : (v - 240) / 256 ≤ 7 := by omega
            simp only [write_int_body, if_neg hv1, if_pos hv2, if_neg hw1, if_neg hw2,
              if_pos hw3, Nat.zero_xor]
            exact memcmp_cons_lt (by omega) _ _
          · have hv3 : v ≤ 67823 := by omega
            simp only [write_int_body, if_neg hv1, if_neg hv2, if_pos hv3, if_neg hw1,
              if_neg hw2, if_pos hw3, Nat.zero_xor]
            rw [memcmp_cons_same]
            rcases Nat.lt_trichotomy ((v - 2288) / 256) ((w - 2288) / 256) with h | h | h
            · exact memcmp_cons_lt h _ _
            · rw [h, memcmp_cons_same]
              have e1 := Nat.div_add_mod (v - 2288) 256
              have e2 := Nat.div_add_mod (w - 2288) 256
              exact memcmp_cons_lt (by omega) _ _
            · have hle : (v - 2288) / 256 ≤ (w - 2288) / 256 :=
                Nat.div_le_div_right (by omega)
              omega
      · have h1w : 67823 < w := by omega
        have htyw1 := bigType_ge w
        by_cases hv1 : v ≤ 240
        · simp only [write_int_body, if_pos hv1, if_neg hw1, if_neg hw2, if_neg hw3,
            Nat.zero_xor, List.map_cons]
          exact memcmp_cons_lt (by omega) _ _
        · by_cases hv2 : v ≤ 2287
          · have hd : (v - 240) / 256 ≤ 7 := by omega
            simp only [write_int_body, if_neg hv1, if_pos hv2, if_neg hw1, if_neg hw2,
              if_neg hw3, Nat.zero_xor, List.map_cons]
            exact memcmp_cons_lt (by omega) _ _
          · by_cases hv3 : v ≤ 67823
            · simp only [write_int_body, if_neg hv1, if_neg hv2, if_pos hv3, if_neg hw1,
                if_neg hw2, if_neg hw3, Nat.zero_xor, List.map_cons]
              exact memcmp_cons_lt (by omega) _ _
            · have h1v : 67823 < v := by omega
              simp only [write_int_body, if_neg hv1, if_neg hv2, if_neg hv3, if_neg hw1,
                if_neg hw2, if_neg hw3, List.map_cons, zero_xor_map, Nat.zero_xor,
                List.map_id']
              rcases Nat.lt_trichotomy (bigType v) (bigType w) with h | h | h
              · exact memcmp_cons_lt h _ _
              · rw [h, memcmp_cons_same, bigBody_eq_beBytes h1v, bigBody_eq_beBytes h1w]
                have hwid : bigWidth v = bigWidth w := by unfold bigWidth; rw [h]
                rw [hwid, beBytes_cmp]
                have hv64 : v < 2 ^ 64 := by omega
                have b1 := v_lt_bigWidth h1v hv64
                have b2 := v_lt_bigWidth h1w hw
                rw [hwid] at b1
                rw [Nat.mod_eq_of_lt b1, Nat.mod_eq_of_lt b2]
                exact nat_compare_lt hvw
              · exact absurd (bigType_mono (Nat.le_of_lt hvw)) (by omega)

/-- Ordering of plain varints in context: the bytewise comparison of two
encoded unsigned integers, each followed by an arbitrary tail, is the value
comparison, falling through to the tails on equality. -/
theorem write_int_body_cmp {v w : Nat} (hv : v < 2 ^ 64) (hw : w < 2 ^ 64)
    (r1 r2 : List Nat) :
    acid_memcmp (write_int_body 0 v ++ r1) (write_int_body 0 w ++ r2) =
      (compare v w).then (acid_memcmp r1 r2) := by
  rcases Nat.lt_trichotomy v w with h | h | h
  · rw [nat_compare_lt h, Ordering.lt_then]
    exact acid_memcmp_append_lt r1 r2 (write_int_body_lt h hw)
      (fun hp => by have := write_int_body_prefix_inj hv hw hp; omega)
  · subst h
    rw [nat_compare_self, Ordering.eq_then, acid_memcmp_append_cancel]
  · rw [nat_compare_gt h, Ordering.gt_then, acid_memcmp_swap]
    rw [acid_memcmp_append_lt r2 r1 (write_int_body_lt h hv)
      (fun hp => by have := write_int_body_prefix_inj hw hv hp; omega)]
    rfl

set_option maxRecDepth 4096 in
theorem xor255_eq (a : Nat) (h : a < 256) : 255 ^^^ a = 255 - a := by
  revert h
  revert a
  decide

/-- XORing every byte with 255 reverses a comparison that is decided strictly
inside the operands. -/
theorem flip_memcmp_lt (u : List Nat) : ∀ (v : List Nat), Bytes u → Bytes v →
    acid_memcmp u v = .lt → ¬ u <+: v →
    acid_memcmp (v.map (255 ^^^ ·)) (u.map (255 ^^^ ·)) = .lt ∧
      ¬ v.map (255 ^^^ ·) <+: u.map (255 ^^^ ·) := by
  induction u with
  | nil => intro v _ _ _ hnp; exact absurd List.nil_prefix hnp
  | cons a as ih =>
    intro v hu hv hlt hnp
    cases v with
    | nil => simp [acid_memcmp] at hlt
    | cons b bs =>
      have ha : a < 256 := hu a (by simp)
      have hb : b < 256 := hv b (by simp)
      simp only [acid_memcmp] at hlt
      simp only [List.map_cons, acid_memcmp]
      rcases ho : compare a b with _ | _ | _ <;> rw [ho] at hlt
      · have hab : a < b := Nat.compare_eq_lt.mp ho
        have hflip : 255 ^^^ b < 255 ^^^ a := by
          rw [xor255_eq a ha, xor255_eq b hb]; omega
        refine ⟨by rw [nat_compare_lt hflip, Ordering.lt_then], ?_⟩
        intro hp
        have hhead := (List.cons_prefix_cons.mp hp).1
        omega
      · have hab : a = b := by have := Nat.compare_eq_eq.mp ho; omega
        subst hab
        rw [Ordering.eq_then] at hlt
        have hnp2 : ¬ as <+: bs := fun hp => hnp (List.prefix_cons_inj a |>.mpr hp)
        obtain ⟨h1, h2⟩ := ih bs (fun x hx => hu x (by simp [hx]))
          (fun x hx => hv x (by simp [hx])) hlt hnp2
        refine ⟨by rw [nat_compare_self, Ordering.eq_then]; exact h1, ?_⟩
        intro hp
        exact h2 (List.cons_prefix_cons.mp hp).2
      · simp [Ordering.gt_then] at hlt

/-- Ordering of complemented varints in context: XORing with 255 reverses the
value order, falling through to the tails on equality. -/
theorem write_int_body_cmp255 {v w : Nat} (hv : v < 2 ^ 64) (hw : w < 2 ^ 64)
    (r1 r2 : List Nat) :
    acid_memcmp (write_int_body 255 v ++ r1) (write_int_body 255 w ++ r2) =
      (compare w v).then (acid_memcmp r1 r2) := by
  rw [write_int_body_xor 255 v, write_int_body_xor 255 w]
  rcases Nat.lt_trichotomy v w with h | h | h
  · rw [nat_compare_gt h, Ordering.gt_then]
    obtain ⟨h1, h2⟩ := flip_memcmp_lt _ _ (write_int_body_bytes v) (write_int_body_bytes w)
      (write_int_body_lt h hw)
      (fun hp => by have := write_int_body_prefix_inj hv hw hp; omega)
    rw [acid_memcmp_swap, acid_memcmp_append_lt r2 r1 h1 h2]
    rfl
  · subst h
    rw [nat_compare_self, Ordering.eq_then, acid_memcmp_append_cancel]
  · rw [nat_compare_lt h, Ordering.lt_then]
    obtain ⟨h1, h2⟩ := flip_memcmp_lt _ _ (write_int_body_bytes w) (write_int_body_bytes v)
      (write_int_body_lt h hv)
      (fun hp => by have := write_int_body_prefix_inj hw hv hp; omega)
    exact acid_memcmp_append_lt r1 r2 h1 h2

/-! ## Bit toolkit for the 7-to-8 expansion -/

theorem or_shiftLeft_add {x s : Nat} (y : Nat) (hx : x < 2 ^ s) :
    (y <<< s) ||| x = y <<< s + x := by
  induction s generalizing x y with
  | zero =>
    have : x = 0 := by omega
    subst this; simp
  | succ s ih =>
    have hb := Nat.bit_decomp x
    have hbv : Nat.bit x.bodd x.div2 = 2 * x.div2 + x.bodd.toNat := Nat.bit_val _ _
    have hdiv : x.div2 < 2 ^ s := by
      rw [Nat.div2_val]
      rw [pow_succ] at hx
      omega
    have hy : y <<< (s + 1) = Nat.bit false (y <<< s) := by
      rw [Nat.bit_val, Nat.shiftLeft_eq, Nat.shiftLeft_eq, pow_succ]
      simp
      ring
    calc (y <<< (s + 1)) ||| x
        = Nat.bit false (y <<< s) ||| Nat.bit x.bodd x.div2 := by rw [hy, hb]
      _ = Nat.bit (false || x.bodd) ((y <<< s) ||| x.div2) := Nat.lor_bit _ _ _ _
      _ = Nat.bit x.bodd (y <<< s + x.div2) := by rw [Bool.false_or, ih y hdiv]
      _ = y <<< (s + 1) + x := by
          have h1 : Nat.bit x.bodd (y <<< s + x.div2) =
              2 * (y <<< s + x.div2) + x.bodd.toNat := Nat.bit_val _ _
          have h2 : y <<< (s + 1) = 2 * (y <<< s) := by
            rw [Nat.shiftLeft_eq, Nat.shiftLeft_eq, pow_succ]; ring
          have hx3 : 2 * x.div2 + x.bodd.toNat = x := by rw [← hbv, hb]
          omega

theorem le_or_left : ∀ (a b : Nat), a ≤ a ||| b := by
  intro a
  induction a using Nat.strong_induction_on with
  | _ a ih =>
    intro b
    cases a with
    | zero => simp
    | succ n =>
      have ha := Nat.bit_decomp (n + 1)
      have hb := Nat.bit_decomp b
      rw [← ha, ← hb, Nat.lor_bit, Nat.bit_val, Nat.bit_val]
      have hlt : (n + 1).div2 < n + 1 := by
        rw [Nat.div2_val]; omega
      have h1 := ih _ hlt b.div2
      have h2 : (n + 1).bodd.toNat ≤ ((n + 1).bodd || b.bodd).toNat := by
        cases (n + 1).bodd <;> cases b.bodd <;> simp
      rw [Nat.bit_val] at ha
      omega

theorem and127_mod (x : Nat) : x &&& 127 = x % 128 := by
  have := Nat.and_pow_two_sub_one_eq_mod x 7
  norm_num at this
  exact this

theorem or_byte_lt {a b : Nat} (ha : a < 256) (hb : b < 256) : a ||| b < 256 :=
  Nat.or_lt_two_pow (n := 8) ha hb

theorem or128_ge (x : Nat) : 128 ≤ 128 ||| x := le_or_left 128 x

/-! ## Bit-expanded strings (src/ext/keylib.c, write_str / read_str) -/

/-- A decode context tail: empty, or starting with a byte whose high bit is
clear (every kind tag and the separator are below 0x80). -/
def goodRest : List Nat → Prop
  | [] => True
  | h :: _ => h < 0x80

instance : DecidablePred goodRest := fun l => by
  cases l with
  | nil => exact .isTrue trivial
  | cons h t => exact inferInstanceAs (Decidable (h < 0x80))

/-- Loop of write_str (src/ext/keylib.c lines 290-309): emit one byte per
input byte carrying the rolling trailer, an extra byte when the shift wraps
at seven, and a final partial byte when the shift is above one. -/
def write_str_body (shift trailer : Nat) : List Nat → List Nat
  | [] => if 1 < shift then [0x80 ||| trailer] else []
  | o :: rest =>
    if shift < 7 then
      (0x80 ||| trailer ||| (o >>> shift)) ::
        write_str_body (shift + 1) ((o <<< (7 - shift)) % 256) rest
    else
      (0x80 ||| trailer ||| (o >>> 7)) :: (0x80 ||| o) :: write_str_body 1 0 rest

/-- write_str encodes a byte string with the 7-to-8 bit expansion, starting
with shift one and an empty trailer. The kind byte is written by the caller. -/
def write_str (s : List Nat) : List Nat := write_str_body 1 0 s

/-- Loop of read_str (src/ext/keylib.c lines 643-663): reconstruct each input
byte from the previous stream byte and the payload of the current one, and
stop without consuming the first byte whose high bit is clear. -/
def read_str_loop (shift lb : Nat) : List Nat → List Nat × List Nat
  | [] => ([], [])
  | cb :: rest =>
    if cb < 0x80 then ([], cb :: rest)
    else
      let ch := ((lb <<< shift) % 256) ||| ((cb &&& 0x7f) >>> (7 - shift))
      if shift < 7 then
        let p := read_str_loop (shift + 1) cb rest
        (ch :: p.1, p.2)
      else
        match rest with
        | [] => ([ch], [])
        | lb2 :: rest2 =>
          if lb2 < 0x80 then ([ch], lb2 :: rest2)
          else
            let p := read_str_loop 1 lb2 rest2
            (ch :: p.1, p.2)

/-- read_str (src/ext/keylib.c lines 617-664): empty input or a clear high
bit yields the empty string without consuming. -/
def read_str : List Nat → List Nat × List Nat
  | [] => ([], [])
  | lb :: rest => if lb < 0x80 then ([], lb :: rest) else read_str_loop 1 lb rest

/-- Every byte emitted by the expansion has its high bit set and fits a byte. -/
theorem write_str_body_bytes : ∀ (s : List Nat) (shift trailer : Nat),
    Bytes s → trailer < 256 →
    ∀ b ∈ write_str_body shift trailer s, 128 ≤ b ∧ b < 256 := by
  intro s
  induction s with
  | nil =>
    intro shift trailer _ ht b hb
    simp only [write_str_body] at hb
    split at hb
    · simp at hb
      subst hb
      exact ⟨or128_ge trailer, or_byte_lt (by norm_num) ht⟩
    · simp at hb
  | cons o os ih =>
    intro shift trailer hs ht b hb
    have ho : o < 256 := hs o (by simp)
    have hos : Bytes os := fun x hx => hs x (by simp [hx])
    simp only [write_str_body] at hb
    split at hb
    · rcases List.mem_cons.mp hb with h | h
      · subst h
        constructor
        · calc (128 : Nat) ≤ 128 ||| trailer := or128_ge trailer
            _ ≤ (128 ||| trailer) ||| (o >>> shift) := le_or_left _ _
        · refine or_byte_lt (or_byte_lt (by norm_num) ht) ?_
          have h1 : o >>> shift = o / 2 ^ shift := Nat.shiftRight_eq_div_pow o shift
          have h2 := Nat.div_le_self o (2 ^ shift)
          omega
      · exact ih (shift + 1) _ hos (Nat.mod_lt _ (by norm_num)) b h
    · rcases List.mem_cons.mp hb with h | hb2
      · subst h
        constructor
        · calc (128 : Nat) ≤ 128 ||| trailer := or128_ge trailer
            _ ≤ (128 ||| trailer) ||| (o >>> 7) := le_or_left _ _
        · refine or_byte_lt (or_byte_lt (by norm_num) ht) ?_
          have h1 : o >>> 7 = o / 2 ^ 7 := Nat.shiftRight_eq_div_pow o 7
          have h2 := Nat.div_le_self o (2 ^ 7)
          omega
      · rcases List.mem_cons.mp hb2 with h | h
        · subst h
          exact ⟨or128_ge o, or_byte_lt (by norm_num) ho⟩
        · exact ih 1 0 hos (by norm_num) b h

theorem or_mul_two (x y : Nat) : (2 * x) ||| (2 * y) = 2 * (x ||| y) := by
  have h1 : 2 * x = Nat.bit false x := by rw [Nat.bit_val]; simp
  have h2 : 2 * y = Nat.bit false y := by rw [Nat.bit_val]; simp
  rw [h1, h2, Nat.lor_bit, Nat.bit_val]
  simp

theorem or_mul_pow (x y k : Nat) : (x * 2 ^ k) ||| (y * 2 ^ k) = (x ||| y) * 2 ^ k := by
  induction k with
  | zero => simp
  | succ k ih =>
    have hx : x * 2 ^ (k + 1) = 2 * (x * 2 ^ k) := by rw [pow_succ]; ring
    have hy : y * 2 ^ (k + 1) = 2 * (y * 2 ^ k) := by rw [pow_succ]; ring
    have hxy : (x ||| y) * 2 ^ (k + 1) = 2 * ((x ||| y) * 2 ^ k) := by rw [pow_succ]; ring
    rw [hx, hy, hxy, or_mul_two, ih]

theorem shl_mod8 (lb : Nat) {s : Nat} (hs : s ≤ 8) :
    (lb <<< s) % 256 = (lb % 2 ^ (8 - s)) * 2 ^ s := by
  rw [Nat.shiftLeft_eq]
  have h : (256 : Nat) = 2 ^ (8 - s) * 2 ^ s := by
    rw [← pow_add]
    have e : 8 - s + s = 8 := by omega
    rw [e]
    norm_num
  rw [h, Nat.mul_mod_mul_right]

theorem tprime_eq (a : Nat) {s : Nat} (hs7 : s ≤ 7) :
    (a <<< (7 - s)) % 256 = (a % 2 ^ (s + 1)) * 2 ^ (7 - s) := by
  rw [Nat.shiftLeft_eq]
  have h : (256 : Nat) = 2 ^ (s + 1) * 2 ^ (7 - s) := by
    rw [← pow_add]
    have e : s + 1 + (7 - s) = 8 := by omega
    rw [e]
    norm_num
  rw [h, Nat.mul_mod_mul_right]

theorem or128_and127 (t : Nat) : (128 ||| t) &&& 127 = t % 128 := by
  rw [Nat.and_distrib_right]
  have h1 : (128 : Nat) &&& 127 = 0 := by decide
  rw [h1, Nat.zero_or, and127_mod]

/-- Reassembling a byte from its high part (carried by the previous stream
byte) and its low part (the top payload bits of the current stream byte). -/
theorem dec_ch_eq {a s lb pay : Nat} (hs7 : s ≤ 8)
    (hlb : lb % 2 ^ (8 - s) = a >>> s) (hpay : pay = a % 2 ^ s) :
    ((lb <<< s) % 256) ||| pay = a := by
  rw [shl_mod8 lb hs7, hlb, hpay]
  have h1 : (a >>> s) * 2 ^ s = (a >>> s) <<< s := (Nat.shiftLeft_eq _ _).symm
  rw [h1, or_shiftLeft_add _ (Nat.mod_lt _ (by positivity))]
  rw [Nat.shiftLeft_eq, Nat.shiftRight_eq_div_pow]
  rw [Nat.mul_comm]
  exact Nat.div_add_mod a (2 ^ s)

theorem pay_flush {a s : Nat} (hs1 : 1 ≤ s) (hs7 : s < 7) :
    ((128 ||| ((a <<< (7 - s)) % 256)) &&& 127) >>> (7 - s) = a % 2 ^ s := by
  rw [or128_and127, tprime_eq a (by omega)]
  have h : (128 : Nat) = 2 ^ s * 2 ^ (7 - s) := by
    rw [← pow_add]
    have e : s + (7 - s) = 7 := by omega
    rw [e]
    norm_num
  rw [h, Nat.mul_mod_mul_right]
  rw [Nat.mod_mod_of_dvd _ (pow_dvd_pow 2 (by omega))]
  rw [Nat.shiftRight_eq_div_pow]
  exact Nat.mul_div_cancel _ (by positivity)

theorem shiftRight_lt_of_lt {o k n : Nat} (ho : o < 2 ^ (k + n)) : o >>> k < 2 ^ n := by
  rw [Nat.shiftRight_eq_div_pow]
  rw [pow_add] at ho
  exact Nat.div_lt_of_lt_mul ho

theorem pay_mid {a o2 s : Nat} (hs1 : 1 ≤ s) (hs7 : s < 7) (ho2 : o2 < 256) :
    ((128 ||| ((a <<< (7 - s)) % 256) ||| (o2 >>> (s + 1))) &&& 127) >>> (7 - s) =
      a % 2 ^ s := by
  have hz : o2 >>> (s + 1) < 2 ^ (7 - s) := by
    apply shiftRight_lt_of_lt
    have h : s + 1 + (7 - s) = 8 := by omega
    rw [h]
    exact ho2
  rw [Nat.and_distrib_right]
  have hz127 : (o2 >>> (s + 1)) &&& 127 = o2 >>> (s + 1) := by
    rw [and127_mod]
    refine Nat.mod_eq_of_lt (lt_of_lt_of_le hz ?_)
    have : 2 ^ (7 - s) ≤ 2 ^ 6 := Nat.pow_le_pow_right (by norm_num) (by omega)
    omega
  rw [hz127, or128_and127, tprime_eq a (by omega)]
  have h : (128 : Nat) = 2 ^ s * 2 ^ (7 - s) := by
    rw [← pow_add]
    have e : s + (7 - s) = 7 := by omega
    rw [e]
    norm_num
  rw [h, Nat.mul_mod_mul_right, Nat.mod_mod_of_dvd _ (pow_dvd_pow 2 (by omega))]
  have h2 : a % 2 ^ s * 2 ^ (7 - s) = (a % 2 ^ s) <<< (7 - s) := (Nat.shiftLeft_eq _ _).symm
  rw [h2, or_shiftLeft_add _ hz, Nat.shiftLeft_eq, Nat.shiftRight_eq_div_pow]
  rw [Nat.add_comm, Nat.mul_comm, Nat.add_mul_div_left _ _ (by positivity)]
  rw [Nat.div_eq_of_lt hz]
  omega

/-- The encoder output following the byte emitted for the current input byte
at the given shift state. -/
def wcont (s a : Nat) (as : List Nat) : List Nat :=
  if s < 7 then write_str_body (s + 1) ((a <<< (7 - s)) % 256) as
  else (0x80 ||| a) :: write_str_body 1 0 as

theorem write_str_body_cons_lt {s : Nat} (h : s < 7) (t a : Nat) (as : List Nat) :
    write_str_body s t (a :: as) = (0x80 ||| t ||| (a >>> s)) :: wcont s a as := by
  simp [write_str_body, wcont, h]

theorem write_str_body_cons7 (t a : Nat) (as : List Nat) :
    write_str_body 7 t (a :: as) = (0x80 ||| t ||| (a >>> 7)) :: wcont 7 a as := by
  simp [write_str_body, wcont]

theorem write_str_body_cons_any {s : Nat} (h7 : s ≤ 7) (t a : Nat) (as : List Nat) :
    write_str_body s t (a :: as) = (0x80 ||| t ||| (a >>> s)) :: wcont s a as := by
  by_cases h : s < 7
  · exact write_str_body_cons_lt h t a as
  · have hs : s = 7 := by omega
    subst hs
    exact write_str_body_cons7 t a as

theorem or128_add {z : Nat} (hz : z < 128) : (128 : Nat) ||| z = 128 + z := by
  have e : (1 : Nat) <<< 7 = 128 := by decide
  have h2 : z < 2 ^ 7 := by
    have e7 : (2 : Nat) ^ 7 = 128 := by norm_num
    omega
  calc (128 : Nat) ||| z = (1 <<< 7) ||| z := by rw [e]
    _ = 1 <<< 7 + z := or_shiftLeft_add 1 h2
    _ = 128 + z := by rw [e]

theorem or128_mod {z : Nat} (hz : z < 128) : (128 ||| z) % 128 = z := by
  rw [or128_add hz]
  omega

theorem pay7 (a : Nat) : ((0x80 ||| a) &&& 0x7f) >>> (7 - 7) = a % 2 ^ 7 := by
  have h : ((0x80 : Nat) ||| a) &&& 0x7f = a % 128 := or128_and127 a
  rw [h]
  norm_num

theorem cb_mod_mid {a o2 s : Nat} (hs1 : 1 ≤ s) (hs7 : s < 7) (ho2 : o2 < 256) :
    (0x80 ||| ((a <<< (7 - s)) % 256) ||| (o2 >>> (s + 1))) % 2 ^ (8 - (s + 1)) =
      o2 >>> (s + 1) := by
  have he : 8 - (s + 1) = 7 - s := by omega
  rw [he]
  have hz : o2 >>> (s + 1) < 2 ^ (7 - s) := by
    apply shiftRight_lt_of_lt
    have h : s + 1 + (7 - s) = 8 := by omega
    rw [h]
    exact ho2
  have h128 : (0x80 : Nat) = 2 ^ s * 2 ^ (7 - s) := by
    rw [← pow_add]
    have e : s + (7 - s) = 7 := by omega
    rw [e]
    norm_num
  rw [tprime_eq a (by omega), h128, or_mul_pow]
  have hsl : (2 ^ s ||| a % 2 ^ (s + 1)) * 2 ^ (7 - s) =
      (2 ^ s ||| a % 2 ^ (s + 1)) <<< (7 - s) := (Nat.shiftLeft_eq _ _).symm
  rw [hsl, or_shiftLeft_add _ hz, Nat.shiftLeft_eq, Nat.mul_comm, Nat.mul_add_mod]
  exact Nat.mod_eq_of_lt hz

/-- Core inversion invariant of the bit expansion: at shift s, with the
previously consumed stream byte carrying the high bits of the next input
byte, the read loop reconstructs that byte and all following input, stopping
exactly at the tail. -/
theorem read_str_loop_wcont : ∀ (as : List Nat) (a s lb : Nat) (r : List Nat),
    1 ≤ s → s ≤ 7 → a < 256 → Bytes as → goodRest r →
    lb % 2 ^ (8 - s) = a >>> s →
    read_str_loop s lb (wcont s a as ++ r) = (a :: as, r) := by
  intro as
  induction as with
  | nil =>
    intro a s lb r hs1 hs7 ha _ hr hlb
    by_cases h : s < 7
    · have hflush : wcont s a [] = [0x80 ||| ((a <<< (7 - s)) % 256)] := by
        simp only [wcont, if_pos h, write_str_body]
        rw [if_pos (by omega)]
      rw [hflush]
      simp only [List.cons_append, List.nil_append, read_str_loop]
      rw [if_neg (by have := or128_ge ((a <<< (7 - s)) % 256); omega)]
      have hch : ((lb <<< s) % 256) |||
          (((0x80 ||| ((a <<< (7 - s)) % 256)) &&& 0x7f) >>> (7 - s)) = a :=
        dec_ch_eq (by omega) hlb (pay_flush hs1 h)
      rw [if_pos h]
      cases r with
      | nil => simp [read_str_loop, hch]
      | cons h0 t0 =>
        have hh0 : h0 < 0x80 := hr
        simp [read_str_loop, hh0, hch]
    · have hs : s = 7 := by omega
      subst hs
      have h1 : wcont 7 a [] = [0x80 ||| a] := by
        simp [wcont, write_str_body]
      rw [h1]
      simp only [List.cons_append, List.nil_append, read_str_loop]
      rw [if_neg (by have := or128_ge a; omega)]
      rw [if_neg (by norm_num)]
      have hch : ((lb <<< 7) % 256) ||| (((0x80 ||| a) &&& 0x7f) >>> (7 - 7)) = a :=
        dec_ch_eq (by omega) hlb (pay7 a)
      norm_num at hch
      cases r with
      | nil => simp [hch]
      | cons h0 t0 =>
        have hh0 : h0 < 0x80 := hr
        simp [hh0, hch]
  | cons o2 as2 ih =>
    intro a s lb r hs1 hs7 ha hasb hr hlb
    have ho2 : o2 < 256 := hasb o2 (by simp)
    have has2 : Bytes as2 := fun x hx => hasb x (by simp [hx])
    by_cases h : s < 7
    · have hw : wcont s a (o2 :: as2) =
          (0x80 ||| ((a <<< (7 - s)) % 256) ||| (o2 >>> (s + 1))) ::
            wcont (s + 1) o2 as2 := by
        simp only [wcont, if_pos h]
        exact write_str_body_cons_any (by omega) _ o2 as2
      rw [hw]
      simp only [List.cons_append, read_str_loop]
      rw [if_neg (by
        have h1 := or128_ge ((a <<< (7 - s)) % 256)
        have h2 := le_or_left (0x80 ||| ((a <<< (7 - s)) % 256)) (o2 >>> (s + 1))
        omega)]
      have hch : ((lb <<< s) % 256) |||
          (((0x80 ||| ((a <<< (7 - s)) % 256) ||| (o2 >>> (s + 1))) &&& 0x7f) >>> (7 - s)) = a :=
        dec_ch_eq (by omega) hlb (pay_mid hs1 h ho2)
      rw [if_pos h]
      rw [ih o2 (s + 1) _ r (by omega) (by omega) ho2 has2 hr (cb_mod_mid hs1 h ho2)]
      simp [hch]
    · have hs : s = 7 := by omega
      subst hs
      have hw : wcont 7 a (o2 :: as2) =
          (0x80 ||| a) :: ((0x80 ||| 0 ||| (o2 >>> 1)) :: wcont 1 o2 as2) := by
        simp only [wcont]
        rw [if_neg (by norm_num)]
        rw [write_str_body_cons_any (by norm_num) 0 o2 as2]
        simp [wcont]
      rw [hw]
      simp only [List.cons_append, read_str_loop]
      rw [if_neg (by have := or128_ge a; omega)]
      rw [if_neg (by norm_num)]
      have hch : ((lb <<< 7) % 256) ||| (((0x80 ||| a) &&& 0x7f) >>> (7 - 7)) = a :=
        dec_ch_eq (by omega) hlb (pay7 a)
      norm_num at hch
      rw [if_neg (by
        have h1 : (0x80 : Nat) ||| 0 = 0x80 := by simp
        rw [h1]
        have := or128_ge (o2 >>> 1)
        omega)]
      have hlb2 : (0x80 ||| 0 ||| (o2 >>> 1)) % 2 ^ (8 - 1) = o2 >>> 1 := by
        have h1 : (0x80 : Nat) ||| 0 = 0x80 := by simp
        rw [h1]
        have hz : o2 >>> 1 < 128 := by
          have := shiftRight_lt_of_lt (k := 1) (n := 7) (o := o2) (by norm_num; exact ho2)
          omega
        have : ((0x80 : Nat) ||| (o2 >>> 1)) % 128 = o2 >>> 1 := or128_mod hz
        norm_num at this ⊢
        exact this
      simp only [List.append_eq]
      rw [ih o2 1 _ r (by norm_num) (by norm_num) ho2 has2 hr hlb2]
      simp [hch]

/-- read_str inverts write_str: the decoded string is recovered and the tail
(which is empty or starts with a tag byte) is left unconsumed. -/
theorem read_str_write_str {s : List Nat} (hs : Bytes s) {r : List Nat}
    (hr : goodRest r) : read_str (write_str s ++ r) = (s, r) := by
  cases s with
  | nil =>
    have h0 : write_str [] = [] := by simp [write_str, write_str_body]
    rw [h0, List.nil_append]
    cases r with
    | nil => rfl
    | cons h0 t0 =>
      have hh0 : h0 < 0x80 := hr
      simp [read_str, hh0]
  | cons a as =>
    have ha : a < 256 := hs a (by simp)
    have has : Bytes as := fun x hx => hs x (by simp [hx])
    have hcons : write_str (a :: as) = (0x80 ||| 0 ||| (a >>> 1)) :: wcont 1 a as :=
      write_str_body_cons_any (by norm_num) 0 a as
    rw [hcons]
    simp only [List.cons_append, read_str]
    rw [if_neg (by
      have h1 : (0x80 : Nat) ||| 0 = 0x80 := by simp
      rw [h1]
      have := or128_ge (a >>> 1)
      omega)]
    have hz : a >>> 1 < 128 := by
      have := shiftRight_lt_of_lt (k := 1) (n := 7) (o := a) (by norm_num; exact ha)
      omega
    have hlb : (0x80 ||| 0 ||| (a >>> 1)) % 2 ^ (8 - 1) = a >>> 1 := by
      have h1 : (0x80 : Nat) ||| 0 = 0x80 := by simp
      rw [h1]
      have h2 : ((0x80 : Nat) ||| (a >>> 1)) % 128 = a >>> 1 := or128_mod hz
      norm_num at h2 ⊢
      exact h2
    exact read_str_loop_wcont as a 1 _ r (by norm_num) (by norm_num) ha has hr hlb

/-! ## Ordering of the bit expansion -/

theorem nat_compare_swap (a b : Nat) : compare b a = (compare a b).swap := by
  rcases Nat.lt_trichotomy a b with h | h | h
  · rw [nat_compare_lt h, nat_compare_gt h]; rfl
  · subst h
    rw [nat_compare_self]
    rfl
  · rw [nat_compare_gt h, nat_compare_lt h]; rfl

theorem then_swap (x y : Ordering) : (x.then y).swap = x.swap.then y.swap := by
  cases x <;> cases y <;> rfl

theorem nat_compare_add_left (k u v : Nat) : compare (k + u) (k + v) = compare u v := by
  rcases Nat.lt_trichotomy u v with h | h | h
  · rw [nat_compare_lt h, nat_compare_lt (by omega)]
  · subst h; rw [nat_compare_self, nat_compare_self]
  · rw [nat_compare_gt h, nat_compare_gt (by omega)]

/-- High bits equal: a byte comparison is the comparison of the low parts. -/
theorem compare_of_high_eq {a b s : Nat} (h : a >>> s = b >>> s) :
    compare a b = compare (a % 2 ^ s) (b % 2 ^ s) := by
  have ha := Nat.div_add_mod a (2 ^ s)
  have hb := Nat.div_add_mod b (2 ^ s)
  rw [Nat.shiftRight_eq_div_pow, Nat.shiftRight_eq_div_pow] at h
  have hk : 2 ^ s * (a / 2 ^ s) = 2 ^ s * (b / 2 ^ s) := by rw [h]
  rcases Nat.lt_trichotomy (a % 2 ^ s) (b % 2 ^ s) with hc | hc | hc
  · rw [nat_compare_lt hc, nat_compare_lt (by omega)]
  · have hab : a = b := by omega
    rw [hc, hab, nat_compare_self, nat_compare_self]
  · rw [nat_compare_gt hc, nat_compare_gt (by omega)]

theorem lt_of_high_lt {a b s : Nat} (h : a >>> s < b >>> s) : a < b := by
  rw [Nat.shiftRight_eq_div_pow, Nat.shiftRight_eq_div_pow] at h
  have ha := Nat.div_add_mod a (2 ^ s)
  have hb := Nat.div_add_mod b (2 ^ s)
  have hma : a % 2 ^ s < 2 ^ s := Nat.mod_lt _ (by positivity)
  have hk : 2 ^ s * (a / 2 ^ s) + 2 ^ s ≤ 2 ^ s * (b / 2 ^ s) := by
    have h2 := Nat.succ_le_of_lt h
    calc 2 ^ s * (a / 2 ^ s) + 2 ^ s = 2 ^ s * (a / 2 ^ s + 1) := by ring
      _ ≤ 2 ^ s * (b / 2 ^ s) := Nat.mul_le_mul_left _ h2
  omega

/-- The flush byte: flag bit plus the pending low bits of the previous input
byte, scaled into the payload positions. -/
theorem flush_byte_eq {c s : Nat} (hs1 : 1 ≤ s) (hs7 : s ≤ 7) :
    (0x80 : Nat) ||| ((c <<< (8 - s)) % 256) =
      128 + (c % 2 ^ (s - 1)) * 2 ^ (8 - s) := by
  have ht : (c <<< (8 - s)) % 256 = (c % 2 ^ s) * 2 ^ (8 - s) := by
    have := shl_mod8 c (s := 8 - s) (by omega)
    have he : 8 - (8 - s) = s := by omega
    rw [he] at this
    exact this
  rw [ht]
  have hsplit : c % 2 ^ s = (c / 2 ^ (s - 1)) % 2 * 2 ^ (s - 1) + c % 2 ^ (s - 1) := by
    have h1 : (2 : Nat) ^ s = 2 ^ (s - 1) * 2 := by
      rw [← pow_succ]
      congr 1
      omega
    rw [h1, Nat.mod_mul]
    ring
  set b := (c / 2 ^ (s - 1)) % 2 with hb
  have hb2 : b < 2 := Nat.mod_lt _ (by norm_num)
  have hm : c % 2 ^ (s - 1) < 2 ^ (s - 1) := Nat.mod_lt _ (by positivity)
  have hpow : 2 ^ (s - 1) * 2 ^ (8 - s) = 128 := by
    rw [← pow_add]
    have e : s - 1 + (8 - s) = 7 := by omega
    rw [e]
    norm_num
  have hmM : c % 2 ^ (s - 1) * 2 ^ (8 - s) < 128 := by
    calc c % 2 ^ (s - 1) * 2 ^ (8 - s) < 2 ^ (s - 1) * 2 ^ (8 - s) :=
          (Nat.mul_lt_mul_right (by positivity)).mpr hm
      _ = 128 := hpow
  have hb01 : b = 0 ∨ b = 1 := by omega
  rcases hb01 with h0 | h1
  · rw [hsplit, h0]
    simp only [Nat.zero_mul, Nat.zero_add]
    exact or128_add hmM
  · rw [hsplit, h1]
    simp only [Nat.one_mul]
    have hcomm : (2 ^ (s - 1) + c % 2 ^ (s - 1)) * 2 ^ (8 - s) =
        128 + c % 2 ^ (s - 1) * 2 ^ (8 - s) := by
      rw [Nat.add_mul, hpow]
    rw [hcomm, ← or128_add hmM, ← Nat.or_assoc, Nat.or_self, or128_add hmM]

/-- A data byte of the expansion: flag, pending low bits, and the high bits
of the current input byte. -/
theorem body_byte_eq {c a s : Nat} (hs1 : 1 ≤ s) (hs7 : s ≤ 7) (ha : a < 256) :
    (0x80 : Nat) ||| ((c <<< (8 - s)) % 256) ||| (a >>> s) =
      128 + (c % 2 ^ (s - 1)) * 2 ^ (8 - s) + (a >>> s) := by
  rw [flush_byte_eq hs1 hs7]
  have hx : a >>> s < 2 ^ (8 - s) := by
    apply shiftRight_lt_of_lt
    have e : s + (8 - s) = 8 := by omega
    rw [e]
    exact ha
  have h1 : (128 : Nat) + c % 2 ^ (s - 1) * 2 ^ (8 - s) =
      (2 ^ (s - 1) + c % 2 ^ (s - 1)) * 2 ^ (8 - s) := by
    rw [Nat.add_mul]
    congr 1
    rw [← pow_add]
    have e : s - 1 + (8 - s) = 7 := by omega
    rw [e]
    norm_num
  rw [h1]
  have h2 : (2 ^ (s - 1) + c % 2 ^ (s - 1)) * 2 ^ (8 - s) =
      (2 ^ (s - 1) + c % 2 ^ (s - 1)) <<< (8 - s) := (Nat.shiftLeft_eq _ _).symm
  rw [h2, or_shiftLeft_add _ hx, Nat.shiftLeft_eq]

/-- The extra byte emitted at shift seven. -/
theorem or128_byte_eq {a : Nat} (ha : a < 256) :
    (0x80 : Nat) ||| a = 128 + a % 128 := by
  have hmod : a % 128 < 128 := Nat.mod_lt _ (by norm_num)
  rcases Nat.lt_or_ge a 128 with h | h
  · rw [or128_add h, Nat.mod_eq_of_lt h]
  · have hm : a = 128 + a % 128 := by omega
    calc (0x80 : Nat) ||| a = 128 ||| (128 ||| (a % 128)) := by
          rw [or128_add hmod, ← hm]
      _ = (128 ||| 128) ||| (a % 128) := by rw [Nat.or_assoc]
      _ = 128 ||| (a % 128) := by rw [Nat.or_self]
      _ = 128 + a % 128 := or128_add hmod

theorem then_eq_right (x : Ordering) : x.then .eq = x := by cases x <;> rfl

theorem wcont_ne_nil {s : Nat} (hs : 1 ≤ s) (a : Nat) (as : List Nat) :
    wcont s a as ≠ [] := by
  unfold wcont
  split
  · cases as with
    | nil =>
      simp only [write_str_body]
      rw [if_pos (by omega)]
      simp
    | cons o os =>
      simp only [write_str_body]
      split <;> simp
  · simp

theorem wcont_bytes {s a : Nat} (as : List Nat) (ha : a < 256) (has : Bytes as) :
    ∀ b ∈ wcont s a as, 128 ≤ b ∧ b < 256 := by
  unfold wcont
  split
  · exact write_str_body_bytes as (s + 1) _ has (Nat.mod_lt _ (by norm_num))
  · intro b hb
    rcases List.mem_cons.mp hb with h | h
    · subst h
      exact ⟨or128_ge a, or_byte_lt (by norm_num) ha⟩
    · exact write_str_body_bytes as 1 0 has (by norm_num) b h

theorem memcmp_goodRest_lt {r : List Nat} (X r2 : List Nat) (hr : goodRest r)
    (hX : X ≠ []) (hXb : ∀ b ∈ X, 128 ≤ b ∧ b < 256) :
    acid_memcmp r (X ++ r2) = .lt := by
  cases X with
  | nil => exact absurd rfl hX
  | cons x xs =>
    cases r with
    | nil => rfl
    | cons h t =>
      have hh : h < 128 := hr
      have hx : 128 ≤ x := (hXb x (by simp)).1
      exact memcmp_cons_lt (by omega) _ _

theorem then_assoc (x y z : Ordering) : (x.then y).then z = x.then (y.then z) := by
  cases x <;> cases y <;> rfl

theorem fb_fb_compare {c1 c2 s : Nat} (hs1 : 1 ≤ s) (hs7 : s ≤ 7) :
    compare ((0x80 : Nat) ||| ((c1 <<< (8 - s)) % 256))
            ((0x80 : Nat) ||| ((c2 <<< (8 - s)) % 256)) =
      compare (c1 % 2 ^ (s - 1)) (c2 % 2 ^ (s - 1)) := by
  rw [flush_byte_eq hs1 hs7, flush_byte_eq hs1 hs7, nat_compare_add_left]
  have hpc := pos_compare (2 ^ (8 - s)) (c1 % 2 ^ (s - 1)) (c2 % 2 ^ (s - 1))
    0 0 (by positivity) (by positivity)
  simp only [Nat.add_zero] at hpc
  rw [hpc, nat_compare_self, then_eq_right]

theorem fb_db_compare {c1 c2 b s : Nat} (hs1 : 1 ≤ s) (hs7 : s ≤ 7) (hb : b < 256) :
    compare ((0x80 : Nat) ||| ((c1 <<< (8 - s)) % 256))
            ((0x80 : Nat) ||| ((c2 <<< (8 - s)) % 256) ||| (b >>> s)) =
      (compare (c1 % 2 ^ (s - 1)) (c2 % 2 ^ (s - 1))).then (compare 0 (b >>> s)) := by
  rw [flush_byte_eq hs1 hs7, body_byte_eq hs1 hs7 hb, Nat.add_assoc, nat_compare_add_left]
  have hx : b >>> s < 2 ^ (8 - s) := by
    apply shiftRight_lt_of_lt
    have e : s + (8 - s) = 8 := by omega
    rw [e]
    exact hb
  have hpc := pos_compare (2 ^ (8 - s)) (c1 % 2 ^ (s - 1)) (c2 % 2 ^ (s - 1))
    0 (b >>> s) (by positivity) hx
  simp only [Nat.add_zero] at hpc
  exact hpc

theorem db_db_compare {c1 c2 a b s : Nat} (hs1 : 1 ≤ s) (hs7 : s ≤ 7)
    (ha : a < 256) (hb : b < 256) :
    compare ((0x80 : Nat) ||| ((c1 <<< (8 - s)) % 256) ||| (a >>> s))
            ((0x80 : Nat) ||| ((c2 <<< (8 - s)) % 256) ||| (b >>> s)) =
      (compare (c1 % 2 ^ (s - 1)) (c2 % 2 ^ (s - 1))).then
        (compare (a >>> s) (b >>> s)) := by
  rw [body_byte_eq hs1 hs7 ha, body_byte_eq hs1 hs7 hb, Nat.add_assoc, Nat.add_assoc,
    nat_compare_add_left]
  have hxa : a >>> s < 2 ^ (8 - s) := by
    apply shiftRight_lt_of_lt
    have e : s + (8 - s) = 8 := by omega
    rw [e]
    exact ha
  have hxb : b >>> s < 2 ^ (8 - s) := by
    apply shiftRight_lt_of_lt
    have e : s + (8 - s) = 8 := by omega
    rw [e]
    exact hb
  exact pos_compare _ _ _ _ _ hxa hxb

/-- Order invariant of the bit expansion: two expansions compared in context
decide first on the pending low bits of the previous byte, then on the
remaining input bytes, then on the tails. -/
theorem write_str_body_cmp : ∀ (as bs : List Nat) (s c1 c2 : Nat) (r1 r2 : List Nat),
    1 ≤ s → s ≤ 7 → Bytes as → Bytes bs → goodRest r1 → goodRest r2 →
    acid_memcmp (write_str_body s ((c1 <<< (8 - s)) % 256) as ++ r1)
                (write_str_body s ((c2 <<< (8 - s)) % 256) bs ++ r2) =
      (compare (c1 % 2 ^ (s - 1)) (c2 % 2 ^ (s - 1))).then
        ((acid_memcmp as bs).then (acid_memcmp r1 r2)) := by
  intro as
  induction as with
  | nil =>
    intro bs s c1 c2 r1 r2 hs1 hs7 _ hbs hr1 hr2
    cases bs with
    | nil =>
      by_cases h1 : 1 < s
      · simp only [write_str_body, if_pos h1, List.cons_append, List.nil_append,
          acid_memcmp, Ordering.eq_then]
        rw [fb_fb_compare (by omega) hs7]
      · have hs : s = 1 := by omega
        subst hs
        simp only [write_str_body, if_neg h1, List.nil_append]
        simp [acid_memcmp, Nat.mod_one, nat_compare_self, Ordering.eq_then]
    | cons b bs2 =>
      have hb : b < 256 := hbs b (by simp)
      have hbs2 : Bytes bs2 := fun x hx => hbs x (by simp [hx])
      rw [write_str_body_cons_any hs7 _ b bs2]
      have hXb : ∀ x ∈ (0x80 ||| ((c2 <<< (8 - s)) % 256) ||| (b >>> s)) :: wcont s b bs2,
          128 ≤ x ∧ x < 256 := by
        intro x hx
        rcases List.mem_cons.mp hx with h | h
        · subst h
          refine ⟨?_, ?_⟩
          · calc (128 : Nat) ≤ 0x80 ||| ((c2 <<< (8 - s)) % 256) := or128_ge _
              _ ≤ _ := le_or_left _ _
          · refine or_byte_lt (or_byte_lt (by norm_num) (Nat.mod_lt _ (by norm_num))) ?_
            have e1 : b >>> s = b / 2 ^ s := Nat.shiftRight_eq_div_pow b s
            have e2 := Nat.div_le_self b (2 ^ s)
            omega
        · exact wcont_bytes bs2 hb hbs2 x h
      by_cases h1 : 1 < s
      · simp only [write_str_body, if_pos h1, List.cons_append, List.nil_append,
          acid_memcmp]
        rw [fb_db_compare (by omega) hs7 hb]
        rcases hL : compare (c1 % 2 ^ (s - 1)) (c2 % 2 ^ (s - 1)) with _ | _ | _
        · simp [Ordering.lt_then]
        · simp only [Ordering.eq_then]
          rcases Nat.eq_zero_or_pos (b >>> s) with hz | hz
          · rw [hz, nat_compare_self, Ordering.eq_then, Ordering.lt_then]
            exact memcmp_goodRest_lt (wcont s b bs2) r2 hr1
              (wcont_ne_nil hs1 b bs2) (wcont_bytes bs2 hb hbs2)
          · rw [nat_compare_lt hz, Ordering.lt_then, Ordering.lt_then]
        · simp [Ordering.gt_then]
      · have hs : s = 1 := by omega
        subst hs
        simp only [write_str_body, if_neg h1, List.nil_append, List.cons_append]
        have hmc : acid_memcmp r1
            (((0x80 ||| ((c2 <<< (8 - 1)) % 256) ||| (b >>> 1)) :: wcont 1 b bs2) ++ r2) =
            .lt := memcmp_goodRest_lt _ r2 hr1 (by simp) hXb
        simp only [List.cons_append] at hmc
        rw [hmc]
        simp [acid_memcmp, Nat.sub_self, pow_zero, Nat.mod_one, nat_compare_self,
          Ordering.eq_then, Ordering.lt_then]
  | cons a as2 ih =>
    intro bs s c1 c2 r1 r2 hs1 hs7 has hbs hr1 hr2
    have ha : a < 256 := has a (by simp)
    have has2 : Bytes as2 := fun x hx => has x (by simp [hx])
    rw [write_str_body_cons_any hs7 _ a as2]
    have hXa : ∀ x ∈ (0x80 ||| ((c1 <<< (8 - s)) % 256) ||| (a >>> s)) :: wcont s a as2,
        128 ≤ x ∧ x < 256 := by
      intro x hx
      rcases List.mem_cons.mp hx with h | h
      · subst h
        refine ⟨?_, ?_⟩
        · calc (128 : Nat) ≤ 0x80 ||| ((c1 <<< (8 - s)) % 256) := or128_ge _
            _ ≤ _ := le_or_left _ _
        · refine or_byte_lt (or_byte_lt (by norm_num) (Nat.mod_lt _ (by norm_num))) ?_
          have e1 : a >>> s = a / 2 ^ s := Nat.shiftRight_eq_div_pow a s
          have e2 := Nat.div_le_self a (2 ^ s)
          omega
      · exact wcont_bytes as2 ha has2 x h
    cases bs with
    | nil =>
      by_cases h1 : 1 < s
      · simp only [write_str_body, if_pos h1, List.cons_append, List.nil_append,
          acid_memcmp]
        have hcmp : compare ((0x80 : Nat) ||| ((c1 <<< (8 - s)) % 256) ||| (a >>> s))
            ((0x80 : Nat) ||| ((c2 <<< (8 - s)) % 256)) =
            (compare (c1 % 2 ^ (s - 1)) (c2 % 2 ^ (s - 1))).then (compare (a >>> s) 0) := by
          rw [nat_compare_swap, fb_db_compare (by omega) hs7 ha, then_swap, ←
            nat_compare_swap, ← nat_compare_swap]
        rw [hcmp]
        rcases hL : compare (c1 % 2 ^ (s - 1)) (c2 % 2 ^ (s - 1)) with _ | _ | _
        · simp [Ordering.lt_then]
        · simp only [Ordering.eq_then]
          rcases Nat.eq_zero_or_pos (a >>> s) with hz | hz
          · rw [hz, nat_compare_self, Ordering.eq_then, Ordering.gt_then]
            rw [acid_memcmp_swap]
            rw [memcmp_goodRest_lt (wcont s a as2) r1 hr2
              (wcont_ne_nil hs1 a as2) (wcont_bytes as2 ha has2)]
            rfl
          · rw [nat_compare_gt hz, Ordering.gt_then, Ordering.gt_then]
        · simp [Ordering.gt_then]
      · have hs : s = 1 := by omega
        subst hs
        simp only [write_str_body, if_neg h1, List.nil_append, List.cons_append]
        have hmc : acid_memcmp r2
            (((0x80 ||| ((c1 <<< (8 - 1)) % 256) ||| (a >>> 1)) :: wcont 1 a as2) ++ r1) =
            .lt := memcmp_goodRest_lt _ r1 hr2 (by simp) hXa
        simp only [List.cons_append] at hmc
        rw [acid_memcmp_swap, hmc]
        simp [acid_memcmp, Nat.sub_self, pow_zero, Nat.mod_one, nat_compare_self,
          Ordering.eq_then, Ordering.gt_then]
        rfl
    | cons b bs2 =>
      have hb : b < 256 := hbs b (by simp)
      have hbs2 : Bytes bs2 := fun x hx => hbs x (by simp [hx])
      rw [write_str_body_cons_any hs7 _ b bs2]
      simp only [List.cons_append, acid_memcmp]
      rw [db_db_compare hs1 hs7 ha hb, then_assoc, then_assoc]
      congr 1
      rcases hhi : compare (a >>> s) (b >>> s) with _ | _ | _
      · have hab : a < b := lt_of_high_lt (Nat.compare_eq_lt.mp hhi)
        rw [Ordering.lt_then, nat_compare_lt hab, Ordering.lt_then]
      · have hhieq : a >>> s = b >>> s := by
          have := Nat.compare_eq_eq.mp hhi
          omega
        rw [Ordering.eq_then, compare_of_high_eq hhieq]
        by_cases h : s < 7
        · have hw1 : wcont s a as2 =
              write_str_body (s + 1) ((a <<< (8 - (s + 1))) % 256) as2 := by
            unfold wcont
            rw [if_pos h]
            have e : 7 - s = 8 - (s + 1) := by omega
            rw [e]
          have hw2 : wcont s b bs2 =
              write_str_body (s + 1) ((b <<< (8 - (s + 1))) % 256) bs2 := by
            unfold wcont
            rw [if_pos h]
            have e : 7 - s = 8 - (s + 1) := by omega
            rw [e]
          rw [hw1, hw2]
          simp only [List.append_eq]
          rw [ih bs2 (s + 1) a b r1 r2 (by omega) (by omega) has2 hbs2 hr1 hr2]
          have e : s + 1 - 1 = s := by omega
          rw [e]
        · have hs7e : s = 7 := by omega
          subst hs7e
          have hw1 : wcont 7 a as2 = (0x80 ||| a) :: write_str_body 1 0 as2 := by
            unfold wcont
            rw [if_neg (by norm_num)]
          have hw2 : wcont 7 b bs2 = (0x80 ||| b) :: write_str_body 1 0 bs2 := by
            unfold wcont
            rw [if_neg (by norm_num)]
          rw [hw1, hw2]
          simp only [List.cons_append, acid_memcmp, List.append_eq]
          have hIH := ih bs2 1 0 0 r1 r2 (by norm_num) (by norm_num) has2 hbs2 hr1 hr2
          have hz : ((0 : Nat) <<< (8 - 1)) % 256 = 0 := by decide
          rw [hz] at hIH
          simp only [Nat.sub_self, pow_zero, Nat.mod_one, nat_compare_self,
            Ordering.eq_then] at hIH
          rw [hIH]
          have hbyte : compare ((0x80 : Nat) ||| a) ((0x80 : Nat) ||| b) =
              compare (a % 128) (b % 128) := by
            rw [or128_byte_eq ha, or128_byte_eq hb, nat_compare_add_left]
          rw [hbyte]
          have hmod : compare (a % 2 ^ 7) (b % 2 ^ 7) = compare (a % 128) (b % 128) := by
            have e : (2 : Nat) ^ 7 = 128 := by norm_num
            rw [e]
          rw [hmod]
      · have hab : b < a := lt_of_high_lt (Nat.compare_eq_lt.mp (by
          rw [nat_compare_swap, hhi]
          rfl))
        rw [Ordering.gt_then, nat_compare_gt hab, Ordering.gt_then]

/-- Top-level string order: with good tails on both sides, comparing two
expansions compares the payload byte strings first, then the tails. -/
theorem write_str_cmp {as bs : List Nat} (has : Bytes as) (hbs : Bytes bs)
    {r1 r2 : List Nat} (hr1 : goodRest r1) (hr2 : goodRest r2) :
    acid_memcmp (write_str as ++ r1) (write_str bs ++ r2) =
      (acid_memcmp as bs).then (acid_memcmp r1 r2) := by
  have h := write_str_body_cmp as bs 1 0 0 r1 r2 (by norm_num) (by norm_num)
    has hbs hr1 hr2
  have hz : ((0 : Nat) <<< (8 - 1)) % 256 = 0 := by decide
  rw [hz] at h
  simp only [Nat.sub_self, pow_zero, Nat.mod_one, nat_compare_self,
    Ordering.eq_then] at h
  exact h

/-! ## UTF-8 (PyUnicode encode/decode around the TEXT payload) -/

/-- UTF-8 encoding of one code point, as CPython's encoder produces it before
the TEXT payload is expanded by write_str. -/
def utf8Char (c : Nat) : List Nat :=
  if c < 0x80 then [c]
  else if c < 0x800 then [0xc0 ||| (c >>> 6), 0x80 ||| (c &&& 0x3f)]
  else if c < 0x10000 then
    [0xe0 ||| (c >>> 12), 0x80 ||| ((c >>> 6) &&& 0x3f), 0x80 ||| (c &&& 0x3f)]
  else
    [0xf0 ||| (c >>> 18), 0x80 ||| ((c >>> 12) &&& 0x3f),
      0x80 ||| ((c >>> 6) &&& 0x3f), 0x80 ||| (c &&& 0x3f)]

/-- UTF-8 encoding of a sequence of code points. -/
def utf8 : List Nat → List Nat
  | [] => []
  | c :: cs => utf8Char c ++ utf8 cs

/-- A code point a CPython str can hold and encode: below 0x110000 and not a
surrogate. -/
def ValidChar (c : Nat) : Prop := c < 0x110000 ∧ (c < 0xd800 ∨ 0xdfff < c)

instance : DecidablePred ValidChar := fun c =>
  inferInstanceAs (Decidable (c < 0x110000 ∧ (c < 0xd800 ∨ 0xdfff < c)))

/-- A text value: every code point valid. -/
def ValidText (s : List Nat) : Prop := ∀ c ∈ s, ValidChar c

instance : DecidablePred ValidText := fun s =>
  inferInstanceAs (Decidable (∀ c ∈ s, ValidChar c))

/-- The continuation-byte test of the decoder: high two bits are 10. -/
def isCont (b : Nat) : Prop := 0x80 ≤ b ∧ b < 0xc0

instance : DecidablePred isCont := fun b =>
  inferInstanceAs (Decidable (0x80 ≤ b ∧ b < 0xc0))

/-- One step of the UTF-8 decoder: consume the bytes of a single code point
according to the lead byte's length class, as CPython's decoder does. -/
def utf8_step : List Nat → Option (Nat × List Nat)
  | [] => none
  | b :: rest =>
    if b < 0x80 then some (b, rest)
    else if b < 0xc2 then none
    else if b < 0xe0 then
      match rest with
      | b1 :: r =>
        if isCont b1 then some ((((b &&& 0x1f) <<< 6) ||| (b1 &&& 0x3f)), r) else none
      | [] => none
    else if b < 0xf0 then
      match rest with
      | b1 :: b2 :: r =>
        if isCont b1 ∧ isCont b2 then
          some ((((b &&& 0xf) <<< 12) ||| ((b1 &&& 0x3f) <<< 6) ||| (b2 &&& 0x3f)), r)
        else none
      | _ => none
    else if b < 0xf5 then
      match rest with
      | b1 :: b2 :: b3 :: r =>
        if isCont b1 ∧ isCont b2 ∧ isCont b3 then
          some ((((b &&& 0x7) <<< 18) ||| ((b1 &&& 0x3f) <<< 12) |||
            ((b2 &&& 0x3f) <<< 6) ||| (b3 &&& 0x3f)), r)
        else none
      | _ => none
    else none

/-- Fuel-driven decode loop: one utf8_step per code point. -/
def utf8_decode_fuel : Nat → List Nat → Option (List Nat)
  | _, [] => some []
  | 0, _ :: _ => none
  | f + 1, b :: l =>
    match utf8_step (b :: l) with
    | some (c, r) => (utf8_decode_fuel f r).map (c :: ·)
    | none => none

/-- UTF-8 decoder: the byte count bounds the code point count, so the length
is enough fuel. -/
def utf8_decode (l : List Nat) : Option (List Nat) := utf8_decode_fuel l.length l

theorem and_mod_pow2 (x k : Nat) : x &&& (2 ^ k - 1) = x % 2 ^ k :=
  Nat.and_pow_two_sub_one_eq_mod x k

theorem and63_mod (x : Nat) : x &&& 63 = x % 64 := by
  have := Nat.and_pow_two_sub_one_eq_mod x 6
  norm_num at this
  exact this

theorem or_c0_add {h : Nat} (hh : h < 64) : (0xc0 : Nat) ||| h = 0xc0 + h := by
  have := or_shiftLeft_add (x := h) (s := 6) 3 (by omega)
  norm_num [Nat.shiftLeft_eq] at this
  exact this

theorem or_e0_add {h : Nat} (hh : h < 32) : (0xe0 : Nat) ||| h = 0xe0 + h := by
  have := or_shiftLeft_add (x := h) (s := 5) 7 (by omega)
  norm_num [Nat.shiftLeft_eq] at this
  exact this

theorem or_f0_add {h : Nat} (hh : h < 16) : (0xf0 : Nat) ||| h = 0xf0 + h := by
  have := or_shiftLeft_add (x := h) (s := 4) 15 (by omega)
  norm_num [Nat.shiftLeft_eq] at this
  exact this

theorem isCont_hi {l : Nat} (hl : l < 64) : isCont (0x80 ||| l) := by
  have he : (0x80 : Nat) ||| l = 128 + l := or128_add (by omega)
  unfold isCont
  omega

theorem cont_payload {l : Nat} (hl : l < 64) : (0x80 ||| l) &&& 0x3f = l := by
  have he : (0x80 : Nat) ||| l = 128 + l := or128_add (by omega)
  rw [he]
  have h6 := and63_mod (128 + l)
  norm_num at h6 ⊢
  rw [h6]
  omega

theorem compare_split (M : Nat) (hM : 0 < M) (a b : Nat) :
    compare a b = (compare (a / M) (b / M)).then (compare (a % M) (b % M)) := by
  have h := pos_compare M (a / M) (b / M) (a % M) (b % M)
    (Nat.mod_lt a hM) (Nat.mod_lt b hM)
  rw [Nat.div_add_mod' a M, Nat.div_add_mod' b M] at h
  exact h

theorem or_sh {y k : Nat} (x : Nat) (hy : y < 2 ^ k) :
    (x * 2 ^ k) ||| y = x * 2 ^ k + y := by
  have h := or_shiftLeft_add (x := y) (s := k) x hy
  rw [Nat.shiftLeft_eq] at h
  exact h



/-- Decoding one encoded character consumes exactly its bytes and returns the
code point. -/
theorem utf8_step_char {c : Nat} (hc : ValidChar c) (r : List Nat) :
    utf8_step (utf8Char c ++ r) = some (c, r) := by
  obtain ⟨hc1, -⟩ := hc
  by_cases h1 : c < 0x80
  · simp only [utf8Char, if_pos h1, List.cons_append, List.nil_append]
    simp only [utf8_step]
    rw [if_pos h1]
  · have hl : c &&& 0x3f = c % 64 := and63_mod c
    have hd6 : c >>> 6 = c / 64 := by
      rw [Nat.shiftRight_eq_div_pow]
    by_cases h2 : c < 0x800
    · simp only [utf8Char, if_neg h1, if_pos h2, List.cons_append, List.nil_append]
      have hb0 : (0xc0 : Nat) ||| (c >>> 6) = 0xc0 + c / 64 := by
        rw [hd6]
        exact or_c0_add (by omega)
      rw [hb0, hl]
      simp only [utf8_step]
      rw [if_neg (by omega), if_neg (by omega), if_pos (by omega)]
      show (if isCont (0x80 ||| c % 64) then
          some (((((0xc0 + c / 64) &&& 0x1f) <<< 6) ||| ((0x80 ||| c % 64) &&& 0x3f)), r)
        else none) = some (c, r)
      rw [if_pos (isCont_hi (by omega)), cont_payload (by omega)]
      have hv : ((((0xc0 + c / 64) &&& 0x1f) <<< 6) ||| c % 64) = c := by
        have h31 : (0xc0 + c / 64) &&& 0x1f = (0xc0 + c / 64) % 32 := by
          have h5 := and_mod_pow2 (0xc0 + c / 64) 5
          norm_num at h5
          exact h5
        rw [h31, Nat.shiftLeft_eq]
        have e1 : (0xc0 + c / 64) % 32 = c / 64 := by omega
        rw [e1, or_sh _ (by omega)]
        have e3 : (2 : Nat) ^ 6 = 64 := by norm_num
        rw [e3]
        omega
      rw [hv]
    · have hd12 : c >>> 12 = c / 4096 := by
        rw [Nat.shiftRight_eq_div_pow]
      have hm : (c >>> 6) &&& 0x3f = c / 64 % 64 := by
        rw [hd6]
        exact and63_mod (c / 64)
      by_cases h3 : c < 0x10000
      · simp only [utf8Char, if_neg h1, if_neg h2, if_pos h3, List.cons_append,
          List.nil_append]
        have hb0 : (0xe0 : Nat) ||| (c >>> 12) = 0xe0 + c / 4096 := by
          rw [hd12]
          exact or_e0_add (by omega)
        rw [hb0, hm, hl]
        simp only [utf8_step]
        rw [if_neg (by omega), if_neg (by omega), if_neg (by omega), if_pos (by omega)]
        show (if isCont (0x80 ||| c / 64 % 64) ∧ isCont (0x80 ||| c % 64) then
            some (((((0xe0 + c / 4096) &&& 0xf) <<< 12) |||
              (((0x80 ||| c / 64 % 64) &&& 0x3f) <<< 6) |||
              ((0x80 ||| c % 64) &&& 0x3f)), r)
          else none) = some (c, r)
        rw [if_pos ⟨isCont_hi (by omega), isCont_hi (by omega)⟩]
        rw [cont_payload (l := c / 64 % 64) (by omega), cont_payload (l := c % 64) (by omega)]
        have hv : ((((0xe0 + c / 4096) &&& 0xf) <<< 12) ||| (c / 64 % 64) <<< 6 |||
            c % 64) = c := by
          have h15 : (0xe0 + c / 4096) &&& 0xf = (0xe0 + c / 4096) % 16 := by
            have h5 := and_mod_pow2 (0xe0 + c / 4096) 4
            norm_num at h5
            exact h5
          rw [h15, Nat.shiftLeft_eq, Nat.shiftLeft_eq]
          have e1 : (0xe0 + c / 4096) % 16 = c / 4096 := by omega
          rw [e1]
          have e2 : c / 4096 * 2 ^ 12 = (c / 4096 * 2 ^ 6) * 2 ^ 6 := by ring
          rw [e2, or_mul_pow, or_sh _ (by omega), or_sh _ (by omega)]
          have e3 : (2 : Nat) ^ 6 = 64 := by norm_num
          rw [e3]
          omega
        rw [hv]
      · simp only [utf8Char, if_neg h1, if_neg h2, if_neg h3, List.cons_append,
          List.nil_append]
        have hd18 : c >>> 18 = c / 262144 := by
          rw [Nat.shiftRight_eq_div_pow]
        have hm2 : (c >>> 12) &&& 0x3f = c / 4096 % 64 := by
          rw [hd12]
          exact and63_mod (c / 4096)
        have hb0 : (0xf0 : Nat) ||| (c >>> 18) = 0xf0 + c / 262144 := by
          rw [hd18]
          exact or_f0_add (by omega)
        rw [hb0, hm2, hm, hl]
        simp only [utf8_step]
        rw [if_neg (by omega), if_neg (by omega), if_neg (by omega),
          if_neg (by omega), if_pos (by omega)]
        show (if isCont (0x80 ||| c / 4096 % 64) ∧ isCont (0x80 ||| c / 64 % 64) ∧
              isCont (0x80 ||| c % 64) then
            some (((((0xf0 + c / 262144) &&& 0x7) <<< 18) |||
              (((0x80 ||| c / 4096 % 64) &&& 0x3f) <<< 12) |||
              (((0x80 ||| c / 64 % 64) &&& 0x3f) <<< 6) |||
              ((0x80 ||| c % 64) &&& 0x3f)), r)
          else none) = some (c, r)
        rw [if_pos ⟨isCont_hi (by omega), isCont_hi (by omega), isCont_hi (by omega)⟩]
        rw [cont_payload (l := c / 4096 % 64) (by omega),
          cont_payload (l := c / 64 % 64) (by omega),
          cont_payload (l := c % 64) (by omega)]
        have hv : ((((0xf0 + c / 262144) &&& 0x7) <<< 18) ||| (c / 4096 % 64) <<< 12 |||
            (c / 64 % 64) <<< 6 ||| c % 64) = c := by
          have h7 : (0xf0 + c / 262144) &&& 0x7 = (0xf0 + c / 262144) % 8 := by
            have h5 := and_mod_pow2 (0xf0 + c / 262144) 3
            norm_num at h5
            exact h5
          rw [h7, Nat.shiftLeft_eq, Nat.shiftLeft_eq, Nat.shiftLeft_eq]
          have e1 : (0xf0 + c / 262144) % 8 = c / 262144 := by omega
          rw [e1]
          have e2 : c / 262144 * 2 ^ 18 = (c / 262144 * 2 ^ 6) * 2 ^ 12 := by ring
          rw [e2, or_mul_pow]
          rw [or_sh (c / 262144) (show c / 4096 % 64 < 2 ^ 6 by omega)]
          have e4 : (c / 262144 * 2 ^ 6 + c / 4096 % 64) * 2 ^ 12 =
              ((c / 262144 * 2 ^ 6 + c / 4096 % 64) * 2 ^ 6) * 2 ^ 6 := by ring
          rw [e4, or_mul_pow]
          rw [or_sh (c / 262144 * 2 ^ 6 + c / 4096 % 64)
            (show c / 64 % 64 < 2 ^ 6 by omega)]
          rw [or_sh _ (show c % 64 < 2 ^ 6 by omega)]
          have e3 : (2 : Nat) ^ 6 = 64 := by norm_num
          rw [e3]
          omega
        rw [hv]

theorem utf8Char_ne_nil (c : Nat) : utf8Char c ≠ [] := by
  unfold utf8Char
  by_cases h1 : c < 0x80
  · rw [if_pos h1]
    simp
  · rw [if_neg h1]
    by_cases h2 : c < 0x800
    · rw [if_pos h2]
      simp
    · rw [if_neg h2]
      by_cases h3 : c < 0x10000
      · rw [if_pos h3]
        simp
      · rw [if_neg h3]
        simp

theorem utf8Char_bytes_lt {c : Nat} (hc1 : c < 0x110000) :
    Bytes (utf8Char c) := by
  intro x hx
  unfold utf8Char at hx
  have hcont : ∀ z : Nat, (0x80 : Nat) ||| (z &&& 0x3f) < 256 := by
    intro z
    have h6 := and63_mod z
    norm_num at h6
    rw [h6]
    rw [or128_add (by omega)]
    omega
  by_cases h1 : c < 0x80
  · rw [if_pos h1] at hx
    simp at hx
    omega
  · rw [if_neg h1] at hx
    by_cases h2 : c < 0x800
    · rw [if_pos h2] at hx
      simp at hx
      rcases hx with hx | hx
      · subst hx
        have hd : c >>> 6 = c / 64 := by rw [Nat.shiftRight_eq_div_pow]
        rw [hd, or_c0_add (by omega)]
        omega
      · subst hx
        exact hcont c
    · rw [if_neg h2] at hx
      by_cases h3 : c < 0x10000
      · rw [if_pos h3] at hx
        simp at hx
        rcases hx with hx | hx | hx
        · subst hx
          have hd : c >>> 12 = c / 4096 := by rw [Nat.shiftRight_eq_div_pow]
          rw [hd, or_e0_add (by omega)]
          omega
        · subst hx
          exact hcont _
        · subst hx
          exact hcont c
      · rw [if_neg h3] at hx
        simp at hx
        rcases hx with hx | hx | hx | hx
        · subst hx
          have hd : c >>> 18 = c / 262144 := by rw [Nat.shiftRight_eq_div_pow]
          rw [hd, or_f0_add (by omega)]
          omega
        · subst hx
          exact hcont _
        · subst hx
          exact hcont _
        · subst hx
          exact hcont c

theorem utf8Char_bytes {c : Nat} (hc : ValidChar c) : Bytes (utf8Char c) :=
  utf8Char_bytes_lt hc.1

theorem utf8_bytes_lt {s : List Nat} (hs : ∀ c ∈ s, c < 0x110000) :
    Bytes (utf8 s) := by
  induction s with
  | nil => intro x hx; cases hx
  | cons c cs ih =>
    intro x hx
    have hx' : x ∈ utf8Char c ++ utf8 cs := hx
    rcases List.mem_append.mp hx' with h | h
    · exact utf8Char_bytes_lt (hs c (by simp)) x h
    · exact ih (fun z hz => hs z (by simp [hz])) x h

theorem utf8_bytes {s : List Nat} (hs : ValidText s) : Bytes (utf8 s) :=
  utf8_bytes_lt (fun c hc => (hs c hc).1)

theorem utf8_length_ge : ∀ (s : List Nat), s.length ≤ (utf8 s).length := by
  intro s
  induction s with
  | nil => simp [utf8]
  | cons c cs ih =>
    show (c :: cs).length ≤ (utf8Char c ++ utf8 cs).length
    rw [List.length_append, List.length_cons]
    have h1 : 1 ≤ (utf8Char c).length := by
      cases h : utf8Char c with
      | nil => exact absurd h (utf8Char_ne_nil c)
      | cons a t => simp
    omega

theorem utf8_decode_fuel_utf8 : ∀ (s : List Nat) (f : Nat), ValidText s →
    s.length ≤ f → utf8_decode_fuel f (utf8 s) = some s := by
  intro s
  induction s with
  | nil =>
    intro f _ _
    show utf8_decode_fuel f [] = some []
    cases f <;> rfl
  | cons c cs ih =>
    intro f hs hf
    have hc : ValidChar c := hs c (by simp)
    have hcs : ValidText cs := fun z hz => hs z (by simp [hz])
    cases f with
    | zero => simp at hf
    | succ f =>
      obtain ⟨b, t, hb⟩ : ∃ b t, utf8Char c = b :: t := by
        cases h : utf8Char c with
        | nil => exact absurd h (utf8Char_ne_nil c)
        | cons a u => exact ⟨a, u, rfl⟩
      have hstep : utf8_step (b :: (t ++ utf8 cs)) = some (c, utf8 cs) := by
        have h := utf8_step_char hc (utf8 cs)
        rw [hb, List.cons_append] at h
        exact h
      show utf8_decode_fuel (f + 1) (utf8Char c ++ utf8 cs) = some (c :: cs)
      rw [hb, List.cons_append]
      rw [utf8_decode_fuel, hstep]
      show (utf8_decode_fuel f (utf8 cs)).map (c :: ·) = some (c :: cs)
      rw [ih f hcs (by simp at hf; omega)]
      rfl

/-- UTF-8 decode of UTF-8 encode is the identity on valid text. -/
theorem utf8_decode_utf8 {s : List Nat} (hs : ValidText s) :
    utf8_decode (utf8 s) = some s :=
  utf8_decode_fuel_utf8 s (utf8 s).length hs (utf8_length_ge s)

theorem memcmp_cons_gt {a b : Nat} (h : b < a) (as bs : List Nat) :
    acid_memcmp (a :: as) (b :: bs) = .gt := by
  show (compare a b).then _ = _
  rw [nat_compare_gt h, Ordering.gt_then]

theorem lead2 {a : Nat} (h2 : a < 0x800) :
    (0xc0 : Nat) ||| (a >>> 6) = 0xc0 + a / 64 := by
  have hd : a >>> 6 = a / 64 := by rw [Nat.shiftRight_eq_div_pow]
  rw [hd]
  exact or_c0_add (by omega)

theorem lead3 {a : Nat} (h3 : a < 0x10000) :
    (0xe0 : Nat) ||| (a >>> 12) = 0xe0 + a / 4096 := by
  have hd : a >>> 12 = a / 4096 := by rw [Nat.shiftRight_eq_div_pow]
  rw [hd]
  exact or_e0_add (by omega)

theorem lead4 {a : Nat} (h4 : a < 0x110000) :
    (0xf0 : Nat) ||| (a >>> 18) = 0xf0 + a / 262144 := by
  have hd : a >>> 18 = a / 262144 := by rw [Nat.shiftRight_eq_div_pow]
  rw [hd]
  exact or_f0_add (by omega)

theorem cont_byte (z : Nat) : (0x80 : Nat) ||| (z &&& 0x3f) = 0x80 + z % 64 := by
  rw [and63_mod]
  exact or128_add (by omega)

theorem cont6 (a : Nat) :
    (0x80 : Nat) ||| ((a >>> 6) &&& 0x3f) = 0x80 + a / 64 % 64 := by
  have hd : a >>> 6 = a / 64 := by rw [Nat.shiftRight_eq_div_pow]
  rw [hd, and63_mod]
  exact or128_add (by omega)

theorem cont12 (a : Nat) :
    (0x80 : Nat) ||| ((a >>> 12) &&& 0x3f) = 0x80 + a / 4096 % 64 := by
  have hd : a >>> 12 = a / 4096 := by rw [Nat.shiftRight_eq_div_pow]
  rw [hd, and63_mod]
  exact or128_add (by omega)

theorem utf8Char_class1 {c : Nat} (h : c < 0x80) : utf8Char c = [c] := by
  unfold utf8Char
  rw [if_pos h]

theorem utf8Char_class2 {c : Nat} (h1 : ¬ c < 0x80) (h2 : c < 0x800) :
    utf8Char c = (0xc0 + c / 64) :: [0x80 + c % 64] := by
  unfold utf8Char
  rw [if_neg h1, if_pos h2, lead2 h2, cont_byte c]

theorem utf8Char_class3 {c : Nat} (h2 : ¬ c < 0x800) (h3 : c < 0x10000) :
    utf8Char c =
      (0xe0 + c / 4096) :: (0x80 + c / 64 % 64) :: [0x80 + c % 64] := by
  unfold utf8Char
  rw [if_neg (by omega), if_neg h2, if_pos h3, lead3 h3, cont6 c, cont_byte c]

theorem utf8Char_class4 {c : Nat} (h3 : ¬ c < 0x10000) (h4 : c < 0x110000) :
    utf8Char c = (0xf0 + c / 262144) :: (0x80 + c / 4096 % 64) ::
      (0x80 + c / 64 % 64) :: [0x80 + c % 64] := by
  unfold utf8Char
  rw [if_neg (by omega), if_neg (by omega), if_neg h3, lead4 h4, cont12 c,
    cont6 c, cont_byte c]

/-- Comparing two encoded characters in context compares the code points
first, then the tails: UTF-8 byte order equals code point order. -/
theorem utf8Char_cmp {a b : Nat} (ha1 : a < 0x110000) (hb1 : b < 0x110000)
    (x y : List Nat) :
    acid_memcmp (utf8Char a ++ x) (utf8Char b ++ y) =
      (compare a b).then (acid_memcmp x y) := by
  by_cases pa1 : a < 0x80
  · by_cases pb1 : b < 0x80
    · rw [utf8Char_class1 pa1, utf8Char_class1 pb1]
      simp only [List.cons_append, List.append_eq, List.nil_append, acid_memcmp]
    · by_cases pb2 : b < 0x800
      · rw [utf8Char_class1 pa1, utf8Char_class2 pb1 pb2]
        simp only [List.cons_append, List.nil_append]
        rw [nat_compare_lt (show a < b by omega), Ordering.lt_then]
        exact memcmp_cons_lt (by omega) _ _
      · by_cases pb3 : b < 0x10000
        · rw [utf8Char_class1 pa1, utf8Char_class3 pb2 pb3]
          simp only [List.cons_append, List.nil_append]
          rw [nat_compare_lt (show a < b by omega), Ordering.lt_then]
          exact memcmp_cons_lt (by omega) _ _
        · rw [utf8Char_class1 pa1, utf8Char_class4 pb3 hb1]
          simp only [List.cons_append, List.nil_append]
          rw [nat_compare_lt (show a < b by omega), Ordering.lt_then]
          exact memcmp_cons_lt (by omega) _ _
  · by_cases pa2 : a < 0x800
    · by_cases pb1 : b < 0x80
      · rw [utf8Char_class2 pa1 pa2, utf8Char_class1 pb1]
        simp only [List.cons_append, List.nil_append]
        rw [nat_compare_gt (show b < a by omega), Ordering.gt_then]
        exact memcmp_cons_gt (by omega) _ _
      · by_cases pb2 : b < 0x800
        · rw [utf8Char_class2 pa1 pa2, utf8Char_class2 pb1 pb2]
          simp only [List.cons_append, List.append_eq, List.nil_append, acid_memcmp]
          rw [nat_compare_add_left, nat_compare_add_left]
          rw [compare_split 64 (by norm_num) a b, then_assoc]
        · by_cases pb3 : b < 0x10000
          · rw [utf8Char_class2 pa1 pa2, utf8Char_class3 pb2 pb3]
            simp only [List.cons_append, List.nil_append]
            rw [nat_compare_lt (show a < b by omega), Ordering.lt_then]
            exact memcmp_cons_lt (by omega) _ _
          · rw [utf8Char_class2 pa1 pa2, utf8Char_class4 pb3 hb1]
            simp only [List.cons_append, List.nil_append]
            rw [nat_compare_lt (show a < b by omega), Ordering.lt_then]
            exact memcmp_cons_lt (by omega) _ _
    · by_cases pa3 : a < 0x10000
      · by_cases pb1 : b < 0x80
        · rw [utf8Char_class3 pa2 pa3, utf8Char_class1 pb1]
          simp only [List.cons_append, List.nil_append]
          rw [nat_compare_gt (show b < a by omega), Ordering.gt_then]
          exact memcmp_cons_gt (by omega) _ _
        · by_cases pb2 : b < 0x800
          · rw [utf8Char_class3 pa2 pa3, utf8Char_class2 pb1 pb2]
            simp only [List.cons_append, List.nil_append]
            rw [nat_compare_gt (show b < a by omega), Ordering.gt_then]
            exact memcmp_cons_gt (by omega) _ _
          · by_cases pb3 : b < 0x10000
            · rw [utf8Char_class3 pa2 pa3, utf8Char_class3 pb2 pb3]
              simp only [List.cons_append, List.append_eq, List.nil_append, acid_memcmp]
              rw [nat_compare_add_left, nat_compare_add_left, nat_compare_add_left]
              rw [compare_split 4096 (by norm_num) a b,
                compare_split 64 (by norm_num) (a % 4096) (b % 4096)]
              rw [show a % 4096 / 64 = a / 64 % 64 from by omega,
                show b % 4096 / 64 = b / 64 % 64 from by omega,
                show a % 4096 % 64 = a % 64 from by omega,
                show b % 4096 % 64 = b % 64 from by omega]
              rw [then_assoc, then_assoc]
            · rw [utf8Char_class3 pa2 pa3, utf8Char_class4 pb3 hb1]
              simp only [List.cons_append, List.nil_append]
              rw [nat_compare_lt (show a < b by omega), Ordering.lt_then]
              exact memcmp_cons_lt (by omega) _ _
      · by_cases pb1 : b < 0x80
        · rw [utf8Char_class4 pa3 ha1, utf8Char_class1 pb1]
          simp only [List.cons_append, List.nil_append]
          rw [nat_compare_gt (show b < a by omega), Ordering.gt_then]
          exact memcmp_cons_gt (by omega) _ _
        · by_cases pb2 : b < 0x800
          · rw [utf8Char_class4 pa3 ha1, utf8Char_class2 pb1 pb2]
            simp only [List.cons_append, List.nil_append]
            rw [nat_compare_gt (show b < a by omega), Ordering.gt_then]
            exact memcmp_cons_gt (by omega) _ _
          · by_cases pb3 : b < 0x10000
            · rw [utf8Char_class4 pa3 ha1, utf8Char_class3 pb2 pb3]
              simp only [List.cons_append, List.nil_append]
              rw [nat_compare_gt (show b < a by omega), Ordering.gt_then]
              exact memcmp_cons_gt (by omega) _ _
            · rw [utf8Char_class4 pa3 ha1, utf8Char_class4 pb3 hb1]
              simp only [List.cons_append, List.append_eq, List.nil_append, acid_memcmp]
              rw [nat_compare_add_left, nat_compare_add_left, nat_compare_add_left,
                nat_compare_add_left]
              rw [compare_split 262144 (by norm_num) a b,
                compare_split 4096 (by norm_num) (a % 262144) (b % 262144),
                compare_split 64 (by norm_num) (a % 262144 % 4096) (b % 262144 % 4096)]
              rw [show a % 262144 / 4096 = a / 4096 % 64 from by omega,
                show b % 262144 / 4096 = b / 4096 % 64 from by omega,
                show a % 262144 % 4096 / 64 = a / 64 % 64 from by omega,
                show b % 262144 % 4096 / 64 = b / 64 % 64 from by omega,
                show a % 262144 % 4096 % 64 = a % 64 from by omega,
                show b % 262144 % 4096 % 64 = b % 64 from by omega]
              rw [then_assoc, then_assoc, then_assoc]

/-- UTF-8 byte strings compare exactly as their code point sequences. -/
theorem utf8_cmp_lt : ∀ {s t : List Nat}, (∀ c ∈ s, c < 0x110000) →
    (∀ c ∈ t, c < 0x110000) →
    acid_memcmp (utf8 s) (utf8 t) = acid_memcmp s t := by
  intro s
  induction s with
  | nil =>
    intro t _ ht
    cases t with
    | nil => rfl
    | cons b bs =>
      show acid_memcmp [] (utf8Char b ++ utf8 bs) = .lt
      obtain ⟨b0, t0, hb⟩ : ∃ b0 t0, utf8Char b = b0 :: t0 := by
        cases h : utf8Char b with
        | nil => exact absurd h (utf8Char_ne_nil b)
        | cons u v => exact ⟨u, v, rfl⟩
      rw [hb, List.cons_append]
      rfl
  | cons a as ih =>
    intro t hs ht
    cases t with
    | nil =>
      show acid_memcmp (utf8Char a ++ utf8 as) [] = .gt
      obtain ⟨a0, t0, haa⟩ : ∃ a0 t0, utf8Char a = a0 :: t0 := by
        cases h : utf8Char a with
        | nil => exact absurd h (utf8Char_ne_nil a)
        | cons u v => exact ⟨u, v, rfl⟩
      rw [haa, List.cons_append]
      rfl
    | cons b bs =>
      have hva : a < 0x110000 := hs a (by simp)
      have hvb : b < 0x110000 := ht b (by simp)
      show acid_memcmp (utf8Char a ++ utf8 as) (utf8Char b ++ utf8 bs) =
        acid_memcmp (a :: as) (b :: bs)
      rw [utf8Char_cmp hva hvb]
      rw [ih (fun z hz => hs z (by simp [hz])) (fun z hz => ht z (by simp [hz]))]
      rfl

theorem utf8_cmp {s t : List Nat} (hs : ValidText s) (ht : ValidText t) :
    acid_memcmp (utf8 s) (utf8 t) = acid_memcmp s t :=
  utf8_cmp_lt (fun c hc => (hs c hc).1) (fun c hc => (ht c hc).1)

/-! ## Elements (src/ext/keylib.c, acid_write_element / acid_read_element) -/

/-- The element domain of the codec: the Python values acid_write_element
accepts, with blobs as byte strings, text as code point sequences, uuids as
their sixteen value bytes, and datetimes reduced to their composite fields:
millisecond timestamp and quantised offset bits. -/
inductive Element where
  | null
  | int (v : Int)
  | bool (b : Bool)
  | blob (s : List Nat)
  | text (s : List Nat)
  | uuid (s : List Nat)
  | time (m : Int) (q : Nat)
  deriving DecidableEq

/-- The composite value write_time builds: millis shifted left seven, offset
bits in the low seven. -/
def timeComposite (m : Int) (q : Nat) : Int := m * 128 + q

/-- A value each encoder accepts: ints fit a signed 64-bit word as
PyLong_AsLongLong requires, blobs are bytes, text is valid code points, uuids
sixteen bytes, time composites fit a signed 64-bit word with offset bits in
range. -/
def ValidElem : Element → Prop
  | .null => True
  | .int v => -(2 ^ 63) ≤ v ∧ v < 2 ^ 63
  | .bool _ => True
  | .blob s => Bytes s
  | .text s => ValidText s
  | .uuid s => s.length = 16 ∧ Bytes s
  | .time m q => q < 128 ∧ -(2 ^ 63) ≤ timeComposite m q ∧ timeComposite m q < 2 ^ 63

instance : DecidablePred ValidElem := fun e => by
  cases e <;> simp only [ValidElem] <;> infer_instance

/-- acid_write_element (src/ext/keylib.c lines 384-441): kind byte then body;
negative ints and negative time composites go through the XOR-0xff masked
varint with their own kind tags. -/
def acid_write_element : Element → List Nat
  | .null => [KIND_NULL]
  | .int v =>
    if v < 0 then write_int KIND_NEG_INTEGER 0xff (-v).toNat
    else write_int KIND_INTEGER 0 v.toNat
  | .bool b => [KIND_BOOL, if b then 1 else 0]
  | .blob s => KIND_BLOB :: write_str s
  | .text s => KIND_TEXT :: write_str (utf8 s)
  | .uuid s => KIND_UUID :: s
  | .time m q =>
    if timeComposite m q < 0 then
      write_int KIND_NEG_TIME 0xff (-(timeComposite m q)).toNat
    else write_int KIND_TIME 0 (timeComposite m q).toNat

/-- write_tuple (src/ext/keylib.c lines 447-454): elements in order, no
separator. -/
def write_tuple : List Element → List Nat
  | [] => []
  | e :: es => acid_write_element e ++ write_tuple es

/-- A tuple every element of which is encodable. -/
def ValidTuple (t : List Element) : Prop := ∀ e ∈ t, ValidElem e

instance : DecidablePred ValidTuple := fun t =>
  inferInstanceAs (Decidable (∀ e ∈ t, ValidElem e))

/-- acid_read_element (src/ext/keylib.c lines 729-776): dispatch on the kind
byte; read_time extracts offset bits and millis from the decoded varint as
the source does, negating only the seconds for the negative kind. -/
def acid_read_element : List Nat → Option (Element × List Nat)
  | [] => none
  | ch :: rest =>
    if ch = KIND_NULL then some (.null, rest)
    else if ch = KIND_INTEGER then
      (read_plain_int 0 rest).map (fun p => (.int (p.1 : Int), p.2))
    else if ch = KIND_NEG_INTEGER then
      (read_plain_int 0xff rest).map (fun p => (.int (-(p.1 : Int)), p.2))
    else if ch = KIND_BOOL then
      (read_plain_int 0 rest).map (fun p => (.bool (p.1 != 0), p.2))
    else if ch = KIND_BLOB then
      some (.blob (read_str rest).1, (read_str rest).2)
    else if ch = KIND_TEXT then
      match utf8_decode (read_str rest).1 with
      | some s => some (.text s, (read_str rest).2)
      | none => none
    else if ch = KIND_NEG_TIME then
      (read_plain_int 0xff rest).map (fun p =>
        (.time (-((p.1 >>> 7 : Nat) : Int)) (p.1 &&& 0x7f), p.2))
    else if ch = KIND_TIME then
      (read_plain_int 0 rest).map (fun p =>
        (.time ((p.1 >>> 7 : Nat) : Int) (p.1 &&& 0x7f), p.2))
    else if ch = KIND_UUID then
      if 16 ≤ rest.length then some (.uuid (rest.take 16), rest.drop 16) else none
    else none

/-- Rank of each kind tag in the encoding (the numeric order of the tags
written by acid_write_element). -/
def kindRank : Element → Nat
  | .null => 0
  | .int _ => 1
  | .bool _ => 2
  | .blob _ => 3
  | .text _ => 4
  | .uuid _ => 5
  | .time _ _ => 6

/-- Semantic comparison of two elements, with cross-kind order following the
numeric order of the kind tags: Null, Int, Bool, Bytes, Text, Uuid, Time. -/
def elemCompare : Element → Element → Ordering
  | .null, .null => .eq
  | .int v, .int w => compare v w
  | .bool a, .bool b => compare (if a then (1 : Nat) else 0) (if b then 1 else 0)
  | .blob s, .blob t => acid_memcmp s t
  | .text s, .text t => acid_memcmp s t
  | .uuid s, .uuid t => acid_memcmp s t
  | .time m q, .time n r => compare (timeComposite m q) (timeComposite n r)
  | a, b => compare (kindRank a) (kindRank b)

/-- Element-wise tuple comparison, a missing element sorting first. -/
def tupleCompare : List Element → List Element → Ordering
  | [], [] => .eq
  | [], _ :: _ => .lt
  | _ :: _, [] => .gt
  | a :: as, b :: bs => (elemCompare a b).then (tupleCompare as bs)

/-- The cross-kind rank chain stated by the specification, section 4.1:
Null < NegInt < PosInt < Bool < Bytes < Text < NegTime < PosTime < Uuid. -/
def spec_kind_rank : Element → Nat
  | .null => 0
  | .int v => if v < 0 then 1 else 2
  | .bool _ => 3
  | .blob _ => 4
  | .text _ => 5
  | .time m q => if timeComposite m q < 0 then 6 else 7
  | .uuid _ => 8

theorem int_compare_lt {v w : Int} (h : v < w) : compare v w = .lt :=
  compare_lt_iff_lt.mpr h

theorem int_compare_gt {v w : Int} (h : w < v) : compare v w = .gt :=
  compare_gt_iff_gt.mpr h

theorem int_compare_self (v : Int) : compare v v = .eq :=
  compare_eq_iff_eq.mpr rfl

theorem int_compare_toNat {v w : Int} (hv : 0 ≤ v) (hw : 0 ≤ w) :
    compare v.toNat w.toNat = compare v w := by
  rcases lt_trichotomy v w with h | h | h
  · rw [int_compare_lt h, nat_compare_lt (by omega)]
  · subst h
    rw [int_compare_self, nat_compare_self]
  · rw [int_compare_gt h, nat_compare_gt (by omega)]

theorem int_compare_negs {v w : Int} (hv : v < 0) (hw : w < 0) :
    compare (-w).toNat (-v).toNat = compare v w := by
  rcases lt_trichotomy v w with h | h | h
  · rw [int_compare_lt h, nat_compare_lt (by omega)]
  · subst h
    rw [int_compare_self, nat_compare_self]
  · rw [int_compare_gt h, nat_compare_gt (by omega)]

theorem memcmp_append_eqlen : ∀ (s1 s2 r1 r2 : List Nat), s1.length = s2.length →
    acid_memcmp (s1 ++ r1) (s2 ++ r2) = (acid_memcmp s1 s2).then (acid_memcmp r1 r2) := by
  intro s1
  induction s1 with
  | nil =>
    intro s2 r1 r2 h
    cases s2 with
    | nil => simp [acid_memcmp, Ordering.eq_then]
    | cons b bs => simp at h
  | cons a as ih =>
    intro s2 r1 r2 h
    cases s2 with
    | nil => simp at h
    | cons b bs =>
      simp only [List.cons_append, List.append_eq, acid_memcmp]
      rw [ih bs r1 r2 (by simpa using h), then_assoc]

/-- The kind byte acid_write_element writes first for each element. -/
def headByte : Element → Nat
  | .null => KIND_NULL
  | .int v => if v < 0 then KIND_NEG_INTEGER else KIND_INTEGER
  | .bool _ => KIND_BOOL
  | .blob _ => KIND_BLOB
  | .text _ => KIND_TEXT
  | .uuid _ => KIND_UUID
  | .time m q => if timeComposite m q < 0 then KIND_NEG_TIME else KIND_TIME

theorem write_int_cons {kind : Nat} (hk : kind ≠ 0) (xor v : Nat) :
    write_int kind xor v = kind :: write_int_body xor v := by
  simp [write_int, hk]

theorem write_element_head (e : Element) :
    ∃ t, acid_write_element e = headByte e :: t := by
  cases e with
  | null => exact ⟨[], rfl⟩
  | int v =>
    by_cases h : v < 0
    · refine ⟨write_int_body 0xff (-v).toNat, ?_⟩
      simp only [acid_write_element, headByte, if_pos h]
      exact write_int_cons (by norm_num [KIND_NEG_INTEGER]) _ _
    · refine ⟨write_int_body 0 v.toNat, ?_⟩
      simp only [acid_write_element, headByte, if_neg h]
      exact write_int_cons (by norm_num [KIND_INTEGER]) _ _
  | bool b => exact ⟨[if b then 1 else 0], rfl⟩
  | blob s => exact ⟨write_str s, rfl⟩
  | text s => exact ⟨write_str (utf8 s), rfl⟩
  | uuid s => exact ⟨s, rfl⟩
  | time m q =>
    by_cases h : timeComposite m q < 0
    · refine ⟨write_int_body 0xff (-(timeComposite m q)).toNat, ?_⟩
      simp only [acid_write_element, headByte, if_pos h]
      exact write_int_cons (by norm_num [KIND_NEG_TIME]) _ _
    · refine ⟨write_int_body 0 (timeComposite m q).toNat, ?_⟩
      simp only [acid_write_element, headByte, if_neg h]
      exact write_int_cons (by norm_num [KIND_TIME]) _ _

theorem headByte_lt128 (e : Element) : headByte e < 0x80 := by
  cases e with
  | null => norm_num [headByte, KIND_NULL]
  | int v =>
    by_cases h : v < 0 <;> simp [headByte, h, KIND_NEG_INTEGER, KIND_INTEGER]
  | bool b => norm_num [headByte, KIND_BOOL]
  | blob s => norm_num [headByte, KIND_BLOB]
  | text s => norm_num [headByte, KIND_TEXT]
  | uuid s => norm_num [headByte, KIND_UUID]
  | time m q =>
    by_cases h : timeComposite m q < 0 <;>
      simp [headByte, h, KIND_NEG_TIME, KIND_TIME]

theorem headByte_lt_of_rank : ∀ {e1 e2 : Element},
    kindRank e1 < kindRank e2 → headByte e1 < headByte e2 := by
  intro e1 e2 h
  cases e1 <;> cases e2 <;>
    simp only [kindRank, headByte, KIND_NULL, KIND_NEG_INTEGER, KIND_INTEGER,
      KIND_BOOL, KIND_BLOB, KIND_TEXT, KIND_UUID, KIND_NEG_TIME, KIND_TIME]
      at h ⊢ <;>
    try split_ifs
  all_goals omega

theorem elemCompare_cross : ∀ {e1 e2 : Element}, kindRank e1 ≠ kindRank e2 →
    elemCompare e1 e2 = compare (kindRank e1) (kindRank e2) := by
  intro e1 e2 h
  cases e1 <;> cases e2 <;> first | (exfalso; exact h rfl) | rfl

theorem elem_cmp_cross {e1 e2 : Element} (hlt : kindRank e1 < kindRank e2)
    (r1 r2 : List Nat) :
    acid_memcmp (acid_write_element e1 ++ r1) (acid_write_element e2 ++ r2) =
      (elemCompare e1 e2).then (acid_memcmp r1 r2) := by
  obtain ⟨t1, ht1⟩ := write_element_head e1
  obtain ⟨t2, ht2⟩ := write_element_head e2
  rw [ht1, ht2, List.cons_append, List.cons_append,
    memcmp_cons_lt (headByte_lt_of_rank hlt), elemCompare_cross (by omega),
    nat_compare_lt hlt, Ordering.lt_then]

theorem elem_cmp_cross_gt {e1 e2 : Element} (hgt : kindRank e2 < kindRank e1)
    (r1 r2 : List Nat) :
    acid_memcmp (acid_write_element e1 ++ r1) (acid_write_element e2 ++ r2) =
      (elemCompare e1 e2).then (acid_memcmp r1 r2) := by
  obtain ⟨t1, ht1⟩ := write_element_head e1
  obtain ⟨t2, ht2⟩ := write_element_head e2
  rw [ht1, ht2, List.cons_append, List.cons_append,
    memcmp_cons_gt (headByte_lt_of_rank hgt), elemCompare_cross (by omega),
    nat_compare_gt hgt, Ordering.gt_then]

theorem write_int20 (xor v : Nat) :
    write_int KIND_NEG_INTEGER xor v = KIND_NEG_INTEGER :: write_int_body xor v :=
  write_int_cons (by norm_num [KIND_NEG_INTEGER]) xor v

theorem write_int21 (xor v : Nat) :
    write_int KIND_INTEGER xor v = KIND_INTEGER :: write_int_body xor v :=
  write_int_cons (by norm_num [KIND_INTEGER]) xor v

theorem write_int91 (xor v : Nat) :
    write_int KIND_NEG_TIME xor v = KIND_NEG_TIME :: write_int_body xor v :=
  write_int_cons (by norm_num [KIND_NEG_TIME]) xor v

theorem write_int92 (xor v : Nat) :
    write_int KIND_TIME xor v = KIND_TIME :: write_int_body xor v :=
  write_int_cons (by norm_num [KIND_TIME]) xor v

theorem elem_cmp_int_diag {v w : Int} (hv : -(2 ^ 63) ≤ v ∧ v < 2 ^ 63)
    (hw : -(2 ^ 63) ≤ w ∧ w < 2 ^ 63) (r1 r2 : List Nat) :
    acid_memcmp (acid_write_element (.int v) ++ r1)
        (acid_write_element (.int w) ++ r2) =
      (compare v w).then (acid_memcmp r1 r2) := by
  by_cases hv0 : v < 0 <;> by_cases hw0 : w < 0
  · simp only [acid_write_element, if_pos hv0, if_pos hw0,
      write_int20, List.cons_append,
      acid_memcmp, nat_compare_self, Ordering.eq_then]
    rw [write_int_body_cmp255 (v := (-v).toNat) (w := (-w).toNat)
      (by omega) (by omega) r1 r2]
    rw [int_compare_negs hv0 hw0]
  · simp only [acid_write_element, if_pos hv0, if_neg hw0,
      write_int20, write_int21, List.cons_append]
    rw [int_compare_lt (by omega), Ordering.lt_then]
    exact memcmp_cons_lt (by norm_num [KIND_NEG_INTEGER, KIND_INTEGER]) _ _
  · simp only [acid_write_element, if_neg hv0, if_pos hw0,
      write_int20, write_int21, List.cons_append]
    rw [int_compare_gt (by omega), Ordering.gt_then]
    exact memcmp_cons_gt (by norm_num [KIND_NEG_INTEGER, KIND_INTEGER]) _ _
  · simp only [acid_write_element, if_neg hv0, if_neg hw0,
      write_int21, List.cons_append,
      acid_memcmp, nat_compare_self, Ordering.eq_then]
    rw [write_int_body_cmp (v := v.toNat) (w := w.toNat)
      (by omega) (by omega) r1 r2]
    rw [int_compare_toNat (by omega) (by omega)]

theorem elem_cmp_time_diag {m n : Int} {q r : Nat}
    (hv : q < 128 ∧ -(2 ^ 63) ≤ timeComposite m q ∧ timeComposite m q < 2 ^ 63)
    (hw : r < 128 ∧ -(2 ^ 63) ≤ timeComposite n r ∧ timeComposite n r < 2 ^ 63)
    (r1 r2 : List Nat) :
    acid_memcmp (acid_write_element (.time m q) ++ r1)
        (acid_write_element (.time n r) ++ r2) =
      (compare (timeComposite m q) (timeComposite n r)).then (acid_memcmp r1 r2) := by
  by_cases hv0 : timeComposite m q < 0 <;> by_cases hw0 : timeComposite n r < 0
  · simp only [acid_write_element, if_pos hv0, if_pos hw0,
      write_int91, List.cons_append,
      acid_memcmp, nat_compare_self, Ordering.eq_then]
    rw [write_int_body_cmp255 (v := (-(timeComposite m q)).toNat)
      (w := (-(timeComposite n r)).toNat) (by omega) (by omega) r1 r2]
    rw [int_compare_negs hv0 hw0]
  · simp only [acid_write_element, if_pos hv0, if_neg hw0,
      write_int91, write_int92, List.cons_append]
    rw [int_compare_lt (by omega), Ordering.lt_then]
    exact memcmp_cons_lt (by norm_num [KIND_NEG_TIME, KIND_TIME]) _ _
  · simp only [acid_write_element, if_neg hv0, if_pos hw0,
      write_int91, write_int92, List.cons_append]
    rw [int_compare_gt (by omega), Ordering.gt_then]
    exact memcmp_cons_gt (by norm_num [KIND_NEG_TIME, KIND_TIME]) _ _
  · simp only [acid_write_element, if_neg hv0, if_neg hw0,
      write_int92, List.cons_append,
      acid_memcmp, nat_compare_self, Ordering.eq_then]
    rw [write_int_body_cmp (v := (timeComposite m q).toNat)
      (w := (timeComposite n r).toNat) (by omega) (by omega) r1 r2]
    rw [int_compare_toNat (by omega) (by omega)]

/-- One element against another in context: the kind tags decide cross-kind
order, bodies decide same-kind order, tails break ties. -/
theorem elem_cmp : ∀ (e1 e2 : Element), ValidElem e1 → ValidElem e2 →
    ∀ (r1 r2 : List Nat), goodRest r1 → goodRest r2 →
    acid_memcmp (acid_write_element e1 ++ r1) (acid_write_element e2 ++ r2) =
      (elemCompare e1 e2).then (acid_memcmp r1 r2) := by
  intro e1 e2 h1 h2 r1 r2 hr1 hr2
  cases e1 <;> cases e2
  case null.null =>
    simp only [acid_write_element, List.cons_append, List.nil_append,
      acid_memcmp, nat_compare_self, Ordering.eq_then]
    rfl
  case null.int => exact elem_cmp_cross (by norm_num [kindRank]) r1 r2
  case null.bool => exact elem_cmp_cross (by norm_num [kindRank]) r1 r2
  case null.blob => exact elem_cmp_cross (by norm_num [kindRank]) r1 r2
  case null.text => exact elem_cmp_cross (by norm_num [kindRank]) r1 r2
  case null.uuid => exact elem_cmp_cross (by norm_num [kindRank]) r1 r2
  case null.time => exact elem_cmp_cross (by norm_num [kindRank]) r1 r2
  case int.null => exact elem_cmp_cross_gt (by norm_num [kindRank]) r1 r2
  case int.int => exact elem_cmp_int_diag h1 h2 r1 r2
  case int.bool => exact elem_cmp_cross (by norm_num [kindRank]) r1 r2
  case int.blob => exact elem_cmp_cross (by norm_num [kindRank]) r1 r2
  case int.text => exact elem_cmp_cross (by norm_num [kindRank]) r1 r2
  case int.uuid => exact elem_cmp_cross (by norm_num [kindRank]) r1 r2
  case int.time => exact elem_cmp_cross (by norm_num [kindRank]) r1 r2
  case bool.null => exact elem_cmp_cross_gt (by norm_num [kindRank]) r1 r2
  case bool.int => exact elem_cmp_cross_gt (by norm_num [kindRank]) r1 r2
  case bool.bool =>
    simp only [acid_write_element, List.cons_append, List.nil_append,
      acid_memcmp, nat_compare_self, Ordering.eq_then]
    rfl
  case bool.blob => exact elem_cmp_cross (by norm_num [kindRank]) r1 r2
  case bool.text => exact elem_cmp_cross (by norm_num [kindRank]) r1 r2
  case bool.uuid => exact elem_cmp_cross (by norm_num [kindRank]) r1 r2
  case bool.time => exact elem_cmp_cross (by norm_num [kindRank]) r1 r2
  case blob.null => exact elem_cmp_cross_gt (by norm_num [kindRank]) r1 r2
  case blob.int => exact elem_cmp_cross_gt (by norm_num [kindRank]) r1 r2
  case blob.bool => exact elem_cmp_cross_gt (by norm_num [kindRank]) r1 r2
  case blob.blob =>
    simp only [acid_write_element, List.cons_append, List.append_eq,
      acid_memcmp, nat_compare_self, Ordering.eq_then]
    exact write_str_cmp h1 h2 hr1 hr2
  case blob.text => exact elem_cmp_cross (by norm_num [kindRank]) r1 r2
  case blob.uuid => exact elem_cmp_cross (by norm_num [kindRank]) r1 r2
  case blob.time => exact elem_cmp_cross (by norm_num [kindRank]) r1 r2
  case text.null => exact elem_cmp_cross_gt (by norm_num [kindRank]) r1 r2
  case text.int => exact elem_cmp_cross_gt (by norm_num [kindRank]) r1 r2
  case text.bool => exact elem_cmp_cross_gt (by norm_num [kindRank]) r1 r2
  case text.blob => exact elem_cmp_cross_gt (by norm_num [kindRank]) r1 r2
  case text.text =>
    simp only [acid_write_element, List.cons_append, List.append_eq,
      acid_memcmp, nat_compare_self, Ordering.eq_then]
    rw [write_str_cmp (utf8_bytes h1) (utf8_bytes h2) hr1 hr2, utf8_cmp h1 h2]
    rfl
  case text.uuid => exact elem_cmp_cross (by norm_num [kindRank]) r1 r2
  case text.time => exact elem_cmp_cross (by norm_num [kindRank]) r1 r2
  case uuid.null => exact elem_cmp_cross_gt (by norm_num [kindRank]) r1 r2
  case uuid.int => exact elem_cmp_cross_gt (by norm_num [kindRank]) r1 r2
  case uuid.bool => exact elem_cmp_cross_gt (by norm_num [kindRank]) r1 r2
  case uuid.blob => exact elem_cmp_cross_gt (by norm_num [kindRank]) r1 r2
  case uuid.text => exact elem_cmp_cross_gt (by norm_num [kindRank]) r1 r2
  case uuid.uuid =>
    simp only [acid_write_element, List.cons_append, List.append_eq,
      acid_memcmp, nat_compare_self, Ordering.eq_then]
    exact memcmp_append_eqlen _ _ r1 r2 (h1.1.trans h2.1.symm)
  case uuid.time => exact elem_cmp_cross (by norm_num [kindRank]) r1 r2
  case time.null => exact elem_cmp_cross_gt (by norm_num [kindRank]) r1 r2
  case time.int => exact elem_cmp_cross_gt (by norm_num [kindRank]) r1 r2
  case time.bool => exact elem_cmp_cross_gt (by norm_num [kindRank]) r1 r2
  case time.blob => exact elem_cmp_cross_gt (by norm_num [kindRank]) r1 r2
  case time.text => exact elem_cmp_cross_gt (by norm_num [kindRank]) r1 r2
  case time.uuid => exact elem_cmp_cross_gt (by norm_num [kindRank]) r1 r2
  case time.time => exact elem_cmp_time_diag h1 h2 r1 r2
theorem goodRest_write_tuple (t : List Element) : goodRest (write_tuple t) := by
  cases t with
  | nil => trivial
  | cons e es =>
    obtain ⟨x, hx⟩ := write_element_head e
    show goodRest (acid_write_element e ++ write_tuple es)
    rw [hx, List.cons_append]
    exact headByte_lt128 e

/-- Tuple encodings compare exactly as their element sequences. -/
theorem write_tuple_cmp : ∀ (a b : List Element), ValidTuple a → ValidTuple b →
    acid_memcmp (write_tuple a) (write_tuple b) = tupleCompare a b := by
  intro a
  induction a with
  | nil =>
    intro b _ _
    cases b with
    | nil => rfl
    | cons e es =>
      show acid_memcmp [] (acid_write_element e ++ write_tuple es) = .lt
      obtain ⟨x, hx⟩ := write_element_head e
      rw [hx, List.cons_append]
      rfl
  | cons e es ih =>
    intro b ha hb
    cases b with
    | nil =>
      show acid_memcmp (acid_write_element e ++ write_tuple es) [] = .gt
      obtain ⟨x, hx⟩ := write_element_head e
      rw [hx, List.cons_append]
      rfl
    | cons f fs =>
      show acid_memcmp (acid_write_element e ++ write_tuple es)
        (acid_write_element f ++ write_tuple fs) =
        (elemCompare e f).then (tupleCompare es fs)
      rw [elem_cmp e f (ha e (by simp)) (hb f (by simp)) _ _
        (goodRest_write_tuple es) (goodRest_write_tuple fs)]
      rw [ih fs (fun z hz => ha z (by simp [hz])) (fun z hz => hb z (by simp [hz]))]

/-- C1 (amended): for every two valid tuples, unsigned bytewise comparison of
their encodings equals element-wise semantic comparison, with the cross-kind
chain following the kind tags: Null < NegInt < PosInt < Bool < Bytes < Text <
Uuid < NegTime < PosTime. -/
theorem C1_tuple_order (a b : List Element) (ha : ValidTuple a) (hb : ValidTuple b) :
    acid_memcmp (write_tuple a) (write_tuple b) = tupleCompare a b :=
  write_tuple_cmp a b ha hb

theorem C1_tuple_order_witness :
    ValidTuple [Element.int 5, Element.text [104]] ∧
    ValidTuple [Element.int 5, Element.blob [104]] ∧
    acid_memcmp (write_tuple [Element.int 5, Element.text [104]])
        (write_tuple [Element.int 5, Element.blob [104]]) =
      tupleCompare [Element.int 5, Element.text [104]]
        [Element.int 5, Element.blob [104]] :=
  ⟨by decide, by decide, C1_tuple_order _ _ (by decide) (by decide)⟩

/-- C1 counterexample: the specification's cross-kind chain places NegTime and
PosTime below Uuid, but the encoder's tags sort every Uuid key below every
time key: a uuid tuple compares bytewise below a time tuple even though the
spec's ranks say time is the smaller element. -/
theorem C1_counterexample :
    acid_memcmp (write_tuple [Element.uuid (List.replicate 16 0)])
        (write_tuple [Element.time 0 0]) = .lt ∧
    spec_kind_rank (Element.time 0 0) <
      spec_kind_rank (Element.uuid (List.replicate 16 0)) ∧
    ValidTuple [Element.uuid (List.replicate 16 0)] ∧
    ValidTuple [Element.time 0 0] := by
  decide

/-! ## Tuple decoding (src/ext/keylib.c, unpack / py_unpack / py_unpacks) -/

/-- Loop of unpack (src/ext/keylib.c lines 785-813): read elements until the
input is exhausted or a separator is met, consuming the separator. Fuel is
the byte count: each element consumes at least its kind byte. -/
def unpack_fuel : Nat → List Nat → Option (List Element × List Nat)
  | _, [] => some ([], [])
  | 0, _ :: _ => none
  | f + 1, ch :: rest =>
    if ch = KIND_SEP then some ([], rest)
    else
      match acid_read_element (ch :: rest) with
      | some (e, r) => (unpack_fuel f r).map (fun p => (e :: p.1, p.2))
      | none => none

/-- unpack: the loop with the input length as fuel. -/
def unpack (l : List Nat) : Option (List Element × List Nat) :=
  unpack_fuel l.length l

/-- C2: the negative-time decode bug. read_time extracts the offset bits and
milliseconds from the still-complemented magnitude instead of negating the
composite first: encoding the time element with composite -64 (millis -1,
offset bits 64) yields [0x5b, 0xbf], which decodes to the different element
with millis 0 and offset bits 64, so decode of encode is not the identity. -/
theorem C2_negtime_roundtrip_bug :
    acid_write_element (Element.time (-1) 64) = [0x5b, 0xbf] ∧
    unpack (write_tuple [Element.time (-1) 64]) = some ([Element.time 0 64], []) ∧
    Element.time 0 64 ≠ Element.time (-1) 64 ∧
    ValidElem (Element.time (-1) 64) := by
  decide

/-- The varint length classes exactly as the specification's table in section
4.1 states them, the named second definition of the refinement: 0..240 direct,
241..2287 two bytes, 2288..67823 three bytes behind 0xf9, then big-endian
classes 0xfa..0xff of three to eight body bytes. -/
def spec_varint (v : Nat) : List Nat :=
  if v ≤ 240 then [v]
  else if v ≤ 2287 then [241 + (v - 240) / 256, (v - 240) % 256]
  else if v ≤ 67823 then [0xf9, (v - 2288) / 256, (v - 2288) % 256]
  else if v ≤ 2 ^ 24 - 1 then 0xfa :: beBytes 3 v
  else if v ≤ 2 ^ 32 - 1 then 0xfb :: beBytes 4 v
  else if v ≤ 2 ^ 40 - 1 then 0xfc :: beBytes 5 v
  else if v ≤ 2 ^ 48 - 1 then 0xfd :: beBytes 6 v
  else if v ≤ 2 ^ 56 - 1 then 0xfe :: beBytes 7 v
  else 0xff :: beBytes 8 v

theorem write_int_body_spec {v : Nat} (hv : v < 2 ^ 64) :
    write_int_body 0 v = spec_varint v := by
  unfold write_int_body spec_varint
  by_cases h1 : v ≤ 240
  · simp [h1, Nat.zero_xor]
  · by_cases h2 : v ≤ 2287
    · simp [h1, h2, Nat.zero_xor]
    · by_cases h3 : v ≤ 67823
      · simp [h1, h2, h3, Nat.zero_xor]
      · simp only [h1, h2, h3, if_false]
        rw [zero_xor_map, bigBody_eq_beBytes (by omega)]
        by_cases h24 : v ≤ 2 ^ 24 - 1
        · rw [if_pos h24]
          have ht : bigType v = 0xfa := by
            unfold bigType
            rw [if_neg (by omega), if_neg (by omega), if_neg (by omega),
              if_neg (by omega), if_neg (by omega)]
          have hw : bigWidth v = 3 := by
            unfold bigWidth
            rw [ht]
          rw [ht, hw]
        · rw [if_neg h24]
          by_cases h32 : v ≤ 2 ^ 32 - 1
          · rw [if_pos h32]
            have ht : bigType v = 0xfb := by
              unfold bigType
              rw [if_neg (by omega), if_neg (by omega), if_neg (by omega),
                if_neg (by omega), if_pos (by omega)]
            have hw : bigWidth v = 4 := by
              unfold bigWidth
              rw [ht]
            rw [ht, hw]
          · rw [if_neg h32]
            by_cases h40 : v ≤ 2 ^ 40 - 1
            · rw [if_pos h40]
              have ht : bigType v = 0xfc := by
                unfold bigType
                rw [if_neg (by omega), if_neg (by omega), if_neg (by omega),
                  if_pos (by omega), if_pos (by omega)]
              have hw : bigWidth v = 5 := by
                unfold bigWidth
                rw [ht]
              rw [ht, hw]
            · rw [if_neg h40]
              by_cases h48 : v ≤ 2 ^ 48 - 1
              · rw [if_pos h48]
                have ht : bigType v = 0xfd := by
                  unfold bigType
                  rw [if_neg (by omega), if_neg (by omega), if_pos (by omega),
                    if_pos (by omega), if_pos (by omega)]
                have hw : bigWidth v = 6 := by
                  unfold bigWidth
                  rw [ht]
                rw [ht, hw]
              · rw [if_neg h48]
                by_cases h56 : v ≤ 2 ^ 56 - 1
                · rw [if_pos h56]
                  have ht : bigType v = 0xfe := by
                    unfold bigType
                    rw [if_neg (by omega), if_pos (by omega), if_pos (by omega),
                      if_pos (by omega), if_pos (by omega)]
                  have hw : bigWidth v = 7 := by
                    unfold bigWidth
                    rw [ht]
                  rw [ht, hw]
                · rw [if_neg h56]
                  have ht : bigType v = 0xff := by
                    unfold bigType
                    rw [if_pos (by omega), if_pos (by omega), if_pos (by omega),
                      if_pos (by omega), if_pos (by omega)]
                  have hw : bigWidth v = 8 := by
                    unfold bigWidth
                    rw [ht]
                  rw [ht, hw]

/-- C3: the unsigned varint encoder realises exactly the specification's
length classes, the decoder inverts every class leaving the tail, and the four
concrete single-element tuples encode to the stated bytes. -/
theorem C3_varint_spec (v : Nat) (hv : v < 2 ^ 64) (r : List Nat) :
    (write_int_body 0 v = spec_varint v ∧
      read_plain_int 0 (write_int_body 0 v ++ r) = some (v, r)) ∧
    write_tuple [Element.int 0] = [0x15, 0x00] ∧
    write_tuple [Element.int 240] = [0x15, 0xf0] ∧
    write_tuple [Element.int 241] = [0x15, 0xf1, 0x01] ∧
    write_tuple [Element.int (-1)] = [0x14, 0xfe] := by
  refine ⟨⟨write_int_body_spec hv, read_plain_int_write 0 hv r⟩, ?_, ?_, ?_, ?_⟩ <;>
    decide

theorem C3_varint_spec_witness :
    (67824 < 2 ^ 64) ∧
    ((write_int_body 0 67824 = spec_varint 67824 ∧
      read_plain_int 0 (write_int_body 0 67824 ++ [0x15]) = some (67824, [0x15])) ∧
    write_tuple [Element.int 0] = [0x15, 0x00] ∧
    write_tuple [Element.int 240] = [0x15, 0xf0] ∧
    write_tuple [Element.int 241] = [0x15, 0xf1, 0x01] ∧
    write_tuple [Element.int (-1)] = [0x14, 0xfe]) :=
  ⟨by norm_num, C3_varint_spec 67824 (by norm_num) [0x15]⟩

/-! ## Skipping and key lists (src/ext/keylib.c acid_skip_element,
src/ext/keylist.c acid_keylist_from_raw) -/

/-- acid_skip_element (src/ext/keylib.c lines 821-862): advance past one
element using only the kind tag and length information, returning the
remaining bytes and the eof flag (set by a separator or by reaching the
end). -/
def acid_skip_element : List Nat → Option (List Nat × Bool)
  | [] => none
  | ch :: rest =>
    if ch = KIND_BOOL then
      match rest with
      | [] => none
      | _ :: r => some (r, r.isEmpty)
    else if ch = KIND_NULL then some (rest, rest.isEmpty)
    else if ch = KIND_NEG_TIME ∨ ch = KIND_NEG_INTEGER ∨ ch = KIND_TIME ∨
        ch = KIND_INTEGER then
      match rest with
      | [] => none
      | b :: r =>
        let xor : Nat := if ch = KIND_NEG_TIME ∨ ch = KIND_NEG_INTEGER then 0xff else 0
        let c := xor ^^^ b
        let r2 := if 240 < c ∧ c ≤ 248 then r.drop 1
                  else if 249 ≤ c then r.drop (8 - (255 - c))
                  else r
        some (r2, r2.isEmpty)
    else if ch = KIND_TEXT ∨ ch = KIND_BLOB then
      let r := rest.dropWhile (fun b => b &&& 0x80 != 0)
      some (r, r.isEmpty)
    else if ch = KIND_UUID then
      let r := rest.drop 16
      some (r, r.isEmpty)
    else if ch = KIND_SEP then some (rest, true)
    else none

/-- Inner loop of acid_keylist_from_raw: skip elements until the eof flag,
returning the remaining bytes and the nudge (whether a separator was consumed
with data still following, so the key excludes that byte). -/
def skip_run : Nat → List Nat → Option (List Nat × Bool)
  | 0, _ => none
  | f + 1, l =>
    match acid_skip_element l with
    | none => none
    | some (r, eof) => if eof then some (r, !r.isEmpty) else skip_run f r

/-- acid_keylist_from_raw (src/ext/keylist.c lines 45-81): cut the raw bytes
into keys at eof boundaries, dropping a consumed separator from each key
unless it sits at the very end of the input. -/
def acid_keylist_fuel : Nat → List Nat → Option (List (List Nat))
  | _, [] => some []
  | 0, _ :: _ => none
  | f + 1, x :: xs =>
    match skip_run (x :: xs).length (x :: xs) with
    | none => none
    | some (r, nudge) =>
      let klen := (x :: xs).length - r.length - (if nudge then 1 else 0)
      (acid_keylist_fuel f r).map (((x :: xs).take klen) :: ·)

def acid_keylist_from_raw (l : List Nat) : Option (List (List Nat)) :=
  acid_keylist_fuel l.length l

/-- Outcome of a Python-level call: a value, Py_None, or a raised exception. -/
inductive PyRes (α : Type) where
  | val (a : α)
  | pynone
  | err
  deriving DecidableEq

/-- key_from_raw (src/ext/key.c lines 324-354): verify the prefix, build the
key over the remainder; a mismatch returns Py_None. -/
def key_from_raw (pre raw : List Nat) : PyRes (List Nat) :=
  if raw.length < pre.length ∨ raw.take pre.length ≠ pre then .pynone
  else .val (raw.drop pre.length)

/-- py_unpack (src/ext/keylib.c lines 1004-1022): strip the prefix and unpack
one tuple; a mismatch returns Py_None. -/
def py_unpack (pre s : List Nat) : PyRes (List Element) :=
  if s.length < pre.length ∨ s.take pre.length ≠ pre then .pynone
  else
    match unpack (s.drop pre.length) with
    | some p => .val p.1
    | none => .err

/-- Loop of py_unpacks: unpack tuples while bytes remain. -/
def unpacks_fuel : Nat → List Nat → Option (List (List Element))
  | _, [] => some []
  | 0, _ :: _ => none
  | f + 1, x :: l =>
    match unpack (x :: l) with
    | some (t, r) => (unpacks_fuel f r).map (t :: ·)
    | none => none

/-- py_unpacks (src/ext/keylib.c lines 1029-1080): prefix check, repeated
unpack, and the single-empty-tuple special case when nothing was parsed. -/
def py_unpacks (pre s : List Nat) : PyRes (List (List Element)) :=
  if s.length < pre.length ∨ s.take pre.length ≠ pre then .pynone
  else
    match unpacks_fuel (s.drop pre.length).length (s.drop pre.length) with
    | some ts => .val (if ts.isEmpty then [[]] else ts)
    | none => .err

/-- keylist_from_raw (src/ext/keylist.c lines 87-105): prefix check then the
raw split. -/
def keylist_from_raw (pre raw : List Nat) : PyRes (List (List Nat)) :=
  if raw.length < pre.length ∨ raw.take pre.length ≠ pre then .pynone
  else
    match acid_keylist_from_raw (raw.drop pre.length) with
    | some ks => .val ks
    | none => .err

/-- py_packs on a list of tuples with empty prefix (src/ext/keylib.c lines
459-528): encoded tuples joined with a separator byte between each. -/
def packs_tuples : List (List Element) → List Nat
  | [] => []
  | [t] => write_tuple t
  | t :: ts => write_tuple t ++ KIND_SEP :: packs_tuples ts

/-- An element whose decode inverts its encode: everything except the
negative-time composites, which hit the read_time bug. -/
def SafeElem (e : Element) : Prop :=
  ValidElem e ∧ (match e with
    | .time m q => 0 ≤ timeComposite m q
    | _ => True)

instance : DecidablePred SafeElem := fun e => by
  cases e <;> simp only [SafeElem] <;> infer_instance

/-- C9 (amended): on a prefix mismatch every prefixed decode entry point
returns Py_None rather than raising DecodeError or silently succeeding. -/
theorem C9_prefix_mismatch_none (pre raw : List Nat)
    (h : raw.length < pre.length ∨ raw.take pre.length ≠ pre) :
    key_from_raw pre raw = .pynone ∧ py_unpack pre raw = .pynone ∧
    py_unpacks pre raw = .pynone ∧ keylist_from_raw pre raw = .pynone := by
  refine ⟨?_, ?_, ?_, ?_⟩ <;>
    simp only [key_from_raw, py_unpack, py_unpacks, keylist_from_raw, if_pos h]

theorem C9_prefix_mismatch_none_witness :
    (([0x02] : List Nat).length < ([0x01] : List Nat).length ∨
      ([0x02] : List Nat).take ([0x01] : List Nat).length ≠ [0x01]) ∧
    (key_from_raw [0x01] [0x02] = .pynone ∧ py_unpack [0x01] [0x02] = .pynone ∧
      py_unpacks [0x01] [0x02] = .pynone ∧
      keylist_from_raw [0x01] [0x02] = .pynone) :=
  ⟨by decide, C9_prefix_mismatch_none [0x01] [0x02] (by decide)⟩

/-- C9 counterexample: a mismatching prefix yields Py_None, not an error, on
every entry point: the claimed DecodeError never appears. -/
theorem C9_counterexample :
    key_from_raw [0x01] [0x02, 0x03] = .pynone ∧
    py_unpack [0x01] [0x02, 0x03] = .pynone ∧
    py_unpacks [0x01] [0x02, 0x03] = .pynone ∧
    keylist_from_raw [0x01] [0x02, 0x03] = .pynone ∧
    (PyRes.pynone : PyRes (List Nat)) ≠ .err ∧
    (PyRes.pynone : PyRes (List Nat)) ≠ .val [0x02, 0x03] := by
  decide

theorem read_el_null (rest : List Nat) :
    acid_read_element (KIND_NULL :: rest) = some (.null, rest) := rfl

theorem read_el_int (rest : List Nat) :
    acid_read_element (KIND_INTEGER :: rest) =
      (read_plain_int 0 rest).map (fun p => (.int (p.1 : Int), p.2)) := rfl

theorem read_el_negint (rest : List Nat) :
    acid_read_element (KIND_NEG_INTEGER :: rest) =
      (read_plain_int 0xff rest).map (fun p => (.int (-(p.1 : Int)), p.2)) := rfl

theorem read_el_bool (rest : List Nat) :
    acid_read_element (KIND_BOOL :: rest) =
      (read_plain_int 0 rest).map (fun p => (.bool (p.1 != 0), p.2)) := rfl

theorem read_el_blob (rest : List Nat) :
    acid_read_element (KIND_BLOB :: rest) =
      some (.blob (read_str rest).1, (read_str rest).2) := rfl

theorem read_el_text (rest : List Nat) :
    acid_read_element (KIND_TEXT :: rest) =
      (match utf8_decode (read_str rest).1 with
        | some s => some (.text s, (read_str rest).2)
        | none => none) := rfl

theorem read_el_time (rest : List Nat) :
    acid_read_element (KIND_TIME :: rest) =
      (read_plain_int 0 rest).map (fun p =>
        (.time ((p.1 >>> 7 : Nat) : Int) (p.1 &&& 0x7f), p.2)) := rfl

theorem read_el_uuid (rest : List Nat) :
    acid_read_element (KIND_UUID :: rest) =
      (if 16 ≤ rest.length then some (.uuid (rest.take 16), rest.drop 16)
        else none) := rfl

/-- Decode inverts encode for every safe element, in any well-formed
context. -/
theorem acid_read_element_write {e : Element} (he : SafeElem e) (r : List Nat)
    (hr : goodRest r) :
    acid_read_element (acid_write_element e ++ r) = some (e, r) := by
  obtain ⟨hv, hs⟩ := he
  cases e with
  | null => exact read_el_null r
  | int v =>
    obtain ⟨hlo, hhi⟩ := hv
    by_cases h0 : v < 0
    · simp only [acid_write_element, if_pos h0]
      rw [write_int20, List.cons_append, read_el_negint,
        read_plain_int_write 0xff (by omega) r]
      simp only [Option.map_some']
      have : (((-v).toNat : Int)) = -v := Int.toNat_of_nonneg (by omega)
      rw [this]
      norm_num
    · simp only [acid_write_element, if_neg h0]
      rw [write_int21, List.cons_append, read_el_int,
        read_plain_int_write 0 (by omega) r]
      simp only [Option.map_some']
      rw [Int.toNat_of_nonneg (by omega)]
  | bool b =>
    cases b with
    | false =>
      show acid_read_element ([KIND_BOOL, 0] ++ r) = _
      rw [List.cons_append, read_el_bool]
      rfl
    | true =>
      show acid_read_element ([KIND_BOOL, 1] ++ r) = _
      rw [List.cons_append, read_el_bool]
      rfl
  | blob s =>
    show acid_read_element ((KIND_BLOB :: write_str s) ++ r) = _
    rw [List.cons_append, read_el_blob, read_str_write_str hv hr]
  | text s =>
    show acid_read_element ((KIND_TEXT :: write_str (utf8 s)) ++ r) = _
    rw [List.cons_append, read_el_text,
      read_str_write_str (utf8_bytes hv) hr]
    rw [utf8_decode_utf8 hv]
  | uuid s =>
    show acid_read_element ((KIND_UUID :: s) ++ r) = _
    rw [List.cons_append, read_el_uuid]
    rw [if_pos (by rw [List.length_append, hv.1]; omega)]
    rw [List.take_left' hv.1, List.drop_left' hv.1]
  | time m q =>
    obtain ⟨hq, hlo, hhi⟩ := hv
    have hs' : 0 ≤ timeComposite m q := hs
    have h0 : ¬ timeComposite m q < 0 := by omega
    simp only [acid_write_element, if_neg h0]
    rw [write_int92, List.cons_append, read_el_time,
      read_plain_int_write 0 (by omega) r]
    simp only [Option.map_some']
    have hk : (timeComposite m q).toNat = m.toNat * 128 + q := by
      unfold timeComposite at hs' hhi ⊢
      omega
    have hm0 : 0 ≤ m := by
      unfold timeComposite at hs'
      omega
    have h1 : (timeComposite m q).toNat >>> 7 = m.toNat := by
      rw [Nat.shiftRight_eq_div_pow, hk]
      norm_num
      omega
    have h2 : (timeComposite m q).toNat &&& 0x7f = q := by
      rw [and127_mod, hk]
      omega
    rw [h1, h2, Int.toNat_of_nonneg hm0]

theorem headByte_ne_sep (e : Element) : headByte e ≠ KIND_SEP := by
  cases e with
  | null => norm_num [headByte, KIND_NULL, KIND_SEP]
  | int v =>
    by_cases h : v < 0 <;>
      simp [headByte, h, KIND_NEG_INTEGER, KIND_INTEGER, KIND_SEP]
  | bool b => norm_num [headByte, KIND_BOOL, KIND_SEP]
  | blob s => norm_num [headByte, KIND_BLOB, KIND_SEP]
  | text s => norm_num [headByte, KIND_TEXT, KIND_SEP]
  | uuid s => norm_num [headByte, KIND_UUID, KIND_SEP]
  | time m q =>
    by_cases h : timeComposite m q < 0 <;>
      simp [headByte, h, KIND_NEG_TIME, KIND_TIME, KIND_SEP]

theorem goodRest_append_sep (es : List Element) (r : List Nat) :
    goodRest (write_tuple es ++ (KIND_SEP :: r)) := by
  cases es with
  | nil =>
    show goodRest (KIND_SEP :: r)
    show KIND_SEP < 0x80
    norm_num [KIND_SEP]
  | cons e es2 =>
    obtain ⟨x, hx⟩ := write_element_head e
    show goodRest ((acid_write_element e ++ write_tuple es2) ++ (KIND_SEP :: r))
    rw [hx]
    simp only [List.cons_append]
    exact headByte_lt128 e

theorem write_tuple_len (t : List Element) : t.length ≤ (write_tuple t).length := by
  induction t with
  | nil => simp [write_tuple]
  | cons e es ih =>
    obtain ⟨x, hx⟩ := write_element_head e
    show (e :: es).length ≤ (acid_write_element e ++ write_tuple es).length
    rw [hx, List.length_cons, List.cons_append, List.length_cons,
      List.length_append]
    omega

theorem unpack_fuel_write_sep : ∀ (t : List Element) (f : Nat) (r : List Nat),
    (∀ e ∈ t, SafeElem e) → t.length + 1 ≤ f →
    unpack_fuel f (write_tuple t ++ (KIND_SEP :: r)) = some (t, r) := by
  intro t
  induction t with
  | nil =>
    intro f r _ hf
    cases f with
    | zero => omega
    | succ f =>
      show unpack_fuel (f + 1) (KIND_SEP :: r) = some ([], r)
      rfl
  | cons e es ih =>
    intro f r hsafe hf
    simp only [List.length_cons] at hf
    cases f with
    | zero => omega
    | succ f =>
      obtain ⟨x, hx⟩ := write_element_head e
      have hstep : acid_read_element
          (headByte e :: (x ++ (write_tuple es ++ (KIND_SEP :: r)))) =
          some (e, write_tuple es ++ (KIND_SEP :: r)) := by
        rw [← List.cons_append, ← hx]
        exact acid_read_element_write (hsafe e (by simp)) _
          (goodRest_append_sep es r)
      show unpack_fuel (f + 1)
        ((acid_write_element e ++ write_tuple es) ++ (KIND_SEP :: r)) =
        some (e :: es, r)
      rw [List.append_assoc, hx, List.cons_append]
      rw [unpack_fuel, if_neg (headByte_ne_sep e), hstep]
      show (unpack_fuel f (write_tuple es ++ (KIND_SEP :: r))).map
        (fun p => (e :: p.1, p.2)) = some (e :: es, r)
      rw [ih f r (fun z hz => hsafe z (by simp [hz])) (by omega)]
      rfl

theorem unpack_fuel_write_end : ∀ (t : List Element) (f : Nat),
    (∀ e ∈ t, SafeElem e) → t.length ≤ f →
    unpack_fuel f (write_tuple t) = some (t, []) := by
  intro t
  induction t with
  | nil =>
    intro f _ _
    show unpack_fuel f [] = some ([], [])
    cases f <;> rfl
  | cons e es ih =>
    intro f hsafe hf
    simp only [List.length_cons] at hf
    cases f with
    | zero => omega
    | succ f =>
      obtain ⟨x, hx⟩ := write_element_head e
      have hstep : acid_read_element (headByte e :: (x ++ write_tuple es)) =
          some (e, write_tuple es) := by
        rw [← List.cons_append, ← hx]
        exact acid_read_element_write (hsafe e (by simp)) _
          (goodRest_write_tuple es)
      show unpack_fuel (f + 1) (acid_write_element e ++ write_tuple es) =
        some (e :: es, [])
      rw [hx, List.cons_append]
      rw [unpack_fuel, if_neg (headByte_ne_sep e), hstep]
      show (unpack_fuel f (write_tuple es)).map
        (fun p => (e :: p.1, p.2)) = some (e :: es, [])
      rw [ih f (fun z hz => hsafe z (by simp [hz])) (by omega)]
      rfl

theorem unpack_write_sep (t : List Element) (r : List Nat)
    (hs : ∀ e ∈ t, SafeElem e) :
    unpack (write_tuple t ++ (KIND_SEP :: r)) = some (t, r) := by
  unfold unpack
  apply unpack_fuel_write_sep t _ r hs
  have h1 := write_tuple_len t
  rw [List.length_append, List.length_cons]
  omega

theorem unpack_write_end (t : List Element) (hs : ∀ e ∈ t, SafeElem e) :
    unpack (write_tuple t) = some (t, []) := by
  unfold unpack
  exact unpack_fuel_write_end t _ hs (write_tuple_len t)

theorem write_tuple_ne_nil {t : List Element} (h : t ≠ []) :
    write_tuple t ≠ [] := by
  cases t with
  | nil => exact absurd rfl h
  | cons e es =>
    obtain ⟨x, hx⟩ := write_element_head e
    show acid_write_element e ++ write_tuple es ≠ []
    rw [hx]
    simp

theorem unpacks_fuel_packs : ∀ (ts : List (List Element)) (f : Nat),
    (∀ t ∈ ts, t ≠ []) → (∀ t ∈ ts, ∀ e ∈ t, SafeElem e) → ts.length ≤ f →
    unpacks_fuel f (packs_tuples ts) = some ts := by
  intro ts
  induction ts with
  | nil =>
    intro f _ _ _
    show unpacks_fuel f [] = some []
    cases f <;> rfl
  | cons t ts ih =>
    intro f hne hsafe hf
    simp only [List.length_cons] at hf
    cases f with
    | zero => omega
    | succ f =>
      obtain ⟨b, l, hb⟩ : ∃ b l, write_tuple t = b :: l := by
        cases h : write_tuple t with
        | nil => exact absurd h (write_tuple_ne_nil (hne t (by simp)))
        | cons u v => exact ⟨u, v, rfl⟩
      cases ts with
      | nil =>
        show unpacks_fuel (f + 1) (write_tuple t) = some [t]
        rw [hb, unpacks_fuel, ← hb, unpack_write_end t (hsafe t (by simp))]
        show (unpacks_fuel f []).map (t :: ·) = some [t]
        have he : unpacks_fuel f [] = some [] := by cases f <;> rfl
        rw [he]
        rfl
      | cons t2 ts2 =>
        show unpacks_fuel (f + 1)
          (write_tuple t ++ (KIND_SEP :: packs_tuples (t2 :: ts2))) =
          some (t :: t2 :: ts2)
        rw [hb, List.cons_append, unpacks_fuel, ← List.cons_append, ← hb,
          unpack_write_sep t _ (hsafe t (by simp))]
        show (unpacks_fuel f (packs_tuples (t2 :: ts2))).map (t :: ·) =
          some (t :: t2 :: ts2)
        rw [ih f (fun z hz => hne z (by simp [hz]))
          (fun z hz => hsafe z (by simp [hz])) (by omega)]
        rfl

theorem packs_len : ∀ (ts : List (List Element)), (∀ t ∈ ts, t ≠ []) →
    ts.length ≤ (packs_tuples ts).length := by
  intro ts
  induction ts with
  | nil => simp [packs_tuples]
  | cons t ts ih =>
    intro h
    have hwt := write_tuple_len t
    have ht1 : 1 ≤ t.length := by
      cases hc : t with
      | nil => exact absurd hc (h t (by simp))
      | cons a as => simp
    cases ts with
    | nil =>
      show (t :: []).length ≤ (write_tuple t).length
      simp only [List.length_cons, List.length_nil]
      omega
    | cons t2 ts2 =>
      show (t :: t2 :: ts2).length ≤
        (write_tuple t ++ (KIND_SEP :: packs_tuples (t2 :: ts2))).length
      rw [List.length_append, List.length_cons]
      have h1 := ih (fun z hz => h z (by simp [hz]))
      simp only [List.length_cons] at h1 ⊢
      omega

/-- C7 (amended): for a nonempty list of nonempty tuples of safe elements,
splitting the separator-joined encoding recovers exactly the tuples (so the
result is never empty when the input has an element); and raw input equal to
the required prefix exactly parses to exactly one empty tuple. -/
theorem C7_unpacks_roundtrip :
    (∀ (ts : List (List Element)), ts ≠ [] → (∀ t ∈ ts, t ≠ []) →
      (∀ t ∈ ts, ∀ e ∈ t, SafeElem e) →
      py_unpacks [] (packs_tuples ts) = .val ts) ∧
    (∀ pre : List Nat, py_unpacks pre pre = .val [[]]) := by
  constructor
  · intro ts h1 h2 h3
    unfold py_unpacks
    rw [if_neg (by simp)]
    simp only [List.drop_zero, List.length_nil]
    rw [unpacks_fuel_packs ts _ h2 h3 (packs_len ts h2)]
    cases ts with
    | nil => exact absurd rfl h1
    | cons a as => rfl
  · intro pre
    unfold py_unpacks
    rw [if_neg (by simp)]
    rw [List.drop_length]
    rfl

theorem C7_unpacks_roundtrip_witness :
    (([[Element.null]] : List (List Element)) ≠ [] ∧
      (∀ t ∈ ([[Element.null]] : List (List Element)), t ≠ []) ∧
      (∀ t ∈ ([[Element.null]] : List (List Element)), ∀ e ∈ t, SafeElem e)) ∧
    py_unpacks [] (packs_tuples [[Element.null]]) = .val [[Element.null]] ∧
    py_unpacks [0x50] [0x50] = .val [[]] :=
  ⟨⟨by decide, by decide, by decide⟩,
    C7_unpacks_roundtrip.1 [[Element.null]] (by decide) (by decide) (by decide),
    C7_unpacks_roundtrip.2 [0x50]⟩

/-- C7 counterexample: the separator-joined encoding of two empty tuples is
the single separator byte, which splits back to ONE empty tuple, not two: the
round trip drops a tuple and the result can differ from the input. -/
theorem C7_counterexample :
    packs_tuples [[], []] = [KIND_SEP] ∧
    py_unpacks [] (packs_tuples [[], []]) = .val [[]] ∧
    ([[]] : List (List Element)) ≠ [[], []] := by
  decide

/-! ## Key concatenation (src/ext/key.c, key_concat) -/

/-- key_concat on two Keys (src/ext/key.c lines 513-548, Key branch): the
buffer is sized for both keys, the first memcpy writes self's bytes at offset
zero, and the second memcpy writes other's bytes also at offset zero; `g`
stands for the allocation's uninitialized remainder beyond self's bytes. -/
def key_concat_keys (a b g : List Nat) : List Nat :=
  b ++ (a ++ g).drop b.length

/-- key_concat on a Key and a tuple (src/ext/key.c lines 526-543, tuple
branch): self's bytes then each element encoded. -/
def key_concat_tuple (a : List Nat) (t : List Element) : List Nat :=
  a ++ write_tuple t

/-- C8: Key + Key is not byte append: both memcpys write at offset zero, so
the result starts with other's bytes, not self's. Concatenating the keys for
(0,) and (1,) never yields the encoding of (0, 1), whatever the uninitialized
remainder holds. -/
theorem C8_concat_bug (g : List Nat) (_hg : g.length = 2) :
    key_concat_keys [0x15, 0x00] [0x15, 0x01] g ≠
      [0x15, 0x00] ++ [0x15, 0x01] := by
  intro h
  simp [key_concat_keys] at h

theorem C8_concat_bug_witness :
    ([0, 0] : List Nat).length = 2 ∧
    key_concat_keys [0x15, 0x00] [0x15, 0x01] [0, 0] ≠
      [0x15, 0x00] ++ [0x15, 0x01] :=
  ⟨rfl, C8_concat_bug [0, 0] rfl⟩

/-! ## Next-greater keys (src/ext/key.c key_next_greater,
src/ext/keylib.c longest_prefix) -/

/-- longest_prefix (src/ext/keylib.c lines 867-877): length of the longest
prefix not ending in 0xff, zero when every byte is 0xff. -/
def longest_pfx : List Nat → Nat
  | [] => 0
  | b :: rest =>
    let r := longest_pfx rest
    if r = 0 then (if b ≠ 0xff then 1 else 0) else r + 1

/-- Increment the last byte of a byte string (the in-place ++ of
key_next_greater and acid_next_greater_bytes). -/
def incrLast : List Nat → List Nat
  | [] => []
  | [b] => [b + 1]
  | b :: rest => b :: incrLast rest

/-- Modelled from the spec: acid_next_greater is declared in acid.h but its
definition is not in the repository's files; section 4.3 specifies the length
of the longest prefix of the encoded form not ending in 0xff, absent when the
whole encoding is 0xff. key_next_greater (src/ext/key.c lines 271-293) copies
that prefix and increments its last byte. -/
def key_next_greater (k : List Nat) : Option (List Nat) :=
  if longest_pfx k = 0 then none
  else some (incrLast (k.take (longest_pfx k)))

theorem longest_pfx_zero : ∀ (k : List Nat),
    longest_pfx k = 0 ↔ ∀ b ∈ k, b = 0xff := by
  intro k
  induction k with
  | nil => simp [longest_pfx]
  | cons b rest ih =>
    show (if longest_pfx rest = 0 then (if b ≠ 0xff then 1 else 0)
      else longest_pfx rest + 1) = 0 ↔ _
    by_cases hr : longest_pfx rest = 0
    · rw [if_pos hr]
      by_cases hb : b = 0xff
      · simp [hb, ih.mp hr]
        intro z hz
        exact ih.mp hr z hz
      · simp [hb]
    · rw [if_neg hr]
      simp only [Nat.succ_ne_zero, false_iff]
      intro hall
      exact hr (ih.mpr (fun z hz => hall z (by simp [hz])))

theorem longest_pfx_le (k : List Nat) : longest_pfx k ≤ k.length := by
  induction k with
  | nil => simp [longest_pfx]
  | cons b rest ih =>
    show (if longest_pfx rest = 0 then (if b ≠ 0xff then 1 else 0)
      else longest_pfx rest + 1) ≤ rest.length + 1
    by_cases hr : longest_pfx rest = 0
    · rw [if_pos hr]
      split_ifs <;> omega
    · rw [if_neg hr]
      omega

theorem longest_pfx_drop : ∀ (k : List Nat),
    k.drop (longest_pfx k) = List.replicate (k.length - longest_pfx k) 0xff := by
  intro k
  induction k with
  | nil => simp [longest_pfx]
  | cons b rest ih =>
    by_cases hr : longest_pfx rest = 0
    · have hrest : rest = List.replicate rest.length 0xff := by
        have h2 := ih
        rw [hr] at h2
        simpa using h2
      by_cases hb : b = 0xff
      · have hval : longest_pfx (b :: rest) = 0 := by
          show (if longest_pfx rest = 0 then (if b ≠ 0xff then 1 else 0)
            else longest_pfx rest + 1) = 0
          rw [if_pos hr, if_neg (by simp [hb])]
        rw [hval]
        show b :: rest = List.replicate ((b :: rest).length - 0) 0xff
        rw [hb]
        simp only [List.length_cons, Nat.sub_zero]
        rw [List.replicate_succ]
        exact congrArg (0xff :: ·) hrest
      · have hval : longest_pfx (b :: rest) = 1 := by
          show (if longest_pfx rest = 0 then (if b ≠ 0xff then 1 else 0)
            else longest_pfx rest + 1) = 1
          rw [if_pos hr, if_pos hb]
        rw [hval]
        show rest = List.replicate ((b :: rest).length - 1) 0xff
        simpa using hrest
    · have hval : longest_pfx (b :: rest) = longest_pfx rest + 1 := by
        show (if longest_pfx rest = 0 then (if b ≠ 0xff then 1 else 0)
          else longest_pfx rest + 1) = longest_pfx rest + 1
        rw [if_neg hr]
      rw [hval]
      show rest.drop (longest_pfx rest) = _
      rw [ih]
      congr 1
      have hle := longest_pfx_le rest
      simp only [List.length_cons]
      omega

theorem memcmp_pad_incr_lt : ∀ (t w : List Nat), t ≠ [] →
    acid_memcmp (t ++ w) (incrLast t) = .lt := by
  intro t
  induction t with
  | nil => intro w h; exact absurd rfl h
  | cons c rest ih =>
    intro w _
    cases rest with
    | nil =>
      show acid_memcmp (c :: w) [c + 1] = .lt
      exact memcmp_cons_lt (by omega) _ _
    | cons d rest2 =>
      show acid_memcmp (c :: ((d :: rest2) ++ w)) (c :: incrLast (d :: rest2)) = .lt
      show (compare c c).then _ = _
      rw [nat_compare_self, Ordering.eq_then]
      exact ih w (by simp)

theorem memcmp_le_ff_pad : ∀ (m : List Nat) (L : Nat), Bytes m → m.length ≤ L →
    acid_memcmp m (List.replicate L 0xff) ≠ .gt := by
  intro m
  induction m with
  | nil =>
    intro L _ _
    cases L <;> simp [acid_memcmp, List.replicate]
  | cons y m2 ih =>
    intro L hb hl
    cases L with
    | zero => simp at hl
    | succ L2 =>
      rw [List.replicate_succ]
      show (compare y 0xff).then (acid_memcmp m2 (List.replicate L2 0xff)) ≠ .gt
      have hy : y < 256 := hb y (by simp)
      rcases Nat.lt_or_ge y 0xff with h | h
      · rw [nat_compare_lt h, Ordering.lt_then]
        simp
      · have hye : y = 0xff := by omega
        rw [hye, nat_compare_self, Ordering.eq_then]
        exact ih L2 (fun z hz => hb z (by simp [hz])) (by simpa using hl)

theorem memcmp_lt_incr_pad : ∀ (t m : List Nat) (L : Nat), Bytes m → t ≠ [] →
    acid_memcmp m (incrLast t) = .lt → m.length ≤ t.length + L →
    acid_memcmp m (t ++ List.replicate L 0xff) ≠ .gt := by
  intro t
  induction t with
  | nil => intro m L _ h; exact absurd rfl h
  | cons c rest ih =>
    intro m L hbm _ hlt hlen
    cases m with
    | nil =>
      show acid_memcmp [] ((c :: rest) ++ _) ≠ .gt
      simp [acid_memcmp, List.cons_append]
    | cons x m2 =>
      have hx : x < 256 := hbm x (by simp)
      cases rest with
      | nil =>
        have hxc : x ≤ c := by
          by_contra hgt
          push_neg at hgt
          have hne : acid_memcmp (x :: m2) (incrLast [c]) ≠ .lt := by
            show (compare x (c + 1)).then (acid_memcmp m2 []) ≠ .lt
            rcases Nat.lt_trichotomy x (c + 1) with h | h | h
            · omega
            · rw [h, nat_compare_self, Ordering.eq_then]
              cases m2 with
              | nil => simp [acid_memcmp]
              | cons z zs => simp [acid_memcmp]
            · rw [nat_compare_gt h, Ordering.gt_then]
              simp
          exact hne hlt
        rcases Nat.lt_or_ge x c with h | h
        · rw [List.cons_append]
          rw [memcmp_cons_lt h]
          simp
        · have hxe : x = c := by omega
          subst hxe
          rw [List.cons_append]
          show (compare x x).then (acid_memcmp m2 ([] ++ _)) ≠ .gt
          rw [nat_compare_self, Ordering.eq_then, List.nil_append]
          refine memcmp_le_ff_pad m2 L (fun z hz => hbm z (by simp [hz])) ?_
          have h3 : (x :: m2).length = m2.length + 1 := rfl
          have h4 : ([x] : List Nat).length = 1 := rfl
          omega
      | cons d rest2 =>
        have hm2 : Bytes m2 := fun z hz => hbm z (by simp [hz])
        have hstep : compare x c = .lt ∨ (x = c ∧
            acid_memcmp m2 (incrLast (d :: rest2)) = .lt) := by
          have hform : acid_memcmp (x :: m2) (incrLast (c :: d :: rest2)) =
              (compare x c).then (acid_memcmp m2 (incrLast (d :: rest2))) := rfl
          rw [hform] at hlt
          rcases Nat.lt_trichotomy x c with h | h | h
          · exact Or.inl (nat_compare_lt h)
          · subst h
            rw [nat_compare_self, Ordering.eq_then] at hlt
            exact Or.inr ⟨rfl, hlt⟩
          · rw [nat_compare_gt h, Ordering.gt_then] at hlt
            cases hlt
        rcases hstep with h | ⟨he, h⟩
        · rw [List.cons_append]
          show (compare x c).then _ ≠ .gt
          rw [h, Ordering.lt_then]
          simp
        · subst he
          rw [List.cons_append]
          show (compare x x).then (acid_memcmp m2 ((d :: rest2) ++ _)) ≠ .gt
          rw [nat_compare_self, Ordering.eq_then]
          exact ih m2 L hm2 (by simp) h (by simp at hlen ⊢; omega)

/-- C5 (amended): next_greater(k) is the least upper bound of the byte-string
extensions of k: it is absent exactly when every byte is 0xff; otherwise every
byte string with k as a prefix (k itself included) compares strictly below it,
and nothing below it bounds all of k's extensions. -/
theorem C5_next_greater_bound (k : List Nat) :
    (key_next_greater k = none ↔ ∀ b ∈ k, b = 0xff) ∧
    (∀ g, key_next_greater k = some g →
      (∀ e, k <+: e → acid_memcmp e g = .lt) ∧
      (∀ m, Bytes m → acid_memcmp m g = .lt →
        ∃ e, k <+: e ∧ acid_memcmp m e ≠ .gt)) := by
  constructor
  · unfold key_next_greater
    by_cases hz : longest_pfx k = 0
    · rw [if_pos hz]
      exact iff_of_true rfl ((longest_pfx_zero k).mp hz)
    · rw [if_neg hz]
      exact iff_of_false (by simp)
        (fun hall => hz ((longest_pfx_zero k).mpr hall))
  · intro g hg
    unfold key_next_greater at hg
    by_cases hz : longest_pfx k = 0
    · rw [if_pos hz] at hg
      cases hg
    · rw [if_neg hz] at hg
      have hg' : g = incrLast (k.take (longest_pfx k)) := (Option.some.inj hg).symm
      have hple := longest_pfx_le k
      have htl : (k.take (longest_pfx k)).length = longest_pfx k := by
        rw [List.length_take]
        omega
      have ht_ne : k.take (longest_pfx k) ≠ [] := by
        intro hnil
        rw [hnil] at htl
        simp at htl
        omega
      have hk_decomp : k = k.take (longest_pfx k) ++
          List.replicate (k.length - longest_pfx k) 0xff := by
        conv_lhs => rw [← List.take_append_drop (longest_pfx k) k]
        rw [longest_pfx_drop k]
      constructor
      · intro e he
        obtain ⟨s, hs⟩ := he
        rw [hg', ← hs]
        nth_rewrite 1 [hk_decomp]
        rw [List.append_assoc]
        exact memcmp_pad_incr_lt _ _ ht_ne
      · intro m hbm hmlt
        rw [hg'] at hmlt
        refine ⟨k ++ List.replicate m.length 0xff, ⟨_, rfl⟩, ?_⟩
        nth_rewrite 1 [hk_decomp]
        rw [List.append_assoc, ← List.replicate_add]
        refine memcmp_lt_incr_pad _ m _ hbm ht_ne hmlt ?_
        omega

theorem C5_next_greater_bound_witness :
    key_next_greater [0x15, 0x05] = some [0x15, 0x06] ∧
    acid_memcmp ([0x15, 0x05] ++ [0xff]) [0x15, 0x06] = .lt := by
  have h := (C5_next_greater_bound [0x15, 0x05]).2 [0x15, 0x06] (by decide)
  exact ⟨by decide, h.1 ([0x15, 0x05] ++ [0xff]) ⟨[0xff], rfl⟩⟩

/-- C5 counterexample: between the key (5,) and its next_greater there lies a
valid encoded key, (5, null): next_greater bounds byte-string extensions, not
the set of valid keys, so "no valid encoded key lies strictly between" is
false. -/
theorem C5_counterexample :
    key_next_greater [0x15, 0x05] = some [0x15, 0x06] ∧
    acid_memcmp [0x15, 0x05] [0x15, 0x05, 0x0f] = .lt ∧
    acid_memcmp [0x15, 0x05, 0x0f] [0x15, 0x06] = .lt ∧
    unpack [0x15, 0x05, 0x0f] = some ([Element.int 5, Element.null], []) := by
  decide

/-! ## Range iterators (src/ext/iterators.c) -/

/-- The four bound predicates of iterators.c. -/
inductive Pred where
  | le
  | lt
  | gt
  | ge
  deriving DecidableEq

/-- A configured bound: key bytes and predicate. -/
structure Bnd where
  key : List Nat
  pred : Pred
  deriving DecidableEq

/-- test_bound (src/ext/iterators.c lines 391-419): compare the bound key
against the candidate and apply the predicate; an absent bound passes. -/
def test_bound (b : Option Bnd) (cand : List Nat) : Bool :=
  match b with
  | none => true
  | some bd =>
    match bd.pred, acid_memcmp bd.key cand with
    | .le, rc => !(rc == .gt)
    | .lt, rc => rc == .lt
    | .gt, rc => rc == .gt
    | .ge, rc => !(rc == .lt)

/-- The Iterator struct (src/ext/acid.h / iterators.c): the engine stream it
still holds, the current physical record, its logical keys, the bounds, the
stop bound selected by the direction call, the record cap and the started
flag. -/
structure Iter where
  pfx : List Nat
  lo : Option Bnd
  hi : Option Bnd
  stop : Option Bnd
  maxr : Int
  it : Option (List (List Nat × List Nat))
  tup : Option (List Nat × List Nat)
  keys : Option (List (List Nat))
  started : Bool

/-- iter_clear (src/ext/iterators.c lines 141-157): drop every child
reference. -/
def iter_clear (s : Iter) : Iter :=
  { s with
    lo := none
    hi := none
    stop := none
    it := none
    tup := none
    keys := none }

/-- iter_step (src/ext/iterators.c lines 99-139): clear the current record,
pull the next engine tuple, verify the collection prefix and split the
remainder into logical keys. Returns the new state and whether a record is
now held. -/
def iter_step (s : Iter) : Iter × Bool :=
  match s.it with
  | none => ({ s with keys := none, tup := none }, false)
  | some [] => ({ s with keys := none, tup := none, it := none }, false)
  | some ((k, v) :: rest) =>
    if k.length < s.pfx.length ∨ k.take s.pfx.length ≠ s.pfx then
      ({ s with keys := none, tup := some (k, v), it := some rest }, false)
    else
      match acid_keylist_from_raw (k.drop s.pfx.length) with
      | some ks =>
        ({ s with keys := some ks, tup := some (k, v), it := some rest }, true)
      | none =>
        ({ s with keys := none, tup := some (k, v), it := some rest }, false)

/-- The started-flag dispatch of rangeiter_next: the first call after a
direction call keeps the record fetched there, later calls advance. -/
def next_adv (s : Iter) : Iter × Bool :=
  if s.started then iter_step s else ({ s with started := true }, true)

/-- rangeiter_next (src/ext/iterators.c lines 424-452): the halted guard, the
record cap, the started flag, one step, and the stop-bound test, yielding the
first logical key of the current record. -/
def rangeiter_next (s : Iter) : Iter × Option (List Nat) :=
  if s.it.isSome ∧ s.keys.isSome then
    if s.maxr = 0 then (iter_clear { s with maxr := s.maxr - 1 }, none)
    else
      let p := next_adv { s with maxr := s.maxr - 1 }
      if p.2 then
        match p.1.keys with
        | some (k0 :: _) =>
          if test_bound p.1.stop k0 then (p.1, some k0)
          else ({ p.1 with it := none, tup := none, keys := none }, none)
        | _ => (p.1, none)
      else (p.1, none)
  else (s, none)

/-- Getter for Iterator.key (src/ext/iterators.c lines 295-305). -/
def iter_get_key (s : Iter) : Option (List Nat) :=
  match s.keys with
  | some (k :: _) => some k
  | _ => none

/-- Getter for Iterator.keys (src/ext/iterators.c lines 310-318). -/
def iter_get_keys (s : Iter) : Option (List (List Nat)) := s.keys

/-- Getter for Iterator.data (src/ext/iterators.c lines 323-331). -/
def iter_get_data (s : Iter) : Option (List Nat) := s.tup.map (·.2)

/-- A halted iterator: no engine stream or no current keys, the guard
rangeiter_next checks first. -/
def Halted (s : Iter) : Prop := s.it = none ∨ s.keys = none

/-- A concrete already-halted iterator state (engine stream dropped). -/
def haltedIter0 : Iter := ⟨[], none, none, none, 1, none, none, none, false⟩

/-- A concrete live iterator whose record cap is already consumed. -/
def cappedIter0 : Iter := ⟨[], none, none, none, 0, some [([1], [])], none, some [[1]], false⟩

/-- The trace of yielded first logical keys over at most n next() calls. -/
def runIter : Nat → Iter → List (List Nat)
  | 0, _ => []
  | n + 1, st =>
    match rangeiter_next st with
    | (st2, some k) => k :: runIter n st2
    | (_, none) => []

theorem keylist_fuel_succ_some {f : Nat} {x : Nat} {xs r : List Nat}
    {nudge : Bool} (hsr : skip_run (x :: xs).length (x :: xs) = some (r, nudge)) :
    acid_keylist_fuel (f + 1) (x :: xs) =
      (acid_keylist_fuel f r).map
        (((x :: xs).take
          ((x :: xs).length - r.length - (if nudge then 1 else 0))) :: ·) := by
  conv_lhs => rw [acid_keylist_fuel]
  rw [hsr]

theorem keylist_fuel_succ_none {f : Nat} {x : Nat} {xs : List Nat}
    (hsr : skip_run (x :: xs).length (x :: xs) = none) :
    acid_keylist_fuel (f + 1) (x :: xs) = none := by
  conv_lhs => rw [acid_keylist_fuel]
  rw [hsr]

theorem keylist_fuel_ne_nil : ∀ {f : Nat} {x : Nat} {xs : List Nat}
    {ks : List (List Nat)},
    acid_keylist_fuel f (x :: xs) = some ks → ks ≠ [] := by
  intro f x xs ks h
  cases f with
  | zero => simp [acid_keylist_fuel] at h
  | succ f =>
    rcases hsr : skip_run (x :: xs).length (x :: xs) with _ | ⟨r, nudge⟩
    · rw [keylist_fuel_succ_none hsr] at h
      cases h
    · rw [keylist_fuel_succ_some hsr] at h
      rcases hkf : acid_keylist_fuel f r with _ | l
      · rw [hkf] at h
        cases h
      · rw [hkf] at h
        simp only [Option.map_some'] at h
        have h2 := Option.some.inj h
        rw [← h2]
        simp

theorem iter_step_none {s : Iter} (h : s.it = none) :
    iter_step s = ({ s with keys := none, tup := none }, false) := by
  unfold iter_step
  rw [h]

theorem iter_step_nil {s : Iter} (h : s.it = some []) :
    iter_step s = ({ s with keys := none, tup := none, it := none }, false) := by
  unfold iter_step
  rw [h]

theorem iter_step_mismatch {s : Iter} {k v : List Nat}
    {rest : List (List Nat × List Nat)} (h : s.it = some ((k, v) :: rest))
    (hp : k.length < s.pfx.length ∨ k.take s.pfx.length ≠ s.pfx) :
    iter_step s = ({ s with keys := none, tup := some (k, v), it := some rest },
      false) := by
  unfold iter_step
  rw [h]
  show (if k.length < s.pfx.length ∨ k.take s.pfx.length ≠ s.pfx then _ else _) = _
  rw [if_pos hp]

theorem iter_step_keys {s : Iter} {k v : List Nat}
    {rest : List (List Nat × List Nat)} {ks : List (List Nat)}
    (h : s.it = some ((k, v) :: rest))
    (hp : ¬ (k.length < s.pfx.length ∨ k.take s.pfx.length ≠ s.pfx))
    (hks : acid_keylist_from_raw (k.drop s.pfx.length) = some ks) :
    iter_step s = ({ s with keys := some ks, tup := some (k, v), it := some rest },
      true) := by
  unfold iter_step
  rw [h]
  show (if k.length < s.pfx.length ∨ k.take s.pfx.length ≠ s.pfx then _ else _) = _
  rw [if_neg hp, hks]

theorem iter_step_nokeys {s : Iter} {k v : List Nat}
    {rest : List (List Nat × List Nat)} (h : s.it = some ((k, v) :: rest))
    (hp : ¬ (k.length < s.pfx.length ∨ k.take s.pfx.length ≠ s.pfx))
    (hks : acid_keylist_from_raw (k.drop s.pfx.length) = none) :
    iter_step s = ({ s with keys := none, tup := some (k, v), it := some rest },
      false) := by
  unfold iter_step
  rw [h]
  show (if k.length < s.pfx.length ∨ k.take s.pfx.length ≠ s.pfx then _ else _) = _
  rw [if_neg hp, hks]

theorem iter_step_false_halted {s : Iter} (h : (iter_step s).2 = false) :
    Halted (iter_step s).1 := by
  rcases hit : s.it with _ | stream
  · rw [iter_step_none hit]
    exact Or.inr rfl
  · cases stream with
    | nil => rw [iter_step_nil hit]; exact Or.inl rfl
    | cons kv rest =>
      obtain ⟨k, v⟩ := kv
      by_cases hp : k.length < s.pfx.length ∨ k.take s.pfx.length ≠ s.pfx
      · rw [iter_step_mismatch hit hp]
        exact Or.inr rfl
      · rcases hkl : acid_keylist_from_raw (k.drop s.pfx.length) with _ | ks
        · rw [iter_step_nokeys hit hp hkl]
          exact Or.inr rfl
        · rw [iter_step_keys hit hp hkl] at h
          cases h

theorem next_adv_false_halted {s : Iter} (h : (next_adv s).2 = false) :
    Halted (next_adv s).1 := by
  unfold next_adv at h ⊢
  by_cases hs : s.started
  · rw [if_pos hs] at h ⊢
    exact iter_step_false_halted h
  · rw [if_neg hs] at h
    cases h

theorem rangeiter_next_guard {s : Iter} (h : ¬ (s.it.isSome ∧ s.keys.isSome)) :
    rangeiter_next s = (s, none) := by
  unfold rangeiter_next
  rw [if_neg h]

theorem rangeiter_next_max {s : Iter} (hg : s.it.isSome ∧ s.keys.isSome)
    (hm : s.maxr = 0) :
    rangeiter_next s = (iter_clear { s with maxr := s.maxr - 1 }, none) := by
  unfold rangeiter_next
  rw [if_pos hg, if_pos hm]

theorem rangeiter_next_active {s : Iter} (hg : s.it.isSome ∧ s.keys.isSome)
    (hm : ¬ s.maxr = 0) :
    rangeiter_next s =
      (if (next_adv { s with maxr := s.maxr - 1 }).2 then
        match (next_adv { s with maxr := s.maxr - 1 }).1.keys with
        | some (k0 :: _) =>
          if test_bound (next_adv { s with maxr := s.maxr - 1 }).1.stop k0 then
            ((next_adv { s with maxr := s.maxr - 1 }).1, some k0)
          else ({ (next_adv { s with maxr := s.maxr - 1 }).1 with
            it := none, tup := none, keys := none }, none)
        | _ => ((next_adv { s with maxr := s.maxr - 1 }).1, none)
      else ((next_adv { s with maxr := s.maxr - 1 }).1, none)) := by
  unfold rangeiter_next
  rw [if_pos hg, if_neg hm]

theorem next_adv_true_keys {s : Iter}
    (hrec : ∀ st r, s.it = some st → r ∈ st → r.1 ≠ s.pfx)
    (h : (next_adv s).2 = true) :
    (next_adv s).1.keys = s.keys ∨
      ∃ ks, (next_adv s).1.keys = some ks ∧ ks ≠ [] := by
  unfold next_adv at h ⊢
  by_cases hs : s.started
  · rw [if_pos hs] at h ⊢
    rcases hit : s.it with _ | stream
    · rw [iter_step_none hit] at h
      cases h
    · cases stream with
      | nil => rw [iter_step_nil hit] at h; cases h
      | cons kv rest =>
        obtain ⟨k, v⟩ := kv
        by_cases hp : k.length < s.pfx.length ∨ k.take s.pfx.length ≠ s.pfx
        · rw [iter_step_mismatch hit hp] at h
          cases h
        · rcases hkl : acid_keylist_from_raw (k.drop s.pfx.length) with _ | ks
          · rw [iter_step_nokeys hit hp hkl] at h
            cases h
          · rw [iter_step_keys hit hp hkl]
            refine Or.inr ⟨ks, rfl, ?_⟩
            push_neg at hp
            have hkp : k ≠ s.pfx := hrec ((k, v) :: rest) (k, v) hit (by simp)
            have hdrop : k.drop s.pfx.length ≠ [] := by
              intro hnil
              have hlen : k.length ≤ s.pfx.length := by
                have := List.drop_eq_nil_iff.mp hnil
                exact this
              have hlen2 : k.length = s.pfx.length := by omega
              have : k.take s.pfx.length = k := by
                rw [← hlen2, List.take_length]
              exact hkp (by rw [← this, hp.2])
            obtain ⟨b, bs, hbs⟩ : ∃ b bs, k.drop s.pfx.length = b :: bs := by
              cases hc : k.drop s.pfx.length with
              | nil => exact absurd hc hdrop
              | cons b bs => exact ⟨b, bs, rfl⟩
            rw [hbs] at hkl
            exact keylist_fuel_ne_nil hkl
  · rw [if_neg hs]
    exact Or.inl rfl

/-- C10: a halted iterator (no engine stream or no keys) yields nothing and
stays in exactly the same state, so every later next() also yields nothing;
with no current record held, all three accessors return None; and every
halting cause inside next() — exhaustion, prefix mismatch, failed stop bound,
or the consumed record cap — leaves the iterator halted, provided the current
keys list is not empty and no physical record equals the bare prefix. -/
theorem C10_halted_stays_halted :
    (∀ st : Iter, Halted st → rangeiter_next st = (st, none)) ∧
    (∀ st : Iter, st.tup = none → st.keys = none →
      iter_get_key st = none ∧ iter_get_keys st = none ∧ iter_get_data st = none) ∧
    (∀ st : Iter, st.keys ≠ some [] →
      (∀ s r, st.it = some s → r ∈ s → r.1 ≠ st.pfx) →
      (rangeiter_next st).2 = none → Halted (rangeiter_next st).1) := by
  refine ⟨?_, ?_, ?_⟩
  · intro st h
    have hg : ¬ (st.it.isSome ∧ st.keys.isSome) := by
      rcases h with h | h <;> simp [h]
    exact rangeiter_next_guard hg
  · intro st h1 h2
    refine ⟨?_, ?_, ?_⟩
    · unfold iter_get_key
      rw [h2]
    · exact h2
    · unfold iter_get_data
      rw [h1]
      rfl
  · intro st hk hrec hnone
    by_cases hg : st.it.isSome ∧ st.keys.isSome
    · by_cases hm : st.maxr = 0
      · rw [rangeiter_next_max hg hm]
        exact Or.inl rfl
      · rw [rangeiter_next_active hg hm] at hnone ⊢
        by_cases hok : (next_adv { st with maxr := st.maxr - 1 }).2 = true
        · rw [if_pos hok] at hnone ⊢
          have hkeys := next_adv_true_keys
            (s := { st with maxr := st.maxr - 1 }) hrec hok
          have hkk : ∃ k0 kr,
              (next_adv { st with maxr := st.maxr - 1 }).1.keys =
                some (k0 :: kr) := by
            rcases hkeys with hsame | ⟨ks, hks, hksne⟩
            · obtain ⟨ks0, hg2⟩ := Option.isSome_iff_exists.mp hg.2
              cases ks0 with
              | nil => exact absurd hg2 hk
              | cons k0 kr =>
                refine ⟨k0, kr, ?_⟩
                rw [hsame]
                exact hg2
            · cases ks with
              | nil => exact absurd rfl hksne
              | cons k0 kr => exact ⟨k0, kr, hks⟩
          obtain ⟨k0, kr, hks2⟩ := hkk
          rw [hks2] at hnone ⊢
          dsimp only at hnone ⊢
          by_cases ht : test_bound
              (next_adv { st with maxr := st.maxr - 1 }).1.stop k0 = true
          · rw [if_pos ht] at hnone
            exact absurd hnone (Option.some_ne_none k0)
          · rw [if_neg ht] at hnone ⊢
            exact Or.inl rfl
        · rw [if_neg hok] at hnone ⊢
          have hf : (next_adv { st with maxr := st.maxr - 1 }).2 = false := by
            rcases h2 : (next_adv { st with maxr := st.maxr - 1 }).2 with _ | _
            · rfl
            · exact absurd h2 hok
          exact next_adv_false_halted hf
    · rw [rangeiter_next_guard hg]
      unfold Halted
      by_cases h1 : st.it = none
      · exact Or.inl h1
      · right
        by_contra h2
        exact hg ⟨Option.isSome_iff_ne_none.mpr h1, Option.isSome_iff_ne_none.mpr h2⟩

theorem C10_halted_stays_halted_witness :
    rangeiter_next haltedIter0 = (haltedIter0, none) ∧
    iter_get_key haltedIter0 = none ∧
    Halted (rangeiter_next cappedIter0).1 := by
  refine ⟨?_, ?_, ?_⟩
  · exact C10_halted_stays_halted.1 haltedIter0 (Or.inl rfl)
  · exact (C10_halted_stays_halted.2.1 haltedIter0 rfl rfl).1
  · refine C10_halted_stays_halted.2.2 cappedIter0 (by decide) ?_ (by decide)
    intro s r hs hr
    have hs2 : s = [([1], [])] := by
      injection hs with h
      exact h.symm
    subst hs2
    have hr2 : r = ([1], []) := by
      simpa using hr
    subst hr2
    decide

/-! ### Direction calls and iterator monotonicity (src/ext/iterators.c) -/

theorem acid_memcmp_trans_lt {a b c : List Nat} (h1 : acid_memcmp a b = .lt)
    (h2 : acid_memcmp b c = .lt) : acid_memcmp a c = .lt := by
  induction a generalizing b c with
  | nil =>
    cases b with
    | nil => cases h1
    | cons b bs =>
      cases c with
      | nil => cases h2
      | cons c cs => rfl
  | cons a as ih =>
    cases b with
    | nil => cases h1
    | cons b bs =>
      cases c with
      | nil => cases h2
      | cons c cs =>
        simp only [acid_memcmp] at h1 h2 ⊢
        rcases hab : compare a b with _ | _ | _ <;> rw [hab] at h1
        · have hab' : a < b := Nat.compare_eq_lt.mp hab
          rcases hbc : compare b c with _ | _ | _ <;> rw [hbc] at h2
          · have hbc' : b < c := Nat.compare_eq_lt.mp hbc
            rw [nat_compare_lt (lt_trans hab' hbc'), Ordering.lt_then]
          · have hbc' : b = c := by
              have := Nat.compare_eq_eq.mp hbc
              omega
            rw [← hbc', nat_compare_lt hab', Ordering.lt_then]
          · rw [Ordering.gt_then] at h2
            cases h2
        · have hab' : a = b := by
            have := Nat.compare_eq_eq.mp hab
            omega
          subst hab'
          rw [Ordering.eq_then] at h1
          rcases hbc : compare a c with _ | _ | _ <;> rw [hbc] at h2
          · rw [Ordering.lt_then]
          · rw [Ordering.eq_then] at h2
            rw [Ordering.eq_then]
            exact ih h1 h2
          · rw [Ordering.gt_then] at h2
            cases h2
        · rw [Ordering.gt_then] at h1
          cases h1

theorem acid_memcmp_trans {d : Ordering} (hd : d = .lt ∨ d = .gt)
    {a b c : List Nat} (h1 : acid_memcmp a b = d) (h2 : acid_memcmp b c = d) :
    acid_memcmp a c = d := by
  rcases hd with hd | hd <;> subst hd
  · exact acid_memcmp_trans_lt h1 h2
  · have h1' : acid_memcmp b a = .lt := by
      rw [acid_memcmp_swap a b, h1]
      rfl
    have h2' : acid_memcmp c b = .lt := by
      rw [acid_memcmp_swap b c, h2]
      rfl
    have h3 := acid_memcmp_trans_lt h2' h1'
    rw [acid_memcmp_swap c a, h3]
    rfl

/-- Stripping a shared leading prefix does not change the comparison. -/
theorem acid_memcmp_drop_pfx {pfx a b : List Nat}
    (ha : a.take pfx.length = pfx) (hb : b.take pfx.length = pfx) :
    acid_memcmp (a.drop pfx.length) (b.drop pfx.length) = acid_memcmp a b := by
  conv_rhs =>
    rw [← List.take_append_drop pfx.length a, ← List.take_append_drop pfx.length b]
  rw [ha, hb, acid_memcmp_append_cancel]

theorem acid_memcmp_le_lt_trans {a b c : List Nat}
    (h1 : acid_memcmp a b ≠ .gt) (h2 : acid_memcmp b c = .lt) :
    acid_memcmp a c = .lt := by
  rcases hab : acid_memcmp a b with _ | _ | _
  · exact acid_memcmp_trans_lt hab h2
  · rw [acid_memcmp_eq_iff.mp hab]
    exact h2
  · exact absurd hab h1

theorem acid_memcmp_ge_gt_trans {a b c : List Nat}
    (h1 : acid_memcmp a b ≠ .lt) (h2 : acid_memcmp b c = .gt) :
    acid_memcmp a c = .gt := by
  rcases hab : acid_memcmp a b with _ | _ | _
  · exact absurd hab h1
  · rw [acid_memcmp_eq_iff.mp hab]
    exact h2
  · exact acid_memcmp_trans (Or.inr rfl) hab h2

/-- rangeiter_forward (src/ext/iterators.c lines 457-486), applied to the
stream produced by Engine.iter for the computed start key (prefix plus the
raw lo key, or the bare prefix): fetch one record, skip it when it fails the
lo bound (the open-bound case), then arm the iterator: started is cleared and
the stop fence becomes hi. -/
def rangeiter_forward (s : Iter) (stream : List (List Nat × List Nat)) : Iter :=
  let p := iter_step { s with it := some stream }
  let s2 :=
    if p.2 then
      match p.1.keys with
      | some (k0 :: _) => if test_bound p.1.lo k0 then p.1 else (iter_step p.1).1
      | _ => p.1
    else p.1
  { s2 with started := false, stop := s.hi }

/-- The skip loop of rangeiter_reverse (src/ext/iterators.c lines 515-524):
step while a record is held whose first key fails the hi bound; the fuel
bounds the stream length. -/
def rev_skip : Nat → Iter → Iter
  | 0, s => s
  | f + 1, s =>
    if s.it = none then s
    else
      match s.keys with
      | some (k0 :: _) =>
        if test_bound s.hi k0 then s else rev_skip f (iter_step s).1
      | _ => rev_skip f (iter_step s).1

/-- rangeiter_reverse (src/ext/iterators.c lines 491-530), applied to the
stream produced by Engine.iter in reverse for the computed start key (prefix
plus the raw hi key, or the spec-modelled next-greater of the prefix): fetch
one record, bail out if the stream was exhausted immediately, run the skip
loop, then arm: started cleared and the stop fence becomes lo. -/
def rangeiter_reverse (s : Iter) (stream : List (List Nat × List Nat)) : Iter :=
  let p := iter_step { s with it := some stream }
  if p.2 = false ∧ p.1.it = none then p.1
  else
    let s2 := rev_skip (stream.length + 1) p.1
    { s2 with started := false, stop := s.lo }

/-- The lo bound as the forward direction arms it (set_lo, src/ext/iterators.c
lines 163-180, and from_args: closed gives PRED_LE, open PRED_LT), so passing
it is upward closed. -/
def LoPredOk : Option Bnd → Prop
  | none => True
  | some B => B.pred = Pred.le ∨ B.pred = Pred.lt

instance LoPredOk.dec (b : Option Bnd) : Decidable (LoPredOk b) := by
  unfold LoPredOk
  cases b <;> infer_instance

/-- The hi bound as set_hi arms it (src/ext/iterators.c lines 185-202: closed
gives PRED_GE, open PRED_GT), so passing it is downward closed. -/
def HiPredOk : Option Bnd → Prop
  | none => True
  | some B => B.pred = Pred.ge ∨ B.pred = Pred.gt

instance HiPredOk.dec (b : Option Bnd) : Decidable (HiPredOk b) := by
  unfold HiPredOk
  cases b <;> infer_instance

/-- The engine contract for a forward stream started at the lo key: every
record's logical key is at or above the bound key. -/
def AnchorLo (lo : Option Bnd) (pfx : List Nat)
    (stream : List (List Nat × List Nat)) : Prop :=
  match lo with
  | none => True
  | some B => ∀ r ∈ stream, acid_memcmp B.key (r.1.drop pfx.length) ≠ .gt

instance AnchorLo.dec (lo : Option Bnd) (pfx : List Nat)
    (stream : List (List Nat × List Nat)) : Decidable (AnchorLo lo pfx stream) := by
  unfold AnchorLo
  cases lo <;> infer_instance

theorem test_bound_mono_lt {B : Bnd} (hp : B.pred = Pred.le ∨ B.pred = Pred.lt)
    {k k2 : List Nat} (h : test_bound (some B) k = true)
    (hlt : acid_memcmp k k2 = .lt) : test_bound (some B) k2 = true := by
  unfold test_bound at h ⊢
  dsimp only at h ⊢
  rcases hp with hp | hp <;> rw [hp] at h ⊢ <;> dsimp only at h ⊢
  · have hne : acid_memcmp B.key k ≠ .gt := by
      intro hgt
      rw [hgt] at h
      cases h
    have := acid_memcmp_le_lt_trans hne hlt
    rw [this]
    rfl
  · have heq : acid_memcmp B.key k = .lt := by
      rcases hx : acid_memcmp B.key k with _ | _ | _ <;> rw [hx] at h
      · cases h
      · cases h
    rw [acid_memcmp_trans_lt heq hlt]
    rfl

theorem test_bound_mono_gt {B : Bnd} (hp : B.pred = Pred.ge ∨ B.pred = Pred.gt)
    {k k2 : List Nat} (h : test_bound (some B) k = true)
    (hgt : acid_memcmp k k2 = .gt) : test_bound (some B) k2 = true := by
  unfold test_bound at h ⊢
  dsimp only at h ⊢
  rcases hp with hp | hp <;> rw [hp] at h ⊢ <;> dsimp only at h ⊢
  · have hne : acid_memcmp B.key k ≠ .lt := by
      intro hlt
      rw [hlt] at h
      cases h
    have := acid_memcmp_ge_gt_trans hne hgt
    rw [this]
    rfl
  · have heq : acid_memcmp B.key k = .gt := by
      rcases hx : acid_memcmp B.key k with _ | _ | _ <;> rw [hx] at h
      · cases h
      · cases h
    rw [acid_memcmp_trans (Or.inr rfl) heq hgt]
    rfl

/-- A conforming engine stream for direction d (.lt forward, .gt reverse):
physical keys strictly ordered in direction d, every record prefixed by the
collection prefix with a nonempty remainder that splits into exactly one
logical key. -/
def StreamOk (d : Ordering) (pfx : List Nat)
    (stream : List (List Nat × List Nat)) : Prop :=
  stream.Pairwise (fun a b => acid_memcmp a.1 b.1 = d) ∧
  ∀ r ∈ stream, r.1.take pfx.length = pfx ∧ pfx.length < r.1.length ∧
    acid_keylist_from_raw (r.1.drop pfx.length) = some [r.1.drop pfx.length]

instance StreamOk.dec (d : Ordering) (pfx : List Nat)
    (stream : List (List Nat × List Nat)) : Decidable (StreamOk d pfx stream) := by
  unfold StreamOk
  infer_instance

/-- The running invariant of an armed iterator: a conforming remaining
stream, a held record with exactly one logical key, and every upcoming
logical key beyond the current one in direction d. -/
def RunInv (d : Ordering) (st : Iter) : Prop :=
  ∃ stream k0, st.it = some stream ∧ StreamOk d st.pfx stream ∧
    st.keys = some [k0] ∧
    ∀ r ∈ stream, acid_memcmp k0 (r.1.drop st.pfx.length) = d

theorem next_adv_unstarted {s : Iter} (h : s.started = false) :
    next_adv s = ({ s with started := true }, true) := by
  unfold next_adv
  simp [h]

theorem next_adv_started {s : Iter} (h : s.started = true) :
    next_adv s = iter_step s := by
  unfold next_adv
  simp [h]

theorem runIter_succ {n : Nat} {st : Iter} :
    runIter (n + 1) st =
      match rangeiter_next st with
      | (st2, some k) => k :: runIter n st2
      | (_, none) => [] := rfl

theorem runIter_halted {n : Nat} {st : Iter} (h : Halted st) :
    runIter n st = [] := by
  cases n with
  | zero => rfl
  | succ n =>
    have hg : ¬ (st.it.isSome ∧ st.keys.isSome) := by
      rcases h with h | h <;> simp [h]
    rw [runIter_succ, rangeiter_next_guard hg]

theorem rangeiter_next_first {st : Iter} {k0 : List Nat} {ks : List (List Nat)}
    (hg : st.it.isSome ∧ st.keys.isSome) (hm : ¬ st.maxr = 0)
    (hs : st.started = false) (hk : st.keys = some (k0 :: ks)) :
    rangeiter_next st =
      if test_bound st.stop k0 then
        ({ st with maxr := st.maxr - 1, started := true }, some k0)
      else
        ({ st with maxr := st.maxr - 1, started := true, it := none, tup := none, keys := none }, none) := by
  rw [rangeiter_next_active hg hm,
    next_adv_unstarted (show ({ st with maxr := st.maxr - 1 } : Iter).started = false from hs)]
  dsimp only
  rw [hk]
  dsimp only
  by_cases ht : test_bound st.stop k0 = true
  · rw [if_pos ht]
    rfl
  · rw [if_neg ht]
    rfl

theorem rangeiter_next_step {st : Iter} {rk rv : List Nat}
    {rest : List (List Nat × List Nat)} {k1 : List Nat} {kr : List (List Nat)}
    (hg : st.it.isSome ∧ st.keys.isSome) (hm : ¬ st.maxr = 0)
    (hs : st.started = true) (hit : st.it = some ((rk, rv) :: rest))
    (hp : ¬ (rk.length < st.pfx.length ∨ rk.take st.pfx.length ≠ st.pfx))
    (hkl : acid_keylist_from_raw (rk.drop st.pfx.length) = some (k1 :: kr)) :
    rangeiter_next st =
      if test_bound st.stop k1 then
        ({ st with maxr := st.maxr - 1, it := some rest, tup := some (rk, rv), keys := some (k1 :: kr) }, some k1)
      else
        ({ st with maxr := st.maxr - 1, it := none, tup := none, keys := none },
          none) := by
  have hstep : next_adv { st with maxr := st.maxr - 1 } =
      ({ st with maxr := st.maxr - 1, keys := some (k1 :: kr), tup := some (rk, rv), it := some rest }, true) := by
    rw [next_adv_started (show ({ st with maxr := st.maxr - 1 } : Iter).started = true from hs),
      iter_step_keys (s := { st with maxr := st.maxr - 1 }) hit hp hkl]
  rw [rangeiter_next_active hg hm, hstep]
  dsimp only
  by_cases ht : test_bound st.stop k1 = true
  · rw [if_pos ht]
    rfl
  · rw [if_neg ht]
    rfl

theorem rangeiter_next_adv_false {st : Iter}
    (hg : st.it.isSome ∧ st.keys.isSome) (hm : ¬ st.maxr = 0)
    (hf : (next_adv { st with maxr := st.maxr - 1 }).2 = false) :
    rangeiter_next st = ((next_adv { st with maxr := st.maxr - 1 }).1, none) := by
  rw [rangeiter_next_active hg hm, if_neg (by rw [hf]; simp)]

theorem runIter_inv (d : Ordering) (hd : d = .lt ∨ d = .gt) :
    ∀ (n : Nat) (st : Iter) (k0 : List Nat), RunInv d st → st.keys = some [k0] →
      (runIter n st).Pairwise (fun a b => acid_memcmp a b = d) ∧
      (∀ k ∈ runIter n st, test_bound st.stop k = true) ∧
      (∀ k ∈ runIter n st, acid_memcmp k0 k = d ∨ k = k0) ∧
      (st.started = true → ∀ k ∈ runIter n st, acid_memcmp k0 k = d) := by
  intro n
  induction n with
  | zero =>
    intro st k0 _ _
    exact ⟨List.Pairwise.nil, by simp [runIter], by simp [runIter],
      fun _ => by simp [runIter]⟩
  | succ n ih =>
    intro st k0 hinv hk
    obtain ⟨stream, k0', hit, hsok, hk', hdom⟩ := hinv
    have hkk : k0 = k0' := by
      have h := hk'.symm.trans hk
      simp at h
      exact h.symm
    subst hkk
    have hg : st.it.isSome ∧ st.keys.isSome :=
      ⟨by rw [hit]; rfl, by rw [hk]; rfl⟩
    by_cases hm : st.maxr = 0
    · rw [runIter_succ, rangeiter_next_max hg hm]
      exact ⟨List.Pairwise.nil, by simp, by simp, fun _ => by simp⟩
    · by_cases hs : st.started = true
      · cases stream with
        | nil =>
          have hf : (next_adv { st with maxr := st.maxr - 1 }).2 = false := by
            rw [next_adv_started (s := { st with maxr := st.maxr - 1 }) hs,
              iter_step_nil (s := { st with maxr := st.maxr - 1 }) hit]
          rw [runIter_succ, rangeiter_next_adv_false hg hm hf]
          exact ⟨List.Pairwise.nil, by simp, by simp, fun _ => by simp⟩
        | cons r rest =>
          obtain ⟨rk, rv⟩ := r
          obtain ⟨htake, hlen, hkl⟩ := hsok.2 (rk, rv) (List.mem_cons_self _ _)
          have hp : ¬ (rk.length < st.pfx.length ∨ rk.take st.pfx.length ≠ st.pfx) := by
            push_neg
            exact ⟨Nat.le_of_lt hlen, htake⟩
          rw [runIter_succ, rangeiter_next_step hg hm hs hit hp hkl]
          by_cases ht : test_bound st.stop (rk.drop st.pfx.length) = true
          · rw [if_pos ht]
            dsimp only
            have hinv2 : RunInv d { st with maxr := st.maxr - 1, it := some rest, tup := some (rk, rv), keys := some [rk.drop st.pfx.length] } := by
              refine ⟨rest, rk.drop st.pfx.length, rfl, ⟨(List.pairwise_cons.mp hsok.1).2, fun r' hr' => hsok.2 r' (List.mem_cons_of_mem _ hr')⟩, rfl, ?_⟩
              intro r' hr'
              have hphys := (List.pairwise_cons.mp hsok.1).1 r' hr'
              have hb := (hsok.2 r' (List.mem_cons_of_mem _ hr')).1
              rw [acid_memcmp_drop_pfx htake hb]
              exact hphys
            obtain ⟨hpw, hstop, _, hstrict⟩ :=
              ih { st with maxr := st.maxr - 1, it := some rest, tup := some (rk, rv), keys := some [rk.drop st.pfx.length] }
                (rk.drop st.pfx.length) hinv2 rfl
            have hstrict' := hstrict hs
            have hhead : acid_memcmp k0 (rk.drop st.pfx.length) = d :=
              hdom (rk, rv) (List.mem_cons_self _ _)
            refine ⟨List.pairwise_cons.mpr ⟨fun k hkm => hstrict' k hkm, hpw⟩,
              ?_, ?_, ?_⟩
            · intro k hkm
              rcases List.mem_cons.mp hkm with hkm | hkm
              · rw [hkm]
                exact ht
              · exact hstop k hkm
            · intro k hkm
              rcases List.mem_cons.mp hkm with hkm | hkm
              · rw [hkm]
                exact Or.inl hhead
              · exact Or.inl (acid_memcmp_trans hd hhead (hstrict' k hkm))
            · intro _ k hkm
              rcases List.mem_cons.mp hkm with hkm | hkm
              · rw [hkm]
                exact hhead
              · exact acid_memcmp_trans hd hhead (hstrict' k hkm)
          · rw [if_neg ht]
            exact ⟨List.Pairwise.nil, by simp, by simp, fun _ => by simp⟩
      · have hs' : st.started = false := by
          cases hb : st.started
          · rfl
          · exact absurd hb hs
        rw [runIter_succ, rangeiter_next_first hg hm hs' hk]
        by_cases ht : test_bound st.stop k0 = true
        · rw [if_pos ht]
          dsimp only
          have hinv2 : RunInv d { st with maxr := st.maxr - 1, started := true } :=
            ⟨stream, k0, hit, hsok, hk, hdom⟩
          obtain ⟨hpw, hstop, _, hstrict⟩ :=
            ih { st with maxr := st.maxr - 1, started := true } k0 hinv2 hk
          have hstrict' := hstrict rfl
          refine ⟨List.pairwise_cons.mpr ⟨fun k hkm => hstrict' k hkm, hpw⟩,
            ?_, ?_, ?_⟩
          · intro k hkm
            rcases List.mem_cons.mp hkm with hkm | hkm
            · rw [hkm]
              exact ht
            · exact hstop k hkm
          · intro k hkm
            rcases List.mem_cons.mp hkm with hkm | hkm
            · rw [hkm]
              exact Or.inr rfl
            · exact Or.inl (hstrict' k hkm)
          · intro hstt
            exact absurd hstt hs
        · rw [if_neg ht]
          exact ⟨List.Pairwise.nil, by simp, by simp, fun _ => by simp⟩

theorem rangeiter_forward_inv {s : Iter} {stream : List (List Nat × List Nat)}
    (hsok : StreamOk .lt s.pfx stream) (hanch : AnchorLo s.lo s.pfx stream)
    (hpred : LoPredOk s.lo) :
    Halted (rangeiter_forward s stream) ∨
      (RunInv .lt (rangeiter_forward s stream) ∧
       ∃ k0, (rangeiter_forward s stream).keys = some [k0] ∧
         test_bound s.lo k0 = true) := by
  unfold rangeiter_forward
  cases stream with
  | nil =>
    rw [iter_step_nil (s := { s with it := some [] }) rfl]
    exact Or.inl (Or.inl rfl)
  | cons r rest =>
    obtain ⟨rk, rv⟩ := r
    obtain ⟨htake, hlen, hkl⟩ := hsok.2 (rk, rv) (List.mem_cons_self _ _)
    have htake' : rk.take s.pfx.length = s.pfx := htake
    have hp : ¬ (rk.length < s.pfx.length ∨ rk.take s.pfx.length ≠ s.pfx) := by
      push_neg
      exact ⟨Nat.le_of_lt hlen, htake⟩
    rw [iter_step_keys (s := { s with it := some ((rk, rv) :: rest) }) rfl hp hkl]
    dsimp only
    by_cases hlo : test_bound s.lo (rk.drop s.pfx.length) = true
    · rw [if_pos hlo]
      right
      refine ⟨⟨rest, rk.drop s.pfx.length, rfl,
        ⟨(List.pairwise_cons.mp hsok.1).2,
          fun r' hr' => hsok.2 r' (List.mem_cons_of_mem _ hr')⟩, rfl, ?_⟩,
        ⟨rk.drop s.pfx.length, rfl, hlo⟩⟩
      intro r' hr'
      have hphys : acid_memcmp rk r'.1 = Ordering.lt :=
        (List.pairwise_cons.mp hsok.1).1 r' hr'
      have hb : r'.1.take s.pfx.length = s.pfx :=
        (hsok.2 r' (List.mem_cons_of_mem _ hr')).1
      show acid_memcmp (rk.drop s.pfx.length) (r'.1.drop s.pfx.length) = Ordering.lt
      rw [acid_memcmp_drop_pfx htake' hb]
      exact hphys
    · rw [if_neg hlo]
      cases rest with
      | nil =>
        rw [iter_step_nil (s := { pfx := s.pfx, lo := s.lo, hi := s.hi, stop := s.stop, maxr := s.maxr, it := some [], tup := some (rk, rv), keys := some [rk.drop s.pfx.length], started := s.started }) rfl]
        exact Or.inl (Or.inl rfl)
      | cons r2 rest2 =>
        obtain ⟨r2k, r2v⟩ := r2
        have hmem2 : (r2k, r2v) ∈ (rk, rv) :: (r2k, r2v) :: rest2 :=
          List.mem_cons_of_mem _ (List.mem_cons_self _ _)
        obtain ⟨htake2, hlen2, hkl2⟩ := hsok.2 (r2k, r2v) hmem2
        have htake2' : r2k.take s.pfx.length = s.pfx := htake2
        have hp2 : ¬ (r2k.length < s.pfx.length ∨ r2k.take s.pfx.length ≠ s.pfx) := by
          push_neg
          exact ⟨Nat.le_of_lt hlen2, htake2⟩
        rw [iter_step_keys (s := { pfx := s.pfx, lo := s.lo, hi := s.hi, stop := s.stop, maxr := s.maxr, it := some ((r2k, r2v) :: rest2), tup := some (rk, rv), keys := some [rk.drop s.pfx.length], started := s.started }) rfl hp2 hkl2]
        right
        have htail := (List.pairwise_cons.mp hsok.1).2
        have h12 : acid_memcmp (rk.drop s.pfx.length) (r2k.drop s.pfx.length) =
            .lt := by
          have hphys12 : acid_memcmp rk r2k = Ordering.lt :=
            (List.pairwise_cons.mp hsok.1).1 (r2k, r2v) (List.mem_cons_self _ _)
          rw [acid_memcmp_drop_pfx htake' htake2']
          exact hphys12
        refine ⟨⟨rest2, r2k.drop s.pfx.length, rfl,
          ⟨(List.pairwise_cons.mp htail).2,
            fun r' hr' => hsok.2 r' (List.mem_cons_of_mem _ (List.mem_cons_of_mem _ hr'))⟩,
          rfl, ?_⟩, ⟨r2k.drop s.pfx.length, rfl, ?_⟩⟩
        · intro r' hr'
          have hphys : acid_memcmp r2k r'.1 = Ordering.lt :=
            (List.pairwise_cons.mp htail).1 r' hr'
          have hb : r'.1.take s.pfx.length = s.pfx :=
            (hsok.2 r' (List.mem_cons_of_mem _ (List.mem_cons_of_mem _ hr'))).1
          show acid_memcmp (r2k.drop s.pfx.length) (r'.1.drop s.pfx.length) = Ordering.lt
          rw [acid_memcmp_drop_pfx htake2' hb]
          exact hphys
        · rcases hB : s.lo with _ | B
          · rw [hB] at hlo
            exact absurd rfl hlo
          · have hanch' : ∀ r ∈ (rk, rv) :: (r2k, r2v) :: rest2,
                acid_memcmp B.key (r.1.drop s.pfx.length) ≠ .gt := by
              rw [hB] at hanch
              exact hanch
            have hpred' : B.pred = Pred.le ∨ B.pred = Pred.lt := by
              rw [hB] at hpred
              exact hpred
            have hanch2 : acid_memcmp B.key (r2k.drop s.pfx.length) ≠ .gt :=
              hanch' (r2k, r2v) hmem2
            rcases hpred' with hle | hlt2
            · unfold test_bound
              dsimp only
              rw [hle]
              dsimp only
              rcases hx : acid_memcmp B.key (r2k.drop s.pfx.length) with _ | _ | _
              · rfl
              · rfl
              · exact absurd hx hanch2
            · have hanch1 : acid_memcmp B.key (rk.drop s.pfx.length) ≠ .gt :=
                hanch' (rk, rv) (List.mem_cons_self _ _)
              have hfail : ¬ acid_memcmp B.key (rk.drop s.pfx.length) = .lt := by
                intro hx
                apply hlo
                rw [hB]
                unfold test_bound
                dsimp only
                rw [hlt2]
                dsimp only
                rw [hx]
                rfl
              have hkey : B.key = rk.drop s.pfx.length := by
                rcases hx : acid_memcmp B.key (rk.drop s.pfx.length) with _ | _ | _
                · exact absurd hx hfail
                · exact acid_memcmp_eq_iff.mp hx
                · exact absurd hx hanch1
              unfold test_bound
              dsimp only
              rw [hlt2]
              dsimp only
              rw [hkey, h12]
              rfl

theorem rev_skip_it_none {f : Nat} {s : Iter} (h : s.it = none) :
    rev_skip f s = s := by
  cases f with
  | zero => rfl
  | succ f2 =>
    rw [rev_skip, if_pos h]

theorem rev_skip_ok : ∀ (f : Nat) (s : Iter) (stream : List (List Nat × List Nat)),
    s.it = some stream → StreamOk .gt s.pfx stream → stream.length < f →
    (s.keys = none ∨ ∃ k0, s.keys = some [k0] ∧
      ∀ r ∈ stream, acid_memcmp k0 (r.1.drop s.pfx.length) = .gt) →
    Halted (rev_skip f s) ∨
      (RunInv .gt (rev_skip f s) ∧
       ∃ k0, (rev_skip f s).keys = some [k0] ∧ test_bound s.hi k0 = true) := by
  intro f
  induction f with
  | zero =>
    intro s stream _ _ hf _
    omega
  | succ f ih =>
    intro s stream hit hsok hf hkeys
    rw [rev_skip, if_neg (by rw [hit]; simp)]
    have hrec : Halted (rev_skip f (iter_step s).1) ∨
        (RunInv .gt (rev_skip f (iter_step s).1) ∧
         ∃ k0, (rev_skip f (iter_step s).1).keys = some [k0] ∧
           test_bound s.hi k0 = true) := by
      cases stream with
      | nil =>
        rw [iter_step_nil hit]
        dsimp only
        rw [rev_skip_it_none
          (s := { s with keys := none, tup := none, it := none }) rfl]
        exact Or.inl (Or.inl rfl)
      | cons r rest =>
        obtain ⟨rk, rv⟩ := r
        obtain ⟨htake, hlen, hkl⟩ := hsok.2 (rk, rv) (List.mem_cons_self _ _)
        have htake' : rk.take s.pfx.length = s.pfx := htake
        have hp : ¬ (rk.length < s.pfx.length ∨ rk.take s.pfx.length ≠ s.pfx) := by
          push_neg
          exact ⟨Nat.le_of_lt hlen, htake⟩
        rw [iter_step_keys hit hp hkl]
        dsimp only
        refine ih { s with keys := some [rk.drop s.pfx.length], tup := some (rk, rv), it := some rest } rest rfl
          ⟨(List.pairwise_cons.mp hsok.1).2,
            fun r' hr' => hsok.2 r' (List.mem_cons_of_mem _ hr')⟩
          (by simp only [List.length_cons] at hf; omega)
          (Or.inr ⟨rk.drop s.pfx.length, rfl, ?_⟩)
        intro r' hr'
        have hphys : acid_memcmp rk r'.1 = Ordering.gt :=
          (List.pairwise_cons.mp hsok.1).1 r' hr'
        have hb : r'.1.take s.pfx.length = s.pfx :=
          (hsok.2 r' (List.mem_cons_of_mem _ hr')).1
        show acid_memcmp (rk.drop s.pfx.length) (r'.1.drop s.pfx.length) =
          Ordering.gt
        rw [acid_memcmp_drop_pfx htake' hb]
        exact hphys
    rcases hkeys with hnone | ⟨k0, hk0, hdom⟩
    · rw [hnone]
      dsimp only
      exact hrec
    · rw [hk0]
      dsimp only
      by_cases ht : test_bound s.hi k0 = true
      · rw [if_pos ht]
        right
        exact ⟨⟨stream, k0, hit, hsok, hk0, hdom⟩, ⟨k0, hk0, ht⟩⟩
      · rw [if_neg ht]
        exact hrec

theorem rangeiter_reverse_inv {s : Iter} {stream : List (List Nat × List Nat)}
    (hsok : StreamOk .gt s.pfx stream) :
    Halted (rangeiter_reverse s stream) ∨
      (RunInv .gt (rangeiter_reverse s stream) ∧
       (∃ k0, (rangeiter_reverse s stream).keys = some [k0] ∧
         test_bound s.hi k0 = true) ∧
       (rangeiter_reverse s stream).stop = s.lo) := by
  unfold rangeiter_reverse
  cases stream with
  | nil =>
    rw [iter_step_nil (s := { s with it := some [] }) rfl]
    dsimp only
    rw [if_pos (by exact ⟨rfl, rfl⟩)]
    exact Or.inl (Or.inl rfl)
  | cons r rest =>
    obtain ⟨rk, rv⟩ := r
    obtain ⟨htake, hlen, hkl⟩ := hsok.2 (rk, rv) (List.mem_cons_self _ _)
    have htake' : rk.take s.pfx.length = s.pfx := htake
    have hp : ¬ (rk.length < s.pfx.length ∨ rk.take s.pfx.length ≠ s.pfx) := by
      push_neg
      exact ⟨Nat.le_of_lt hlen, htake⟩
    rw [iter_step_keys (s := { s with it := some ((rk, rv) :: rest) }) rfl hp hkl]
    dsimp only
    rw [if_neg (by intro hcon; exact Bool.noConfusion hcon.1)]
    have hres := rev_skip_ok (((rk, rv) :: rest).length + 1)
      { pfx := s.pfx, lo := s.lo, hi := s.hi, stop := s.stop, maxr := s.maxr, it := some rest, tup := some (rk, rv), keys := some [rk.drop s.pfx.length], started := s.started }
      rest rfl
      ⟨(List.pairwise_cons.mp hsok.1).2,
        fun r' hr' => hsok.2 r' (List.mem_cons_of_mem _ hr')⟩
      (by simp only [List.length_cons]; omega)
      (Or.inr ⟨rk.drop s.pfx.length, rfl, by
        intro r' hr'
        have hphys : acid_memcmp rk r'.1 = Ordering.gt :=
          (List.pairwise_cons.mp hsok.1).1 r' hr'
        have hb : r'.1.take s.pfx.length = s.pfx :=
          (hsok.2 r' (List.mem_cons_of_mem _ hr')).1
        show acid_memcmp (rk.drop s.pfx.length) (r'.1.drop s.pfx.length) =
          Ordering.gt
        rw [acid_memcmp_drop_pfx htake' hb]
        exact hphys⟩)
    rcases hres with hh | ⟨hinv, k0, hk0, ht⟩
    · left
      rcases hh with h | h
      · exact Or.inl h
      · exact Or.inr h
    · right
      exact ⟨hinv, ⟨k0, hk0, ht⟩, rfl⟩

/-- A base iterator over collection prefix 0x50 with no bounds and no cap. -/
def fwdBase0 : Iter := ⟨[0x50], none, none, none, -1, none, none, none, false⟩

/-- A conforming single-logical-key engine stream for fwdBase0: physical keys
strictly increasing, each carrying the prefix and exactly one logical key. -/
def fwdStream0 : List (List Nat × List Nat) :=
  [([0x50, 0x15, 0x05], []), ([0x50, 0x15, 0x06], [])]

/-- A sorted, prefixed engine stream whose two records are key batches
sharing their first logical key. -/
def fwdStream1 : List (List Nat × List Nat) :=
  [([0x50, 0x15, 0x05, 0x66, 0x15, 0x06], []),
   ([0x50, 0x15, 0x05, 0x66, 0x15, 0x07], [])]

/-- An armed reverse-mode iterator: current logical key (6,), one upcoming
record whose logical key (5,) lies below it. -/
def revIter0 : Iter :=
  ⟨[0x50], none, none, none, -1, some [([0x50, 0x15, 0x05], [])], none,
    some [[0x15, 0x06]], true⟩

/-- C6: amended iterator monotonicity. The spec claim fails as stated for
engines whose records batch several Sep-joined logical keys (see the
counterexample); restricted to conforming streams of single-logical-key
records it holds in both directions and with both fences. Forward: started
by rangeiter_forward over a stream with strictly increasing physical keys,
all prefixed, anchored at the lo bound as the engine contract guarantees
(and with lo armed as set_lo arms it), the yielded keys strictly increase
and each passes both the hi stop fence and the lo fence. Reverse: started by
rangeiter_reverse over a strictly decreasing conforming stream (with hi
armed as set_hi arms it), the yielded keys strictly decrease and each passes
both the lo stop fence and the hi fence. -/
theorem C6_iterator_monotonic :
    (∀ (n : Nat) (s : Iter) (stream : List (List Nat × List Nat)),
      StreamOk .lt s.pfx stream → AnchorLo s.lo s.pfx stream → LoPredOk s.lo →
      (runIter n (rangeiter_forward s stream)).Pairwise
        (fun a b => acid_memcmp a b = .lt) ∧
      ∀ k ∈ runIter n (rangeiter_forward s stream),
        test_bound s.hi k = true ∧ test_bound s.lo k = true) ∧
    (∀ (n : Nat) (s : Iter) (stream : List (List Nat × List Nat)),
      StreamOk .gt s.pfx stream → HiPredOk s.hi →
      (runIter n (rangeiter_reverse s stream)).Pairwise
        (fun a b => acid_memcmp a b = .gt) ∧
      ∀ k ∈ runIter n (rangeiter_reverse s stream),
        test_bound s.lo k = true ∧ test_bound s.hi k = true) := by
  constructor
  · intro n s stream hsok hanch hpred
    rcases rangeiter_forward_inv hsok hanch hpred with hh | ⟨hinv, k0, hkeys, hlo0⟩
    · rw [runIter_halted hh]
      exact ⟨List.Pairwise.nil, by simp⟩
    · obtain ⟨st2, k0', hit, hs2, hk, hdom⟩ := hinv
      obtain ⟨hpw, hstop, hdich, _⟩ :=
        runIter_inv .lt (Or.inl rfl) n (rangeiter_forward s stream) k0
          ⟨st2, k0', hit, hs2, hk, hdom⟩ hkeys
      refine ⟨hpw, fun k hkm => ⟨hstop k hkm, ?_⟩⟩
      rcases hdich k hkm with hlt | heq
      · rcases hB : s.lo with _ | B
        · rfl
        · rw [hB] at hlo0 hpred
          exact test_bound_mono_lt hpred hlo0 hlt
      · rw [heq]
        exact hlo0
  · intro n s stream hsok hpredh
    rcases rangeiter_reverse_inv hsok with hh | ⟨hinv, ⟨k0, hkeys, hhi0⟩, hstopeq⟩
    · rw [runIter_halted hh]
      exact ⟨List.Pairwise.nil, by simp⟩
    · obtain ⟨st2, k0', hit, hs2, hk, hdom⟩ := hinv
      obtain ⟨hpw, hstop, hdich, _⟩ :=
        runIter_inv .gt (Or.inr rfl) n (rangeiter_reverse s stream) k0
          ⟨st2, k0', hit, hs2, hk, hdom⟩ hkeys
      rw [hstopeq] at hstop
      refine ⟨hpw, fun k hkm => ⟨hstop k hkm, ?_⟩⟩
      rcases hdich k hkm with hgt | heq
      · rcases hB : s.hi with _ | B
        · rfl
        · rw [hB] at hhi0 hpredh
          exact test_bound_mono_gt hpredh hhi0 hgt
      · rw [heq]
        exact hhi0

/-- A strictly decreasing prefixed single-key stream, as Engine.iter yields
in reverse mode. -/
def revStream0 : List (List Nat × List Nat) :=
  [([0x50, 0x15, 0x06], []), ([0x50, 0x15, 0x05], [])]

theorem C6_iterator_monotonic_witness :
    ((runIter 2 (rangeiter_forward fwdBase0 fwdStream0)).Pairwise
      (fun a b => acid_memcmp a b = .lt) ∧
     ∀ k ∈ runIter 2 (rangeiter_forward fwdBase0 fwdStream0),
       test_bound fwdBase0.hi k = true ∧ test_bound fwdBase0.lo k = true) ∧
    ((runIter 2 (rangeiter_reverse fwdBase0 revStream0)).Pairwise
      (fun a b => acid_memcmp a b = .gt) ∧
     ∀ k ∈ runIter 2 (rangeiter_reverse fwdBase0 revStream0),
       test_bound fwdBase0.lo k = true ∧ test_bound fwdBase0.hi k = true) :=
  ⟨C6_iterator_monotonic.1 2 fwdBase0 fwdStream0 (by decide) (by decide) (by decide),
   C6_iterator_monotonic.2 2 fwdBase0 revStream0 (by decide) (by decide)⟩

/-- C6 counterexample to the claim as stated: an engine stream in the
engine-contract order (physical keys strictly increasing, all carrying the
collection prefix) whose records are Sep-joined key batches sharing their
first logical key. The forward iterator yields (5,) twice, so the yielded
key sequence is not strictly increasing. -/
theorem C6_counterexample :
    fwdStream1.Pairwise (fun a b => acid_memcmp a.1 b.1 = Ordering.lt) ∧
    (∀ r ∈ fwdStream1, r.1.take 1 = [0x50]) ∧
    runIter 2 (rangeiter_forward fwdBase0 fwdStream1) =
      [[0x15, 0x05], [0x15, 0x05]] ∧
    ¬ (runIter 2 (rangeiter_forward fwdBase0 fwdStream1)).Pairwise
        (fun a b => acid_memcmp a b = Ordering.lt) := by
  decide

/-! ### Prefix bounds (src/ext/keylib.c acid_prefix_bound, seek_last_element,
acid_next_greater_bytes, acid_next_greater_text) -/

theorem and128_lo {b : Nat} (h : b < 128) : b &&& 128 = 0 := by
  have h7 : b.testBit 7 = false := Nat.testBit_lt_two_pow (by norm_num; omega)
  have h2 := Nat.and_two_pow b 7
  norm_num at h2
  rw [h2, h7]
  rfl

theorem and128_hi {b : Nat} (h1 : 128 ≤ b) (h2 : b < 256) : b &&& 128 ≠ 0 := by
  have h7 : b.testBit 7 = true := by
    rw [Nat.testBit_to_div_mod]
    have hd : b / 2 ^ 7 = 1 := by norm_num; omega
    rw [hd]
    rfl
  have h3 := Nat.and_two_pow b 7
  norm_num at h3
  rw [h3, h7]
  norm_num

theorem dropWhile_highbit (s r : List Nat) (hs : ∀ b ∈ s, 128 ≤ b ∧ b < 256)
    (hr : goodRest r) :
    (s ++ r).dropWhile (fun b => b &&& 0x80 != 0) = r := by
  induction s with
  | nil =>
    cases r with
    | nil => rfl
    | cons h t =>
      show List.dropWhile _ (h :: t) = h :: t
      rw [List.dropWhile_cons]
      have hc : ((h &&& 0x80 != 0) = false) := by
        have hlt : h < 128 := hr
        simp [and128_lo hlt]
      rw [hc]
      simp
  | cons b bs ih =>
    show List.dropWhile _ (b :: (bs ++ r)) = r
    rw [List.dropWhile_cons]
    obtain ⟨hb1, hb2⟩ := hs b (by simp)
    have hc : ((b &&& 0x80 != 0) = true) := by
      simp [and128_hi hb1 hb2]
    rw [hc]
    simp only [if_true]
    exact ih (fun x hx => hs x (by simp [hx]))

theorem int_body_skip (xor v : Nat) (r : List Nat) :
    ∃ b r0, write_int_body xor v ++ r = b :: r0 ∧
      ((if 240 < xor ^^^ b ∧ xor ^^^ b ≤ 248 then r0.drop 1
        else if 249 ≤ xor ^^^ b then r0.drop (8 - (255 - (xor ^^^ b)))
        else r0) = r) := by
  unfold write_int_body
  by_cases h1 : v ≤ 240
  · rw [if_pos h1]
    refine ⟨xor ^^^ v, r, rfl, ?_⟩
    rw [xor_xor_cancel]
    rw [if_neg (by omega), if_neg (by omega)]
  · rw [if_neg h1]
    by_cases h2 : v ≤ 2287
    · rw [if_pos h2]
      refine ⟨xor ^^^ (241 + (v - 240) / 256), (xor ^^^ ((v - 240) % 256)) :: r,
        rfl, ?_⟩
      rw [xor_xor_cancel]
      have hq : (v - 240) / 256 ≤ 7 := by omega
      rw [if_pos ⟨by omega, by omega⟩]
      rfl
    · rw [if_neg h2]
      by_cases h3 : v ≤ 67823
      · rw [if_pos h3]
        refine ⟨xor ^^^ 0xf9,
          (xor ^^^ ((v - 2288) / 256)) :: (xor ^^^ ((v - 2288) % 256)) :: r,
          rfl, ?_⟩
        rw [xor_xor_cancel]
        rw [if_neg (by omega), if_pos (by omega)]
        rfl
      · rw [if_neg h3]
        refine ⟨xor ^^^ bigType v, (bigBody v).map (xor ^^^ ·) ++ r, by simp, ?_⟩
        rw [xor_xor_cancel]
        have hlen : ((bigBody v).map (xor ^^^ ·)).length = bigType v - 247 := by
          simp only [List.length_map, bigBody, bigType, List.length_append,
            apply_ite List.length, List.length_cons, List.length_nil]
          split_ifs <;> norm_num
        have h250 : 250 ≤ bigType v := by
          unfold bigType
          split_ifs <;> omega
        have h255 : bigType v ≤ 255 := by
          unfold bigType
          split_ifs <;> omega
        rw [if_neg (by omega), if_pos (by omega)]
        have h8 : 8 - (255 - bigType v) = bigType v - 247 := by omega
        rw [h8, ← hlen, List.drop_left]

theorem skip_el_null (rest : List Nat) :
    acid_skip_element (KIND_NULL :: rest) = some (rest, rest.isEmpty) := rfl

theorem skip_el_bool (x : Nat) (rest : List Nat) :
    acid_skip_element (KIND_BOOL :: x :: rest) = some (rest, rest.isEmpty) := rfl

theorem skip_el_int (rest : List Nat) :
    acid_skip_element (KIND_INTEGER :: rest) =
      (match rest with
       | [] => none
       | b :: r =>
         let c := 0 ^^^ b
         let r2 := if 240 < c ∧ c ≤ 248 then r.drop 1
                   else if 249 ≤ c then r.drop (8 - (255 - c))
                   else r
         some (r2, r2.isEmpty)) := rfl

theorem skip_el_negint (rest : List Nat) :
    acid_skip_element (KIND_NEG_INTEGER :: rest) =
      (match rest with
       | [] => none
       | b :: r =>
         let c := 0xff ^^^ b
         let r2 := if 240 < c ∧ c ≤ 248 then r.drop 1
                   else if 249 ≤ c then r.drop (8 - (255 - c))
                   else r
         some (r2, r2.isEmpty)) := rfl

theorem skip_el_time (rest : List Nat) :
    acid_skip_element (KIND_TIME :: rest) =
      (match rest with
       | [] => none
       | b :: r =>
         let c := 0 ^^^ b
         let r2 := if 240 < c ∧ c ≤ 248 then r.drop 1
                   else if 249 ≤ c then r.drop (8 - (255 - c))
                   else r
         some (r2, r2.isEmpty)) := rfl

theorem skip_el_negtime (rest : List Nat) :
    acid_skip_element (KIND_NEG_TIME :: rest) =
      (match rest with
       | [] => none
       | b :: r =>
         let c := 0xff ^^^ b
         let r2 := if 240 < c ∧ c ≤ 248 then r.drop 1
                   else if 249 ≤ c then r.drop (8 - (255 - c))
                   else r
         some (r2, r2.isEmpty)) := rfl

theorem skip_el_blob (rest : List Nat) :
    acid_skip_element (KIND_BLOB :: rest) =
      (let r := rest.dropWhile (fun b => b &&& 0x80 != 0)
       some (r, r.isEmpty)) := rfl

theorem skip_el_text (rest : List Nat) :
    acid_skip_element (KIND_TEXT :: rest) =
      (let r := rest.dropWhile (fun b => b &&& 0x80 != 0)
       some (r, r.isEmpty)) := rfl

theorem skip_el_uuid (rest : List Nat) :
    acid_skip_element (KIND_UUID :: rest) =
      some (rest.drop 16, (rest.drop 16).isEmpty) := rfl

/-- Skipping inverts writing: acid_skip_element jumps exactly over one
encoded element, leaving the rest and reporting eof iff nothing follows. -/
theorem acid_skip_element_write {e : Element} (he : SafeElem e) (r : List Nat)
    (hr : goodRest r) :
    acid_skip_element (acid_write_element e ++ r) = some (r, r.isEmpty) := by
  obtain ⟨hv, hs⟩ := he
  cases e with
  | null => rfl
  | bool b => cases b <;> rfl
  | int v =>
    by_cases h0 : v < 0
    · show acid_skip_element (acid_write_element (.int v) ++ r) = _
      rw [show acid_write_element (.int v) =
          KIND_NEG_INTEGER :: write_int_body 0xff (-v).toNat from by
        simp only [acid_write_element, if_pos h0]
        exact write_int20 0xff (-v).toNat]
      rw [List.cons_append, skip_el_negint]
      obtain ⟨b, r0, hsplit, hdrop⟩ := int_body_skip 0xff (-v).toNat r
      rw [hsplit]
      simp only [hdrop]
    · show acid_skip_element (acid_write_element (.int v) ++ r) = _
      rw [show acid_write_element (.int v) =
          KIND_INTEGER :: write_int_body 0 v.toNat from by
        simp only [acid_write_element, if_neg h0]
        exact write_int21 0 v.toNat]
      rw [List.cons_append, skip_el_int]
      obtain ⟨b, r0, hsplit, hdrop⟩ := int_body_skip 0 v.toNat r
      rw [hsplit]
      simp only [hdrop]
  | blob s =>
    show acid_skip_element ((KIND_BLOB :: write_str s) ++ r) = _
    rw [List.cons_append, skip_el_blob]
    have hb := write_str_body_bytes s 1 0 hv (by norm_num)
    simp only [dropWhile_highbit (write_str s) r hb hr]
  | text s =>
    show acid_skip_element ((KIND_TEXT :: write_str (utf8 s)) ++ r) = _
    rw [List.cons_append, skip_el_text]
    have hb := write_str_body_bytes (utf8 s) 1 0 (utf8_bytes hv) (by norm_num)
    simp only [dropWhile_highbit (write_str (utf8 s)) r hb hr]
  | uuid s =>
    show acid_skip_element ((KIND_UUID :: s) ++ r) = _
    rw [List.cons_append, skip_el_uuid]
    have hlen : s.length = 16 := hv.1
    rw [show (s ++ r).drop 16 = r from by rw [← hlen, List.drop_left]]
  | time m q =>
    have h0 : ¬ timeComposite m q < 0 := by
      simp only [SafeElem] at hs
      omega
    show acid_skip_element (acid_write_element (.time m q) ++ r) = _
    rw [show acid_write_element (.time m q) =
        KIND_TIME :: write_int_body 0 (timeComposite m q).toNat from by
      simp only [acid_write_element, if_neg h0]
      exact write_int92 0 (timeComposite m q).toNat]
    rw [List.cons_append, skip_el_time]
    obtain ⟨b, r0, hsplit, hdrop⟩ := int_body_skip 0 (timeComposite m q).toNat r
    rw [hsplit]
    simp only [hdrop]

theorem write_tuple_append (a b : List Element) :
    write_tuple (a ++ b) = write_tuple a ++ write_tuple b := by
  induction a with
  | nil => rfl
  | cons e es ih =>
    show write_tuple (e :: (es ++ b)) = (acid_write_element e ++ write_tuple es) ++ write_tuple b
    show acid_write_element e ++ write_tuple (es ++ b) = _
    rw [ih, List.append_assoc]

/-- seek_last_element (src/ext/keylib.c lines 928-946): remember the start of
each element while skipping; stop at the element whose skip reports eof. The
result is the offset of the last element; the fuel bounds the loop. -/
def seek_last : Nat → List Nat → Option Nat
  | 0, _ => none
  | f + 1, l =>
    match acid_skip_element l with
    | none => none
    | some (rr, eof) =>
      if eof then some 0
      else (seek_last f rr).map (· + (l.length - rr.length))

theorem seek_last_write : ∀ (t : List Element) (e : Element) (f : Nat),
    (∀ x ∈ t, SafeElem x) → SafeElem e → t.length + 1 ≤ f →
    seek_last f (write_tuple (t ++ [e])) = some (write_tuple t).length := by
  intro t
  induction t with
  | nil =>
    intro e f _ he hf
    cases f with
    | zero => omega
    | succ f2 =>
      rw [seek_last]
      rw [show write_tuple ([] ++ [e]) = acid_write_element e ++ [] from by
        simp [write_tuple]]
      rw [acid_skip_element_write ⟨he.1, he.2⟩ [] trivial]
      rfl
  | cons e0 t2 ih =>
    intro e f ht he hf
    cases f with
    | zero => omega
    | succ f2 =>
      rw [seek_last]
      have hsplit : write_tuple ((e0 :: t2) ++ [e]) =
          acid_write_element e0 ++ write_tuple (t2 ++ [e]) := rfl
      rw [hsplit]
      rw [acid_skip_element_write (ht e0 (List.mem_cons_self _ _))
        (write_tuple (t2 ++ [e])) (goodRest_write_tuple _)]
      have hne : write_tuple (t2 ++ [e]) ≠ [] := write_tuple_ne_nil (by simp)
      have hie : (write_tuple (t2 ++ [e])).isEmpty = false := by
        cases hc : write_tuple (t2 ++ [e]) with
        | nil => exact absurd hc hne
        | cons x xs => rfl
      rw [hie]
      simp only [Bool.false_eq_true, if_false]
      have hf2 : t2.length + 1 ≤ f2 := by
        simp only [List.length_cons] at hf
        omega
      rw [ih e f2 (fun x hx => ht x (List.mem_cons_of_mem _ hx)) he hf2]
      simp only [Option.map_some']
      congr 1
      have hlen : (acid_write_element e0 ++ write_tuple (t2 ++ [e])).length =
          (acid_write_element e0).length + (write_tuple (t2 ++ [e])).length := by
        rw [List.length_append]
      show (write_tuple t2).length + _ = (write_tuple (e0 :: t2)).length
      rw [hlen]
      have : (write_tuple (e0 :: t2)).length =
          (acid_write_element e0).length + (write_tuple t2).length := by
        show (acid_write_element e0 ++ write_tuple t2).length = _
        rw [List.length_append]
      omega

/-- acid_next_greater_bytes (src/ext/keylib.c lines 884-895): copy the
longest prefix not ending in 0xff and increment its last byte; absent when
that prefix is empty. -/
def acid_next_greater_bytes (s : List Nat) : Option (List Nat) :=
  if longest_pfx s = 0 then none else some (incrLast (s.take (longest_pfx s)))

/-- PyUnicode_GetMax() on a wide build (src/ext/keylib.c line 1160 stores it
in max_unicode_ordinal). -/
def max_unicode_ordinal : Nat := 0x10ffff

/-- The goodlen loop of acid_next_greater_text (src/ext/keylib.c lines
908-914): length of the longest prefix of the code points not ending in the
maximum ordinal. -/
def text_goodlen : List Nat → Nat
  | [] => 0
  | c :: rest =>
    let r := text_goodlen rest
    if r = 0 then (if c ≠ max_unicode_ordinal then 1 else 0) else r + 1

/-- acid_next_greater_text (src/ext/keylib.c lines 901-923): like the bytes
version, on code points against the maximum ordinal. -/
def acid_next_greater_text (s : List Nat) : Option (List Nat) :=
  if text_goodlen s = 0 then none else some (incrLast (s.take (text_goodlen s)))

/-- acid_prefix_bound (src/ext/keylib.c lines 950-997): find the last
element; for text and blob decode it, compute the next greater string and
re-encode it after the leading bytes; for other kinds copy up to the longest
prefix not ending in 0xff and increment. When the next-greater string is
absent, recurse on the key without its last element (the non-string branch
has already emitted the leading bytes at that point, which the map
reproduces). The fuel bounds the recursion depth. -/
def acid_prefix_bound_fuel : Nat → List Nat → Option (List Nat)
  | 0, _ => none
  | f + 1, src =>
    match src with
    | [] => none
    | _ :: _ =>
      match seek_last src.length src with
      | none => none
      | some off =>
        let pre := src.take off
        let tail := src.drop off
        match tail with
        | [] => none
        | kind :: _ =>
          if kind = KIND_TEXT ∨ kind = KIND_BLOB then
            match acid_read_element tail with
            | some (.blob s2, _) =>
              match acid_next_greater_bytes s2 with
              | some s3 => some (pre ++ acid_write_element (.blob s3))
              | none => acid_prefix_bound_fuel f pre
            | some (.text s2, _) =>
              match acid_next_greater_text s2 with
              | some s3 => some (pre ++ acid_write_element (.text s3))
              | none => acid_prefix_bound_fuel f pre
            | _ => none
          else
            let g := longest_pfx tail
            if g = 0 then (acid_prefix_bound_fuel f pre).map (pre ++ ·)
            else some (pre ++ incrLast (tail.take g))

def acid_prefix_bound (src : List Nat) : Option (List Nat) :=
  acid_prefix_bound_fuel (src.length + 1) src

theorem longest_pfx_pos {b : Nat} (rest : List Nat) (hb : b ≠ 0xff) :
    longest_pfx (b :: rest) ≠ 0 := by
  intro h
  exact hb (longest_pfx_zero (b :: rest) |>.mp h b (by simp))

theorem take_ne_nil_of_pos {l : List Nat} {g : Nat} (hg : 1 ≤ g) (hl : l ≠ []) :
    l.take g ≠ [] := by
  cases l with
  | nil => exact absurd rfl hl
  | cons x xs =>
    cases g with
    | zero => omega
    | succ g2 => simp

theorem incrLast_cons (b x : Nat) (xs : List Nat) :
    incrLast (b :: x :: xs) = b :: incrLast (x :: xs) := rfl

theorem incrLast_take_longest_bytes : ∀ (k : List Nat), Bytes k →
    longest_pfx k ≠ 0 → Bytes (incrLast (k.take (longest_pfx k))) := by
  intro k
  induction k with
  | nil => intro _ h; exact absurd rfl h
  | cons b rest ih =>
    intro hb h
    by_cases hr : longest_pfx rest = 0
    · by_cases hbf : b = 0xff
      · exfalso
        apply h
        show (if longest_pfx rest = 0 then (if b ≠ 0xff then 1 else 0)
          else longest_pfx rest + 1) = 0
        rw [if_pos hr, if_neg (by simp [hbf])]
      · have hval : longest_pfx (b :: rest) = 1 := by
          show (if longest_pfx rest = 0 then (if b ≠ 0xff then 1 else 0)
            else longest_pfx rest + 1) = 1
          rw [if_pos hr, if_pos hbf]
        rw [hval]
        show Bytes (incrLast [b])
        intro x hx
        have hb256 : b < 256 := hb b (by simp)
        have : x = b + 1 := by simpa [incrLast] using hx
        omega
    · have hval : longest_pfx (b :: rest) = longest_pfx rest + 1 := by
        show (if longest_pfx rest = 0 then (if b ≠ 0xff then 1 else 0)
          else longest_pfx rest + 1) = longest_pfx rest + 1
        rw [if_neg hr]
      rw [hval]
      show Bytes (incrLast (b :: rest.take (longest_pfx rest)))
      have htail : rest.take (longest_pfx rest) ≠ [] := by
        refine take_ne_nil_of_pos (by omega) ?_
        intro hnil
        rw [hnil] at hr
        exact hr rfl
      obtain ⟨y, ys, hys⟩ : ∃ y ys, rest.take (longest_pfx rest) = y :: ys := by
        cases hc : rest.take (longest_pfx rest) with
        | nil => exact absurd hc htail
        | cons y ys => exact ⟨y, ys, rfl⟩
      rw [hys, incrLast_cons]
      intro x hx
      rcases List.mem_cons.mp hx with hx | hx
      · rw [hx]
        exact hb b (by simp)
      · have hih := ih (fun z hz => hb z (List.mem_cons_of_mem _ hz)) hr
        rw [hys] at hih
        exact hih x hx

theorem incrLast_take_goodlen_lt : ∀ (k : List Nat), (∀ c ∈ k, c < 0x110000) →
    text_goodlen k ≠ 0 →
    ∀ c ∈ incrLast (k.take (text_goodlen k)), c < 0x110000 := by
  intro k
  induction k with
  | nil => intro _ h; exact absurd rfl h
  | cons b rest ih =>
    intro hb h
    by_cases hr : text_goodlen rest = 0
    · by_cases hbf : b = max_unicode_ordinal
      · exfalso
        apply h
        show (if text_goodlen rest = 0 then (if b ≠ max_unicode_ordinal then 1 else 0)
          else text_goodlen rest + 1) = 0
        rw [if_pos hr, if_neg (by simp [hbf])]
      · have hval : text_goodlen (b :: rest) = 1 := by
          show (if text_goodlen rest = 0 then (if b ≠ max_unicode_ordinal then 1 else 0)
            else text_goodlen rest + 1) = 1
          rw [if_pos hr, if_pos hbf]
        rw [hval]
        intro c hc
        have hb0 : b < 0x110000 := hb b (by simp)
        have hbm : b ≠ 0x10ffff := hbf
        have : c = b + 1 := by simpa [incrLast] using hc
        omega
    · have hval : text_goodlen (b :: rest) = text_goodlen rest + 1 := by
        show (if text_goodlen rest = 0 then (if b ≠ max_unicode_ordinal then 1 else 0)
          else text_goodlen rest + 1) = text_goodlen rest + 1
        rw [if_neg hr]
      rw [hval]
      show ∀ c ∈ incrLast (b :: rest.take (text_goodlen rest)), c < 0x110000
      have htail : rest.take (text_goodlen rest) ≠ [] := by
        refine take_ne_nil_of_pos (by omega) ?_
        intro hnil
        rw [hnil] at hr
        exact hr rfl
      obtain ⟨y, ys, hys⟩ : ∃ y ys, rest.take (text_goodlen rest) = y :: ys := by
        cases hc : rest.take (text_goodlen rest) with
        | nil => exact absurd hc htail
        | cons y ys => exact ⟨y, ys, rfl⟩
      rw [hys, incrLast_cons]
      intro c hc
      rcases List.mem_cons.mp hc with hc | hc
      · rw [hc]
        exact hb b (by simp)
      · have hih := ih (fun z hz => hb z (List.mem_cons_of_mem _ hz)) hr
        rw [hys] at hih
        exact hih c hc

theorem prefix_bound_fuel_nil (f : Nat) : acid_prefix_bound_fuel f [] = none := by
  cases f <;> rfl

theorem prefix_bound_upper : ∀ (F : Nat) (t suffix : List Element) (b : List Nat),
    t ≠ [] → (∀ x ∈ t, SafeElem x) →
    acid_prefix_bound_fuel F (write_tuple t) = some b →
    acid_memcmp (write_tuple (t ++ suffix)) b = .lt := by
  intro F
  induction F with
  | zero =>
    intro t suffix b _ _ h
    simp only [acid_prefix_bound_fuel] at h
    exact Option.noConfusion h
  | succ f ihF =>
    intro t suffix b htne hts hpb
    rcases List.eq_nil_or_concat t with rfl | ⟨init, e, ht⟩
    · exact absurd rfl htne
    subst ht
    simp only [List.concat_eq_append] at hts hpb ⊢
    have he : SafeElem e := hts e (by simp)
    have hsrc : write_tuple (init ++ [e]) =
        write_tuple init ++ acid_write_element e := by
      rw [write_tuple_append]
      simp [write_tuple]
    have hseek : seek_last (write_tuple (init ++ [e])).length
        (write_tuple (init ++ [e])) = some (write_tuple init).length := by
      refine seek_last_write init e _ (fun x hx => hts x (by simp [hx])) he ?_
      have h1 := write_tuple_len (init ++ [e])
      simp only [List.length_append, List.length_singleton] at h1
      omega
    have hne2 : write_tuple (init ++ [e]) ≠ [] := write_tuple_ne_nil (by simp)
    obtain ⟨x, xs, hc⟩ : ∃ x xs, write_tuple (init ++ [e]) = x :: xs := by
      cases hcc : write_tuple (init ++ [e]) with
      | nil => exact absurd hcc hne2
      | cons x xs => exact ⟨x, xs, rfl⟩
    rw [hc] at hpb
    rw [acid_prefix_bound_fuel] at hpb
    rw [hc] at hseek
    rw [hseek] at hpb
    dsimp only at hpb
    rw [← hc] at hpb
    have htake : (write_tuple (init ++ [e])).take (write_tuple init).length =
        write_tuple init := by
      rw [hsrc]
      exact List.take_left _ _
    have hdrop : (write_tuple (init ++ [e])).drop (write_tuple init).length =
        acid_write_element e := by
      rw [hsrc]
      exact List.drop_left _ _
    rw [htake, hdrop] at hpb
    obtain ⟨etail, hhead⟩ := write_element_head e
    rw [hhead] at hpb
    dsimp only at hpb
    have hgoal : write_tuple (init ++ ([e] ++ suffix)) =
        write_tuple init ++ (acid_write_element e ++ write_tuple suffix) := by
      rw [write_tuple_append]
      rfl
    rw [← List.append_assoc] at hgoal
    rw [show (init ++ [e]) ++ suffix = init ++ [e] ++ suffix from rfl]
    rw [hgoal]
    by_cases hstr : headByte e = KIND_TEXT ∨ headByte e = KIND_BLOB
    · rw [if_pos hstr] at hpb
      cases e with
      | null => exact absurd hstr (by norm_num [headByte, KIND_NULL, KIND_TEXT, KIND_BLOB])
      | bool v => exact absurd hstr (by norm_num [headByte, KIND_BOOL, KIND_TEXT, KIND_BLOB])
      | uuid s => exact absurd hstr (by norm_num [headByte, KIND_UUID, KIND_TEXT, KIND_BLOB])
      | int v =>
        exact absurd hstr (by
          by_cases h0 : v < 0 <;>
            simp [headByte, h0, KIND_INTEGER, KIND_NEG_INTEGER, KIND_TEXT, KIND_BLOB])
      | time m q =>
        exact absurd hstr (by
          by_cases h0 : timeComposite m q < 0 <;>
            simp [headByte, h0, KIND_TIME, KIND_NEG_TIME, KIND_TEXT, KIND_BLOB])
      | text s =>
        have hvt : ValidText s := he.1
        have hlt : ∀ c ∈ s, c < 0x110000 := fun c hc => (hvt c hc).1
        have hre : acid_read_element (headByte (Element.text s) :: etail) =
            some (.text s, []) := by
          rw [← hhead]
          have h2 := acid_read_element_write he [] trivial
          rw [List.append_nil] at h2
          exact h2
        rw [hre] at hpb
        dsimp only at hpb
        rcases hng : acid_next_greater_text s with _ | s3
        · rw [hng] at hpb
          dsimp only at hpb
          by_cases hinit : init = []
          · rw [hinit] at hpb
            rw [show write_tuple ([] : List Element) = [] from rfl,
              prefix_bound_fuel_nil] at hpb
            cases hpb
          · have hres := ihF init ([.text s] ++ suffix) b hinit
              (fun z hz => hts z (by simp [hz])) hpb
            rw [write_tuple_append] at hres
            exact hres
        · rw [hng] at hpb
          dsimp only at hpb
          have hbv : b = write_tuple init ++ acid_write_element (.text s3) :=
            (Option.some.inj hpb).symm
          rw [hbv, acid_memcmp_append_cancel]
          have hg : text_goodlen s ≠ 0 := by
            intro h0
            rw [acid_next_greater_text, if_pos h0] at hng
            cases hng
          have hs3 : s3 = incrLast (s.take (text_goodlen s)) := by
            rw [acid_next_greater_text, if_neg hg] at hng
            exact (Option.some.inj hng).symm
          have hsne : s ≠ [] := by
            intro h0
            rw [h0] at hg
            exact hg rfl
          have hlt3 : ∀ c ∈ s3, c < 0x110000 := by
            rw [hs3]
            exact incrLast_take_goodlen_lt s hlt hg
          show acid_memcmp ((KIND_TEXT :: write_str (utf8 s)) ++ write_tuple suffix)
            (KIND_TEXT :: write_str (utf8 s3)) = .lt
          show (compare KIND_TEXT KIND_TEXT).then
            (acid_memcmp (write_str (utf8 s) ++ write_tuple suffix)
              (write_str (utf8 s3))) = .lt
          rw [nat_compare_self, Ordering.eq_then]
          rw [show write_str (utf8 s3) = write_str (utf8 s3) ++ [] from
            (List.append_nil _).symm]
          rw [write_str_cmp (utf8_bytes hvt) (utf8_bytes_lt hlt3)
            (goodRest_write_tuple suffix) (show goodRest [] from trivial)]
          have hcmp : acid_memcmp (utf8 s) (utf8 s3) = .lt := by
            rw [utf8_cmp_lt hlt hlt3]
            rw [hs3]
            have hsplit : s = s.take (text_goodlen s) ++ s.drop (text_goodlen s) :=
              (List.take_append_drop _ _).symm
            rw [show acid_memcmp s (incrLast (s.take (text_goodlen s))) =
                acid_memcmp (s.take (text_goodlen s) ++ s.drop (text_goodlen s))
                  (incrLast (s.take (text_goodlen s))) from by rw [← hsplit]]
            exact memcmp_pad_incr_lt _ _ (take_ne_nil_of_pos (by omega) hsne)
          rw [hcmp]
          rfl
      | blob s =>
        have hbytes : Bytes s := he.1
        have hre : acid_read_element (headByte (Element.blob s) :: etail) =
            some (.blob s, []) := by
          rw [← hhead]
          have h2 := acid_read_element_write he [] trivial
          rw [List.append_nil] at h2
          exact h2
        rw [hre] at hpb
        dsimp only at hpb
        rcases hng : acid_next_greater_bytes s with _ | s3
        · rw [hng] at hpb
          dsimp only at hpb
          by_cases hinit : init = []
          · rw [hinit] at hpb
            rw [show write_tuple ([] : List Element) = [] from rfl,
              prefix_bound_fuel_nil] at hpb
            cases hpb
          · have hres := ihF init ([.blob s] ++ suffix) b hinit
              (fun z hz => hts z (by simp [hz])) hpb
            rw [write_tuple_append] at hres
            exact hres
        · rw [hng] at hpb
          dsimp only at hpb
          have hbv : b = write_tuple init ++ acid_write_element (.blob s3) :=
            (Option.some.inj hpb).symm
          rw [hbv, acid_memcmp_append_cancel]
          have hg : longest_pfx s ≠ 0 := by
            intro h0
            rw [acid_next_greater_bytes, if_pos h0] at hng
            cases hng
          have hs3 : s3 = incrLast (s.take (longest_pfx s)) := by
            rw [acid_next_greater_bytes, if_neg hg] at hng
            exact (Option.some.inj hng).symm
          have hsne : s ≠ [] := by
            intro h0
            rw [h0] at hg
            exact hg rfl
          have hb3 : Bytes s3 := by
            rw [hs3]
            exact incrLast_take_longest_bytes s hbytes hg
          show acid_memcmp ((KIND_BLOB :: write_str s) ++ write_tuple suffix)
            (KIND_BLOB :: write_str s3) = .lt
          show (compare KIND_BLOB KIND_BLOB).then
            (acid_memcmp (write_str s ++ write_tuple suffix) (write_str s3)) = .lt
          rw [nat_compare_self, Ordering.eq_then]
          rw [show write_str s3 = write_str s3 ++ [] from (List.append_nil _).symm]
          rw [write_str_cmp hbytes hb3 (goodRest_write_tuple suffix)
            (show goodRest [] from trivial)]
          have hcmp : acid_memcmp s s3 = .lt := by
            rw [hs3]
            have hsplit : s = s.take (longest_pfx s) ++ s.drop (longest_pfx s) :=
              (List.take_append_drop _ _).symm
            rw [show acid_memcmp s (incrLast (s.take (longest_pfx s))) =
                acid_memcmp (s.take (longest_pfx s) ++ s.drop (longest_pfx s))
                  (incrLast (s.take (longest_pfx s))) from by rw [← hsplit]]
            exact memcmp_pad_incr_lt _ _ (take_ne_nil_of_pos (by omega) hsne)
          rw [hcmp]
          rfl
    · rw [if_neg hstr] at hpb
      have hkff : headByte e ≠ 0xff := by
        have := headByte_lt128 e
        omega
      have hg : longest_pfx (headByte e :: etail) ≠ 0 := longest_pfx_pos etail hkff
      rw [if_neg hg] at hpb
      have hbv : b = write_tuple init ++
          incrLast ((headByte e :: etail).take (longest_pfx (headByte e :: etail))) :=
        (Option.some.inj hpb).symm
      rw [hbv, acid_memcmp_append_cancel]
      rw [hhead]
      have hsplit : (headByte e :: etail) ++ write_tuple suffix =
          (headByte e :: etail).take (longest_pfx (headByte e :: etail)) ++
            ((headByte e :: etail).drop (longest_pfx (headByte e :: etail)) ++
              write_tuple suffix) := by
        conv_lhs =>
          rw [← List.take_append_drop (longest_pfx (headByte e :: etail))
            (headByte e :: etail)]
        rw [List.append_assoc]
      rw [hsplit]
      exact memcmp_pad_incr_lt _ _ (take_ne_nil_of_pos (by omega) (by simp))

/-- C4: amended prefix-bound claim. The upper-bound half of the spec sentence
holds: for every non-empty tuple of safe elements, when acid_prefix_bound
yields a bound, every tuple-prefix extension of the tuple (the tuple itself
included) encodes strictly below that bound. The minimality half ("no other
keys lie below the bound") is false, see the counterexample. -/
theorem C4_prefix_bound :
    ∀ (t suffix : List Element) (b : List Nat),
      t ≠ [] → (∀ x ∈ t, SafeElem x) →
      acid_prefix_bound (write_tuple t) = some b →
      acid_memcmp (write_tuple (t ++ suffix)) b = .lt :=
  fun t suffix b h1 h2 h5 =>
    prefix_bound_upper ((write_tuple t).length + 1) t suffix b h1 h2 h5

theorem C4_prefix_bound_witness :
    acid_prefix_bound (write_tuple [Element.text [0x61], Element.blob [0x61]]) =
      some [0x32, 0xb0, 0xc0, 0x28, 0xb1, 0x80] ∧
    acid_memcmp
      (write_tuple ([Element.text [0x61], Element.blob [0x61]] ++ [Element.null]))
      [0x32, 0xb0, 0xc0, 0x28, 0xb1, 0x80] = .lt :=
  ⟨by decide,
    C4_prefix_bound [Element.text [0x61], Element.blob [0x61]] [Element.null]
      [0x32, 0xb0, 0xc0, 0x28, 0xb1, 0x80] (by decide) (by decide) (by decide)⟩

/-- C4 counterexample to minimality: the tuple q = (blob "aa") does not have
p = (blob "a") as a tuple prefix — q's sole element already differs — yet its
encoding lies strictly between p's own encoding and prefix_bound(p). So keys
other than the tuple-prefix extensions of p sit below the bound, refuting
"every key not having p as a tuple prefix encodes below p or at/above the
bound". -/
theorem C4_counterexample :
    acid_prefix_bound (write_tuple [Element.blob [0x61]]) =
      some [0x28, 0xb1, 0x80] ∧
    acid_memcmp (write_tuple [Element.blob [0x61]])
      (write_tuple [Element.blob [0x61, 0x61]]) = .lt ∧
    acid_memcmp (write_tuple [Element.blob [0x61, 0x61]]) [0x28, 0xb1, 0x80] = .lt ∧
    acid_read_element (write_tuple [Element.blob [0x61, 0x61]]) =
      some (Element.blob [0x61, 0x61], []) ∧
    Element.blob [0x61, 0x61] ≠ Element.blob [0x61] := by
  decide

end Acid
